import Mathlib

/-!
# ccx_lexer: a shallow embedding of `src/src/parse.c`

The scanner reads a stream one `char` at a time, keeps the lexeme under construction in a
NUL-terminated buffer and writes one line per completed token.

Conventions of the embedding.

* A `Char` stands for one `char` value (one byte of the input).  `char` is the signed 8-bit
  type of the Linux/x86 target the header is written for (`<linux/limits.h>`): the byte 255
  stored in a `char` equals `(char)EOF`; it is the constant `CHAR_EOF`.  The `<ctype.h>`
  predicates are those of the "C" locale and are false outside ASCII.
* A `FILE` is the list of the characters still to be read, pushed-back characters first.
* A `Buffer` is a `char` array: the list holds its leading cells, every cell past the end of
  the list holds NUL.  The functions compute on arrays that have a cell for every index; the
  sizes that the source declares (`MAX_BUFFER`, `PEEK_BUFFER_LEN`, the one cell of
  `is_comment_end`) and the uninitialised start of `lexeme` are accounted for apart, by the
  predicates `*_within` and by `parse_start` (section "The arrays as the source declares
  them"): an access outside an array is undefined behaviour.
* `int` results that the callers use as truth values are kept as `Int` where the source can
  return the `EOF` sentinel, and are `Bool` otherwise.
-/

namespace CcxLexer

/-! ## Characters and `<ctype.h>` -/

/-- The string terminator. -/
def NUL : Char := Char.ofNat 0

/-- The `char` value of the byte 255, equal to `(char)EOF` where `char` is signed. -/
def CHAR_EOF : Char := Char.ofNat 255

/-- The double quote, code 34. -/
def DQUOTE : Char := Char.ofNat 34

/-- The single quote, code 39. -/
def SQUOTE : Char := Char.ofNat 39

/-- The line feed, code 10. -/
def NEWLINE : Char := Char.ofNat 10

/-- The end-of-input sentinel of `<stdio.h>`. -/
def EOF : Int := -1

/-- Size of the lexeme array (`parse.h`). -/
def MAX_BUFFER : Nat := 65536

/-- The `isspace` of the "C" locale: space, and the controls 9 to 13. -/
def isspace (c : Char) : Bool :=
  c.toNat == 32 || (9 ≤ c.toNat && c.toNat ≤ 13)

/-- The `isdigit` of the "C" locale. -/
def isdigit (c : Char) : Bool :=
  48 ≤ c.toNat && c.toNat ≤ 57

/-- The `isalpha` of the "C" locale. -/
def isalpha (c : Char) : Bool :=
  (65 ≤ c.toNat && c.toNat ≤ 90) || (97 ≤ c.toNat && c.toNat ≤ 122)

/-- The `isalnum` of the "C" locale. -/
def isalnum (c : Char) : Bool :=
  isalpha c || isdigit c

/-- The `isxdigit` of the "C" locale. -/
def isxdigit (c : Char) : Bool :=
  isdigit c || (65 ≤ c.toNat && c.toNat ≤ 70) || (97 ≤ c.toNat && c.toNat ≤ 102)

/-! ## `char` arrays and C strings -/

/-- A `char` array; cells past the end of the list hold NUL. -/
abbrev Buffer := List Char

/-- Reading of the cell `b[i]`. -/
def buf_get (b : Buffer) (i : Nat) : Char :=
  b.getD i NUL

/-- Assignment `b[i] = c`; like the source it checks no bound. -/
def buf_set (b : Buffer) (i : Nat) (c : Char) : Buffer :=
  if i < b.length then b.set i c
  else b ++ List.replicate (i - b.length) NUL ++ [c]

/-- Assignment of the cells `b[i], b[i+1], ...` from a list. -/
def buf_set_from (b : Buffer) (i : Nat) : List Char → Buffer
  | [] => b
  | c :: cs => buf_set_from (buf_set b i c) (i + 1) cs

/-- The C string held by an array: its cells up to the first NUL. -/
def cstr (b : Buffer) : List Char :=
  b.takeWhile (fun c => c != NUL)

/-- The `strlen` of `<string.h>`. -/
def strlen (b : Buffer) : Nat :=
  (cstr b).length

/-- The `strcat` of `<string.h>`: the string `src` and its terminator are written
from the first NUL of `dest` on. -/
def strcat (dest : Buffer) (src : List Char) : Buffer :=
  buf_set_from dest (strlen dest) (cstr src ++ [NUL])

/-- The test `strcmp(a, b) == 0`. -/
def strcmp_eq (a b : Buffer) : Bool :=
  cstr a == cstr b

/-- The function `init_buffer`: the cells below `size` are set to NUL. -/
def init_buffer (buffer : Buffer) (size : Nat) : Buffer :=
  List.replicate (min size buffer.length) NUL ++ buffer.drop size

/-! ## The input stream -/

/-- An input stream: the characters still to be read. -/
abbrev FILE := List Char

/-- The `getc`/`fgetc` of `<stdio.h>`; `none` is the `int` value `EOF`. -/
def getc (f : FILE) : Option Char × FILE :=
  match f with
  | [] => (none, [])
  | c :: rest => (some c, rest)

/-- The `ungetc` of `<stdio.h>`, called on a `char`: the value `(char)EOF` promotes to
`EOF`, for which the call fails and leaves the stream as it is. -/
def ungetc (c : Char) (f : FILE) : FILE :=
  if c = CHAR_EOF then f else c :: f

/-- Narrowing of the `int` returned by `getc` to `char`. -/
def to_char (r : Option Char) : Char :=
  match r with
  | none => CHAR_EOF
  | some c => c

/-- First loop of `fpeek`, from index `i` with `k` characters still to read: the flag is
false when `fgetc` returned `EOF`, the early return. -/
def fpeek_read (i : Nat) : Nat → FILE → Buffer → Bool × Buffer × FILE
  | 0, f, str => (true, str, f)
  | k + 1, f, str =>
    match getc f with
    | (none, f1) => (false, buf_set str i NUL, f1)
    | (some ch, f1) => fpeek_read (i + 1) k f1 (buf_set str i ch)

/-- Second loop of `fpeek`: `ungetc(str[i])` for `i` from `n - 1` down to `0`. -/
def fpeek_unread : Nat → Buffer → FILE → FILE
  | 0, _, f => f
  | i + 1, str, f => fpeek_unread i str (ungetc (buf_get str i) f)

/-- The function `fpeek`: result, the array `str` and the stream afterwards. -/
def fpeek (fptr : FILE) (str : Buffer) (n : Nat) : Int × Buffer × FILE :=
  match fpeek_read 0 n fptr str with
  | (false, str1, f1) => (EOF, str1, f1)
  | (true, str1, f1) =>
    let str2 := buf_set str1 n NUL
    ((n : Int), str2, fpeek_unread n str2 f1)

/-! ## Classifier predicates -/

/-- The scanner states (`enum State` of `parse.h`), in declaration order. -/
inductive State where
  | COMMENT
  | IDENTIFIER
  | STRING
  | KEYWORD
  | CHAR_LITERAL
  | OPERATOR
  | NUM_LITERAL
  | UNKNOWN
  | NORMAL
  deriving DecidableEq, Repr

/-- The integer value of an enumerator. -/
def State.toNat : State → Nat
  | .COMMENT => 0
  | .IDENTIFIER => 1
  | .STRING => 2
  | .KEYWORD => 3
  | .CHAR_LITERAL => 4
  | .OPERATOR => 5
  | .NUM_LITERAL => 6
  | .UNKNOWN => 7
  | .NORMAL => 8

/-- The table `TOKENS` of category labels. -/
def TOKENS : List (List Char) :=
  [" (comment)".toList, " (identifier)".toList, " (string)".toList, " (keyword)".toList,
   " (character literal)".toList, " (operator)".toList, " (numeric literal)".toList]

/-- The function `is_comment`: `EOF` when nothing can be peeked. -/
def is_comment (ch : Char) (fptr : FILE) : Int × FILE :=
  match fpeek fptr [] 1 with
  | (r, peek, f1) =>
    if r = EOF then (EOF, f1)
    else if ch = '/' ∧ buf_get peek 0 = '*' then (1, f1)
    else (0, f1)

/-- The function `is_string`: `EOF` when nothing can be peeked. -/
def is_string (ch : Char) (fptr : FILE) : Int × FILE :=
  match fpeek fptr [] 1 with
  | (r, _, f1) =>
    if r = EOF then (EOF, f1)
    else if ch = DQUOTE then (1, f1)
    else (0, f1)

/-- The table `d_operators` of `is_double_op`. -/
def d_operators : List (List Char) :=
  [":=".toList, "..".toList, "<<".toList, ">>".toList, "<>".toList, "<=".toList,
   ">=".toList, "**".toList, "!=".toList, "=>".toList]

/-- The function `is_double_op`: `temp` is `lexeme[0]`, `ch` and a terminator. -/
def is_double_op (ch : Char) (lexeme : Buffer) : Bool :=
  d_operators.any (fun op => strcmp_eq [buf_get lexeme 0, ch, NUL] op)

/-- The function `is_op_symbol`. -/
def is_op_symbol (ch : Char) : Bool :=
  ch = '.' || ch = '<' || ch = '>' || ch = '(' || ch = ')' || ch = '+' || ch = '-'
    || ch = '*' || ch = '/' || ch = '|' || ch = '&' || ch = ';' || ch = ',' || ch = ':'
    || ch = '[' || ch = ']' || ch = '=' || ch = '!'

/-- The function `is_comment_end`: `EOF` when nothing can be peeked.  (Its array has a
single cell in the source; the terminator that `fpeek` writes behind the peeked character
falls outside it, which `is_comment_end_within` accounts for.) -/
def is_comment_end (ch : Char) (fptr : FILE) : Int × FILE :=
  match fpeek fptr [] 1 with
  | (r, peek, f1) =>
    if r = EOF then (EOF, f1)
    else if ch = '*' ∧ buf_get peek 0 = '/' then (1, f1)
    else (0, f1)

/-- The function `is_string_end`. -/
def is_string_end (ch : Char) : Bool :=
  ch = DQUOTE

/-- The function `is_single_op`. -/
def is_single_op (ch : Char) : Bool :=
  ch = '(' || ch = ')' || ch = '+' || ch = '-' || ch = '/' || ch = '|' || ch = '&'
    || ch = ';' || ch = ',' || ch = '[' || ch = ']'

/-- The function `has_double_op`. -/
def has_double_op (ch : Char) : Bool :=
  ch = '.' || ch = '<' || ch = '>' || ch = ':' || ch = '=' || ch = '*' || ch = '!'

/-- The function `is_allowed_ident_char`. -/
def is_allowed_ident_char (ch : Char) : Bool :=
  isalnum ch || ch = '_'

/-- The table `keywords` of `is_keyword`. -/
def keywords : List (List Char) :=
  ["accessor".toList, "and".toList, "array".toList, "begin".toList, "bool".toList,
   "case".toList, "character".toList, "constant".toList, "else".toList, "elsif".toList,
   "end".toList, "exit".toList, "function".toList, "if".toList, "in".toList,
   "integer".toList, "interface".toList, "is".toList, "loop".toList, "module".toList,
   "mutator".toList, "natural".toList, "null".toList, "of".toList, "or".toList,
   "others".toList, "out".toList, "positive".toList, "procedure".toList, "range".toList,
   "return".toList, "struct".toList, "subtype".toList, "then".toList, "type".toList,
   "when".toList, "while".toList]

/-- The function `is_keyword`. -/
def is_keyword (lexeme : Buffer) : Bool :=
  keywords.any (fun kw => strcmp_eq lexeme kw)

/-- The function `is_char_delim`. -/
def is_char_delim (ch : Char) : Bool :=
  ch = SQUOTE

/-- The function `is_num_lit_char`. -/
def is_num_lit_char (ch : Char) : Bool :=
  isxdigit ch || ch = '#' || ch = '.' || ch = ','

/-- The function `is_num_literal_end`: the result of `fpeek` is not looked at, `peek[0]` is
NUL when nothing could be peeked. -/
def is_num_literal_end (ch : Char) (fptr : FILE) : Bool × FILE :=
  match fpeek fptr [] 1 with
  | (_, peek, f1) =>
    if (ch = '.' ∧ buf_get peek 0 = '.') ∨ (ch = ',' ∧ is_num_lit_char (buf_get peek 0) = false)
    then (true, f1)
    else if is_num_lit_char ch = false then (true, f1)
    else (false, f1)

/-- The function `set_state`: the new state and the stream afterwards. -/
def set_state (fptr : FILE) (ch : Char) : State × FILE :=
  if isspace ch = false then
    match is_comment ch fptr with
    | (r1, f1) =>
      if r1 ≠ 0 then (State.COMMENT, f1)
      else
        match is_string ch f1 with
        | (r2, f2) =>
          if r2 ≠ 0 then (State.STRING, f2)
          else if isalpha ch then (State.KEYWORD, f2)
          else if is_single_op ch || has_double_op ch then (State.OPERATOR, f2)
          else if ch = SQUOTE then (State.CHAR_LITERAL, f2)
          else if isdigit ch then (State.NUM_LITERAL, f2)
          else (State.UNKNOWN, f2)
  else (State.NORMAL, fptr)

/-! ## The scan loop of `parse` -/

/-- One emitted token: the C string in `lexeme` when the label is appended, and the
state that selects the label. -/
structure Token where
  lexeme : List Char
  state : State
  deriving DecidableEq, Repr

/-- The variables of `parse`: both streams and the locals.  The field `tokens` is a
log of the emissions kept beside the text written to `fout`. -/
structure Scan where
  fin : FILE
  fout : List Char
  tokens : List Token
  lexeme : Buffer
  index : Nat
  success : Bool
  state : State
  deriving DecidableEq, Repr

/-- The `switch` of one loop iteration on the character `ch`; `none` is `exit(1)`. -/
def parse_switch (ch : Char) (s : Scan) : Option Scan :=
  match s.state with
  | .COMMENT =>
    match is_comment_end ch s.fin with
    | (r, f1) =>
      if r ≠ 0 then
        match getc f1 with
        | (g, f2) =>
          some { s with fin := f2
                        lexeme := buf_set (buf_set s.lexeme s.index ch) (s.index + 1) (to_char g)
                        index := s.index + 1
                        success := true }
      else some { s with fin := f1, lexeme := buf_set s.lexeme s.index ch, index := s.index + 1 }
  | .STRING =>
    if is_string_end ch then
      some { s with lexeme := buf_set s.lexeme s.index ch, success := true }
    else some { s with lexeme := buf_set s.lexeme s.index ch, index := s.index + 1 }
  | .KEYWORD =>
    if isdigit ch || ch = '_' then
      some { s with state := State.IDENTIFIER
                    lexeme := buf_set s.lexeme s.index ch
                    index := s.index + 1 }
    else if isalpha ch = false then
      some { s with state := if is_keyword s.lexeme = false then State.IDENTIFIER else s.state
                    fin := ungetc ch s.fin
                    success := true }
    else some { s with lexeme := buf_set s.lexeme s.index ch, index := s.index + 1 }
  | .IDENTIFIER =>
    if is_allowed_ident_char ch = false then
      some { s with fin := ungetc ch s.fin, success := true }
    else some { s with lexeme := buf_set s.lexeme s.index ch, index := s.index + 1 }
  | .OPERATOR =>
    if is_single_op (buf_get s.lexeme 0) then
      some { s with fin := ungetc ch s.fin, success := true }
    else if has_double_op (buf_get s.lexeme 0) then
      if is_double_op ch s.lexeme then
        some { s with lexeme := buf_set s.lexeme s.index ch, success := true }
      else some { s with fin := ungetc ch s.fin, success := true }
    else some s
  | .CHAR_LITERAL =>
    if is_char_delim ch then
      some { s with lexeme := buf_set s.lexeme s.index ch, success := true }
    else some { s with lexeme := buf_set s.lexeme s.index ch, index := s.index + 1 }
  | .NUM_LITERAL =>
    match is_num_literal_end ch s.fin with
    | (r, f1) =>
      if r then some { s with fin := ungetc ch f1, success := true }
      else some { s with fin := f1, lexeme := buf_set s.lexeme s.index ch, index := s.index + 1 }
  | .UNKNOWN => none
  | .NORMAL =>
    let lexeme1 := if buf_get s.lexeme 0 ≠ NUL then init_buffer s.lexeme MAX_BUFFER else s.lexeme
    match set_state s.fin ch with
    | (st, f1) =>
      if st ≠ State.NORMAL then
        some { s with fin := f1, state := st, lexeme := buf_set lexeme1 s.index ch
                      index := s.index + 1 }
      else some { s with fin := f1, state := st, lexeme := lexeme1 }

/-- The emission block that closes a loop iteration. -/
def parse_emit (s : Scan) : Scan :=
  if s.success = true ∧ s.state ≠ State.UNKNOWN then
    let lexeme1 := strcat s.lexeme (TOKENS.getD s.state.toNat [])
    let lexeme2 := strcat lexeme1 [NEWLINE]
    { s with lexeme := lexeme2
             fout := s.fout ++ cstr lexeme2
             tokens := s.tokens ++ [{ lexeme := cstr s.lexeme, state := s.state }]
             state := State.NORMAL
             index := 0
             success := false }
  else s

/-- How a scan ends: the loop left at end of input, `exit(1)` in the state `UNKNOWN` with
the lexeme named by the diagnostic, or the iteration budget of the embedding used up. -/
inductive Ending where
  | completed
  | fatal (lexeme : List Char)
  | fuel
  deriving DecidableEq, Repr

/-- Result of a scan: how it ended, the text written and the tokens logged. -/
structure Outcome where
  ending : Ending
  fout : List Char
  tokens : List Token
  deriving DecidableEq, Repr

/-- The `while` loop of `parse`, for at most the given number of iterations.  The loop
head stores `getc` in a `char`: it leaves on `EOF` and on the byte 255 alike. -/
def parse_loop : Nat → Scan → Outcome
  | 0, s => { ending := Ending.fuel, fout := s.fout, tokens := s.tokens }
  | n + 1, s =>
    match getc s.fin with
    | (none, _) => { ending := Ending.completed, fout := s.fout, tokens := s.tokens }
    | (some ch, f1) =>
      if ch = CHAR_EOF then
        { ending := Ending.completed, fout := s.fout, tokens := s.tokens }
      else
        match parse_switch ch { s with fin := f1 } with
        | none => { ending := Ending.fatal (cstr s.lexeme), fout := s.fout, tokens := s.tokens }
        | some s1 => parse_loop n (parse_emit s1)

/-- The locals of `parse` before the loop; the lexeme array, which the source leaves
uninitialised, is taken zero-filled here (`parse_start` takes what it holds as a
parameter). -/
def parse_init (fin : FILE) : Scan :=
  { fin := fin, fout := [], tokens := [], lexeme := [], index := 0, success := false,
    state := State.NORMAL }

/-- The function `parse` on the content of an opened input file.  Every iteration either
consumes a character or completes a token, so twice the length of the input and one more
bound the iterations. -/
def parse (fin : FILE) : Outcome :=
  parse_loop (2 * fin.length + 1) (parse_init fin)

/-! ## The classification table as the specification words it -/

/-- The single-character operators of the specification. -/
def single_operator_chars : List Char :=
  ['(', ')', '+', '-', '/', '|', '&', ';', ',', '[', ']']

/-- The characters that may start a two-character operator. -/
def double_eligible_chars : List Char :=
  ['.', '<', '>', ':', '=', '*', '!']

/-- The ordered new-token table of the specification, on the character read and the
character after it: the first matching row gives the state. -/
def new_token_table (c p : Char) : State :=
  if isspace c then State.NORMAL
  else if c = '/' ∧ p = '*' then State.COMMENT
  else if c = DQUOTE then State.STRING
  else if isalpha c then State.KEYWORD
  else if c ∈ single_operator_chars ∨ c ∈ double_eligible_chars then State.OPERATOR
  else if c = SQUOTE then State.CHAR_LITERAL
  else if isdigit c then State.NUM_LITERAL
  else State.UNKNOWN

/-! ## One pass of the loop, and runs of the scan -/

/-- What one evaluation of the loop head leads to: the loop is left with an outcome, or
its body is run once and gives the variables for the next evaluation. -/
inductive Step where
  | leave (o : Outcome)
  | next (s : Scan)
  deriving DecidableEq, Repr

/-- The head of the `while` loop of `parse` and one pass through its body. -/
def parse_step (s : Scan) : Step :=
  match getc s.fin with
  | (none, _) => Step.leave { ending := Ending.completed, fout := s.fout, tokens := s.tokens }
  | (some ch, f1) =>
    if ch = CHAR_EOF then
      Step.leave { ending := Ending.completed, fout := s.fout, tokens := s.tokens }
    else
      match parse_switch ch { s with fin := f1 } with
      | none =>
        Step.leave { ending := Ending.fatal (cstr s.lexeme), fout := s.fout, tokens := s.tokens }
      | some s1 => Step.next (parse_emit s1)

/-- The variables after the given number of passes through the loop body, when the loop
is not left before. -/
def parse_run : Nat → Scan → Step
  | 0, s => Step.next s
  | k + 1, s =>
    match parse_step s with
    | Step.leave o => Step.leave o
    | Step.next s1 => parse_run k s1

/-! ## The output format as the specification words it -/

/-- The fixed label of each of the seven categories that can be written. -/
def category_label : State → List Char
  | .COMMENT => " (comment)".toList
  | .IDENTIFIER => " (identifier)".toList
  | .STRING => " (string)".toList
  | .KEYWORD => " (keyword)".toList
  | .CHAR_LITERAL => " (character literal)".toList
  | .OPERATOR => " (operator)".toList
  | .NUM_LITERAL => " (numeric literal)".toList
  | .UNKNOWN => []
  | .NORMAL => []

/-- The output line of a token: lexeme, label of the category, line feed. -/
def token_line (t : Token) : List Char :=
  t.lexeme ++ category_label t.state ++ [NEWLINE]

/-- The categories that can be written. -/
def emittable (st : State) : Prop :=
  st = State.COMMENT ∨ st = State.IDENTIFIER ∨ st = State.STRING ∨ st = State.KEYWORD
    ∨ st = State.CHAR_LITERAL ∨ st = State.OPERATOR ∨ st = State.NUM_LITERAL

/-! ## The numeric literal rule as the specification words it -/

/-- The characters of a numeric literal: the hexadecimal digits, `#`, `.` and `,`. -/
def literal_chars : List Char :=
  "0123456789abcdefABCDEF#.,".toList

/-- The termination rule of a numeric literal on the current character and the lookahead,
`none` being the end of input. -/
def num_literal_end_rule (c : Char) (p : Option Char) : Prop :=
  (c = '.' ∧ p = some '.')
    ∨ (c = ',' ∧ ∀ q, p = some q → q ∉ literal_chars)
    ∨ c ∉ literal_chars

/-! ## Progress of the loop -/

/-- The measure that every pass through the loop body decreases: two for each character
still to be read and one for a token in progress. -/
def scan_measure (s : Scan) : Nat :=
  2 * s.fin.length + (if s.state = State.NORMAL then 0 else 1)

/-! ## The shape of the lexeme array during a scan -/

/-- Every cell of the array holds NUL. -/
def all_nul (b : Buffer) : Prop :=
  ∀ c ∈ b, c = NUL

/-- The array holds the given characters in its first cells and NUL in every other cell. -/
def holds (b : Buffer) (text : List Char) : Prop :=
  ∃ k, b = text ++ List.replicate k NUL

/-- What a scan guarantees of a written token: a keyword is a reserved word, an
identifier is none, an operator has one or two characters. -/
def token_ok (t : Token) : Prop :=
  (t.state = State.KEYWORD → t.lexeme ∈ keywords)
    ∧ (t.state = State.IDENTIFIER → t.lexeme ∉ keywords)
    ∧ (t.state = State.OPERATOR → t.lexeme.length = 1 ∨ t.lexeme.length = 2)

/-- What the state says of the characters of the token in progress: letters for a
keyword, identifier characters of which one is no letter for an identifier, one operator
character for an operator. -/
def class_shape (st : State) (pending : List Char) : Prop :=
  (st = State.KEYWORD → ∀ c ∈ pending, isalpha c = true)
    ∧ (st = State.IDENTIFIER →
        (∀ c ∈ pending, is_allowed_ident_char c = true) ∧ ∃ c ∈ pending, isalpha c = false)
    ∧ (st = State.OPERATOR →
        ∃ f, pending = [f] ∧ (is_single_op f = true ∨ has_double_op f = true))

/-- The invariant of the loop head in a scan that stays inside its arrays, the lexeme array
holding `stack` at the start: no lexeme is marked complete; the array has its `MAX_BUFFER`
cells; in Idle the index is zero and the array is all NUL, or its first cell is not NUL and it
still is as it was at the start or holds the line last written; in every other state the
array holds the characters of the token in progress, `index` of them, and NUL elsewhere. -/
structure Shape (stack : Buffer) (s : Scan) : Prop where
  success : s.success = false
  room : s.lexeme.length ≤ MAX_BUFFER
  idle : s.state = State.NORMAL →
    s.index = 0 ∧ (all_nul s.lexeme
      ∨ (buf_get s.lexeme 0 ≠ NUL
          ∧ ((s.tokens = [] ∧ s.lexeme = stack.take MAX_BUFFER)
            ∨ ∃ t, s.tokens.getLast? = some t ∧ cstr s.lexeme = token_line t)))
  busy : s.state ≠ State.NORMAL →
    ∃ pending, holds s.lexeme pending ∧ s.index = pending.length ∧ pending ≠ []
      ∧ (buf_get s.lexeme 0 ≠ NUL ∨ s.fin = [] ∨ s.state = State.UNKNOWN)
      ∧ class_shape s.state pending
  toks : ∀ t ∈ s.tokens, token_ok t

/-- Every cell of `lexeme[MAX_BUFFER]` holds NUL. -/
def zeroed (b : Buffer) : Prop :=
  ∀ i, i < MAX_BUFFER → buf_get b i = NUL

/-- What a scan guarantees of a written word: a keyword is a reserved word, an identifier
is none. -/
def word_ok (t : Token) : Prop :=
  (t.state = State.KEYWORD → t.lexeme ∈ keywords)
    ∧ (t.state = State.IDENTIFIER → t.lexeme ∉ keywords)

/-- The invariant of the loop head, cell by cell and whatever the length of the lexemes: no
lexeme is marked complete; in Idle the index is zero; in any other state it is not.  In the
state `KEYWORD` the cells below the index hold letters, in the state `IDENTIFIER`
identifier characters of which one is no letter, in the state `OPERATOR` the index is one
and the first cell holds an operator character.  When the array started clean (`clean`),
in Idle its first cell is not NUL or all its cells are NUL, and in the state `OPERATOR` the
two cells after the first hold NUL. -/
structure Cells (clean : Prop) (s : Scan) : Prop where
  success : s.success = false
  idle : s.state = State.NORMAL →
    s.index = 0 ∧ (clean → buf_get s.lexeme 0 ≠ NUL ∨ zeroed s.lexeme)
  busy : s.state ≠ State.NORMAL →
    1 ≤ s.index ∧ (buf_get s.lexeme 0 ≠ NUL ∨ s.fin = [] ∨ s.state = State.UNKNOWN)
  word : s.state = State.KEYWORD → ∀ i, i < s.index → isalpha (buf_get s.lexeme i) = true
  ident : s.state = State.IDENTIFIER →
    (∀ i, i < s.index → is_allowed_ident_char (buf_get s.lexeme i) = true)
      ∧ ∃ i, i < s.index ∧ isalpha (buf_get s.lexeme i) = false
  oper : s.state = State.OPERATOR →
    s.index = 1
      ∧ (is_single_op (buf_get s.lexeme 0) = true ∨ has_double_op (buf_get s.lexeme 0) = true)
      ∧ (clean → buf_get s.lexeme 1 = NUL ∧ buf_get s.lexeme 2 = NUL)
  toks : ∀ t ∈ s.tokens, word_ok t
    ∧ (clean → t.state = State.OPERATOR → t.lexeme.length = 1 ∨ t.lexeme.length = 2)

/-! ## Pushback depth of the input stream

The stream operations of the scan are followed a second time, for their effect on the
pushback buffer of the stream alone; what is read and returned is taken from the functions
above. -/

/-- The pushback buffer of the stream: the number of pushed-back characters that have not
been read again, and the largest number reached so far. -/
structure Pushback where
  depth : Nat
  peak : Nat
  deriving DecidableEq, Repr

/-- Effect of a `getc`/`fgetc` on the stream `f`: a character read takes one off the
pushback buffer when it holds one. -/
def getc_pushback (f : FILE) (d : Pushback) : Pushback :=
  match f with
  | [] => d
  | _ :: _ => { d with depth := d.depth - 1 }

/-- Effect of `ungetc(c)`: one more pushed-back character, unless the call fails. -/
def ungetc_pushback (c : Char) (d : Pushback) : Pushback :=
  if c = CHAR_EOF then d
  else { depth := d.depth + 1, peak := max d.peak (d.depth + 1) }

/-- Effect of the first loop of `fpeek`, with `k` characters still to read. -/
def fpeek_read_pushback : Nat → FILE → Pushback → Pushback
  | 0, _, d => d
  | k + 1, f, d =>
    match getc f with
    | (none, _) => d
    | (some _, f1) => fpeek_read_pushback k f1 (getc_pushback f d)

/-- Effect of the second loop of `fpeek`. -/
def fpeek_unread_pushback : Nat → Buffer → Pushback → Pushback
  | 0, _, d => d
  | i + 1, str, d => fpeek_unread_pushback i str (ungetc_pushback (buf_get str i) d)

/-- Effect of `fpeek`. -/
def fpeek_pushback (fptr : FILE) (str : Buffer) (n : Nat) (d : Pushback) : Pushback :=
  match fpeek_read 0 n fptr str with
  | (false, _, _) => fpeek_read_pushback n fptr d
  | (true, str1, _) =>
    fpeek_unread_pushback n (buf_set str1 n NUL) (fpeek_read_pushback n fptr d)

/-- Effect of `set_state`: the peek of `is_comment`, then the peek of `is_string` when
`is_comment` returned zero. -/
def set_state_pushback (fptr : FILE) (ch : Char) (d : Pushback) : Pushback :=
  if isspace ch = false then
    match is_comment ch fptr with
    | (r1, f1) =>
      if r1 ≠ 0 then fpeek_pushback fptr [] 1 d
      else fpeek_pushback f1 [] 1 (fpeek_pushback fptr [] 1 d)
  else d

/-- Effect of the `switch` of one loop iteration on the character `ch`. -/
def parse_switch_pushback (ch : Char) (s : Scan) (d : Pushback) : Pushback :=
  match s.state with
  | .COMMENT =>
    match is_comment_end ch s.fin with
    | (r, f1) =>
      if r ≠ 0 then getc_pushback f1 (fpeek_pushback s.fin [] 1 d)
      else fpeek_pushback s.fin [] 1 d
  | .STRING => d
  | .KEYWORD =>
    if isdigit ch || ch = '_' then d
    else if isalpha ch = false then ungetc_pushback ch d
    else d
  | .IDENTIFIER =>
    if is_allowed_ident_char ch = false then ungetc_pushback ch d else d
  | .OPERATOR =>
    if is_single_op (buf_get s.lexeme 0) then ungetc_pushback ch d
    else if has_double_op (buf_get s.lexeme 0) then
      if is_double_op ch s.lexeme then d else ungetc_pushback ch d
    else d
  | .CHAR_LITERAL => d
  | .NUM_LITERAL =>
    match is_num_literal_end ch s.fin with
    | (r, _) =>
      if r then ungetc_pushback ch (fpeek_pushback s.fin [] 1 d)
      else fpeek_pushback s.fin [] 1 d
  | .UNKNOWN => d
  | .NORMAL => set_state_pushback s.fin ch d

/-- Effect of the `while` loop of `parse`, for at most the given number of iterations. -/
def parse_loop_pushback : Nat → Scan → Pushback → Pushback
  | 0, _, d => d
  | n + 1, s, d =>
    match getc s.fin with
    | (none, _) => d
    | (some ch, f1) =>
      if ch = CHAR_EOF then getc_pushback s.fin d
      else
        match parse_switch ch { s with fin := f1 } with
        | none => getc_pushback s.fin d
        | some s1 =>
          parse_loop_pushback n (parse_emit s1)
            (parse_switch_pushback ch { s with fin := f1 } (getc_pushback s.fin d))

/-- The pushback buffer over a whole scan. -/
def parse_pushback (fin : FILE) : Pushback :=
  parse_loop_pushback (2 * fin.length + 1) (parse_init fin) { depth := 0, peak := 0 }

/-! ## Reconstruction of the input from the tokens -/

/-- The characters of the token in progress: none in Idle, the first `index` cells of
the lexeme array otherwise. -/
def pending_text (s : Scan) : List Char :=
  if s.state = State.NORMAL then [] else s.lexeme.take s.index

/-- A run of characters that are all whitespace. -/
def is_blank (cs : List Char) : Prop :=
  ∀ c ∈ cs, isspace c = true

/-- The text made of the lexemes of the tokens in order, each preceded by its gap. -/
def interleave : List (List Char) → List Token → List Char
  | g :: gs, t :: ts => g ++ t.lexeme ++ interleave gs ts
  | _, _ => []

/-- The input read so far is accounted for: it is the tokens written, each preceded by a
gap of whitespace, then a last gap `ws` of whitespace, the characters of the token in
progress, and the characters still to be read. -/
def reconstructs (input : List Char) (s : Scan) : Prop :=
  ∃ gaps ws, gaps.length = s.tokens.length ∧ (∀ g ∈ gaps, is_blank g) ∧ is_blank ws
    ∧ input = interleave gaps s.tokens ++ (ws ++ (pending_text s ++ s.fin))

/-- Some written token carries the byte 255 that `getc` returned at the end of input. -/
def carries_eof (tokens : List Token) : Prop :=
  ∃ t ∈ tokens, CHAR_EOF ∈ t.lexeme

/-! ## The arrays as the source declares them

The functions above compute on arrays that have a cell for every index, and `parse_init`
starts from a zero-filled `lexeme`.  The source declares `char lexeme[MAX_BUFFER]` in `parse`
and does not initialise it, `char peek[PEEK_BUFFER_LEN]` in `is_comment`, `is_string` and
`is_num_literal_end`, and `char peek[1]` in `is_comment_end`; it checks no index, and an
access outside an array is undefined behaviour.  The accesses of the scan are followed a
second time here, for whether they stay inside the array accessed; the values read and
written are those computed by the functions above. -/

/-- Size of the `peek` arrays of `is_comment`, `is_string` and `is_num_literal_end`
(`parse.h`). -/
def PEEK_BUFFER_LEN : Nat := 16

/-- The stores of the first loop of `fpeek` fall inside an array `str` of `cap` cells: each
pass stores into `str[i]`, the character read or, when `fgetc` returned `EOF`, NUL. -/
def fpeek_read_within (cap : Nat) (i : Nat) : Nat → FILE → Bool
  | 0, _ => true
  | k + 1, f =>
    match getc f with
    | (none, _) => decide (i < cap)
    | (some _, f1) => decide (i < cap) && fpeek_read_within cap (i + 1) k f1

/-- The stores of `fpeek(fptr, str, n)` fall inside `str`, an array of `cap` cells: those of
the first loop and, when all `n` characters were read, the terminator `str[n] = 0`. -/
def fpeek_within (cap : Nat) (fptr : FILE) (n : Nat) : Bool :=
  fpeek_read_within cap 0 n fptr &&
    (match fpeek_read 0 n fptr [] with
     | (false, _, _) => true
     | (true, _, _) => decide (n < cap))

/-- The peek of `is_comment` stays inside its `char peek[PEEK_BUFFER_LEN]`. -/
def is_comment_within (fptr : FILE) : Bool :=
  fpeek_within PEEK_BUFFER_LEN fptr 1

/-- The peek of `is_string` stays inside its `char peek[PEEK_BUFFER_LEN]`. -/
def is_string_within (fptr : FILE) : Bool :=
  fpeek_within PEEK_BUFFER_LEN fptr 1

/-- The peek of `is_comment_end` stays inside its `char peek[1]`. -/
def is_comment_end_within (fptr : FILE) : Bool :=
  fpeek_within 1 fptr 1

/-- The peek of `is_num_literal_end` stays inside its `char peek[PEEK_BUFFER_LEN]`. -/
def is_num_literal_end_within (fptr : FILE) : Bool :=
  fpeek_within PEEK_BUFFER_LEN fptr 1

/-- The peeks of `set_state` stay inside their arrays: that of `is_comment`, then that of
`is_string` when `is_comment` returned zero. -/
def set_state_within (fptr : FILE) (ch : Char) : Bool :=
  if isspace ch = false then
    is_comment_within fptr &&
      (match is_comment ch fptr with
       | (r1, f1) => if r1 ≠ 0 then true else is_string_within f1)
  else true

/-- The call `strcat(lexeme, src)` stays inside `lexeme[MAX_BUFFER]`: the terminator of the
string held is found in the array, and the copy of `src`, its terminator included, ends in
it. -/
def strcat_within (dest : Buffer) (src : List Char) : Bool :=
  decide (strlen dest + (cstr src).length < MAX_BUFFER)

/-- The accesses of the `switch` of one loop iteration stay inside the arrays: the stores
`lexeme[index] = ...`, the peeks of the callees, and the string that the diagnostic of the
state `UNKNOWN` reads from `lexeme`.  (`is_keyword` and `is_double_op` read no cell of
`lexeme` past index 9: `strcmp` stops at the terminator of the reserved word.) -/
def parse_switch_within (ch : Char) (s : Scan) : Bool :=
  match s.state with
  | .COMMENT =>
    is_comment_end_within s.fin &&
      (match is_comment_end ch s.fin with
       | (r, _) =>
         if r ≠ 0 then decide (s.index + 1 < MAX_BUFFER) else decide (s.index < MAX_BUFFER))
  | .STRING => decide (s.index < MAX_BUFFER)
  | .KEYWORD =>
    if isdigit ch || ch = '_' then decide (s.index < MAX_BUFFER)
    else if isalpha ch = false then true
    else decide (s.index < MAX_BUFFER)
  | .IDENTIFIER =>
    if is_allowed_ident_char ch = false then true else decide (s.index < MAX_BUFFER)
  | .OPERATOR =>
    if is_single_op (buf_get s.lexeme 0) then true
    else if has_double_op (buf_get s.lexeme 0) then
      if is_double_op ch s.lexeme then decide (s.index < MAX_BUFFER) else true
    else true
  | .CHAR_LITERAL => decide (s.index < MAX_BUFFER)
  | .NUM_LITERAL =>
    is_num_literal_end_within s.fin &&
      (match is_num_literal_end ch s.fin with
       | (r, _) => if r then true else decide (s.index < MAX_BUFFER))
  | .UNKNOWN => decide (strlen s.lexeme < MAX_BUFFER)
  | .NORMAL =>
    set_state_within s.fin ch &&
      (match set_state s.fin ch with
       | (st, _) => if st ≠ State.NORMAL then decide (s.index < MAX_BUFFER) else true)

/-- The two `strcat` calls of the emission block stay inside `lexeme[MAX_BUFFER]`. -/
def parse_emit_within (s : Scan) : Bool :=
  if s.success = true ∧ s.state ≠ State.UNKNOWN then
    strcat_within s.lexeme (TOKENS.getD s.state.toNat []) &&
      strcat_within (strcat s.lexeme (TOKENS.getD s.state.toNat [])) [NEWLINE]
  else true

/-- The pass through the loop body that `parse_step` computes stays inside the arrays. -/
def parse_step_within (s : Scan) : Bool :=
  match getc s.fin with
  | (none, _) => true
  | (some ch, f1) =>
    if ch = CHAR_EOF then true
    else
      parse_switch_within ch { s with fin := f1 } &&
        (match parse_switch ch { s with fin := f1 } with
         | none => true
         | some s1 => parse_emit_within s1)

/-- The first passes of the loop, as many as given or as many as there are, stay inside the
arrays. -/
def parse_run_within : Nat → Scan → Bool
  | 0, _ => true
  | k + 1, s =>
    parse_step_within s &&
      (match parse_step s with
       | Step.leave _ => true
       | Step.next s1 => parse_run_within k s1)

/-- The locals of `parse` before the loop, as the source leaves them: `lexeme` is not
initialised and holds what the stack held, here the first `MAX_BUFFER` cells of `stack`. -/
def parse_start (stack : Buffer) (fin : FILE) : Scan :=
  { fin := fin, fout := [], tokens := [], lexeme := stack.take MAX_BUFFER, index := 0,
    success := false, state := State.NORMAL }

/-- The function `parse` on the content of an opened input file, the lexeme array holding
`stack` when the loop is entered. -/
def parse_from (stack : Buffer) (fin : FILE) : Outcome :=
  parse_loop (2 * fin.length + 1) (parse_start stack fin)

/-- The whole scan stays inside the arrays. -/
def parse_within (stack : Buffer) (fin : FILE) : Bool :=
  parse_run_within (2 * fin.length + 1) (parse_start stack fin)

/-- The array starts in a state that the scan handles: its first cell is not NUL, so that
the first pass clears it, or all its cells are NUL. -/
def starts_clean (stack : Buffer) : Prop :=
  buf_get stack 0 ≠ NUL ∨ all_nul (stack.take MAX_BUFFER)

/-! ## The fatal path as the specification words it -/

/-- A character that matches no category: no whitespace, no letter, no digit, no operator
character and no quote. -/
def no_category (c : Char) : Prop :=
  isspace c = false ∧ isalpha c = false ∧ isdigit c = false
    ∧ c ∉ single_operator_chars ∧ c ∉ double_eligible_chars ∧ c ≠ DQUOTE ∧ c ≠ SQUOTE

/-! ## Lemmas on arrays, the stream and the loop -/

/-- Reading a cell after an assignment. -/
theorem buf_get_set (b : Buffer) (i j : Nat) (c : Char) :
    buf_get (buf_set b i c) j = if j = i then c else buf_get b j := by
  unfold buf_get buf_set
  by_cases h : i < b.length
  · simp only [h, if_true, List.getD_eq_getElem?_getD, List.getElem?_set]
    by_cases hj : j = i
    · subst hj; simp [h]
    · have : ¬ i = j := fun e => hj e.symm
      simp [hj, this]
  · simp only [h, if_false, List.getD_eq_getElem?_getD]
    have hle : b.length ≤ i := Nat.le_of_not_lt h
    by_cases hj : j = i
    · subst hj
      rw [List.getElem?_append_right (by simp; omega)]
      simp
      have : j - (b.length + (j - b.length)) = 0 := by omega
      simp [this]
    · simp only [hj, if_false]
      by_cases h1 : j < b.length
      · rw [List.append_assoc, List.getElem?_append_left h1]
      · have h2 : b.length ≤ j := Nat.le_of_not_lt h1
        rw [List.getElem?_eq_none (l := b) h2]
        by_cases h3 : j < i
        · rw [List.getElem?_append_left (by simp; omega)]
          rw [List.getElem?_append_right h2]
          rw [List.getElem?_replicate]
          split <;> rfl
        · rw [List.getElem?_eq_none (by simp; omega)]

/-- Reading a cell after the assignment of a run of cells. -/
theorem buf_get_set_from (cs : List Char) (b : Buffer) (i j : Nat) :
    buf_get (buf_set_from b i cs) j
      = if i ≤ j ∧ j < i + cs.length then cs.getD (j - i) NUL else buf_get b j := by
  induction cs generalizing b i with
  | nil =>
    have h : ¬ (i ≤ j ∧ j < i) := by omega
    simp [buf_set_from, h]
  | cons c cs ih =>
    simp only [buf_set_from, ih, buf_get_set, List.length_cons]
    by_cases h1 : i + 1 ≤ j
    · have h2 : i ≤ j := by omega
      have h3 : j ≠ i := by omega
      have h4 : j - i = (j - (i + 1)) + 1 := by omega
      have h5 : (j < i + 1 + cs.length) = (j < i + (cs.length + 1)) := by
        apply propext; constructor <;> intro h <;> omega
      simp only [h1, h2, true_and, h5, h3, if_false]
      rw [h4, List.getD_cons_succ]
    · by_cases h2 : j = i
      · subst h2
        simp
      · have h3 : ¬ i ≤ j := by omega
        simp [h1, h2, h3]

/-- The first loop of `fpeek` when enough characters remain. -/
theorem fpeek_read_ok (k : Nat) (i : Nat) (f : FILE) (str : Buffer) (h : k ≤ f.length) :
    fpeek_read i k f str = (true, buf_set_from str i (f.take k), f.drop k) := by
  induction k generalizing i f str with
  | zero => simp [fpeek_read, buf_set_from]
  | succ k ih =>
    cases f with
    | nil => simp at h
    | cons c rest =>
      simp only [List.length_cons, Nat.add_le_add_iff_right] at h
      simp [fpeek_read, getc, ih (i + 1) rest (buf_set str i c) h, buf_set_from]

/-- The first loop of `fpeek` when the stream ends early: all of it is consumed. -/
theorem fpeek_read_eof (k : Nat) (i : Nat) (f : FILE) (str : Buffer) (h : f.length < k) :
    fpeek_read i k f str
      = (false, buf_set (buf_set_from str i f) (i + f.length) NUL, []) := by
  induction k generalizing i f str with
  | zero => simp at h
  | succ k ih =>
    cases f with
    | nil => simp [fpeek_read, getc, buf_set_from]
    | cons c rest =>
      simp only [List.length_cons, Nat.add_lt_add_iff_right] at h
      simp only [fpeek_read, getc, ih (i + 1) rest (buf_set str i c) h, buf_set_from,
        List.length_cons]
      have : i + 1 + rest.length = i + (rest.length + 1) := by omega
      rw [this]

/-- The second loop of `fpeek` puts the cells back in order, the byte 255 excepted. -/
theorem fpeek_unread_eq (n : Nat) (str : Buffer) (f : FILE) :
    fpeek_unread n str f
      = ((List.range n).map (buf_get str)).filter (fun c => decide (c ≠ CHAR_EOF)) ++ f := by
  induction n generalizing f with
  | zero => simp [fpeek_unread]
  | succ n ih =>
    simp only [fpeek_unread, ih, List.range_succ, List.map_append, List.filter_append,
      List.map_cons, List.map_nil, List.append_assoc]
    congr 1
    unfold ungetc
    by_cases h : buf_get str n = CHAR_EOF
    · simp [h, List.filter]
    · simp [h, List.filter]

theorem map_buf_get_fill (str : Buffer) (cs : List Char) (n : Nat) (h : cs.length = n) :
    (List.range n).map (buf_get (buf_set (buf_set_from str 0 cs) n NUL)) = cs := by
  apply List.ext_getElem
  · simp [h]
  · intro j h1 h2
    simp only [List.length_map, List.length_range] at h1
    have h3 : j ≠ n := by omega
    have h4 : j < cs.length := by omega
    simp [buf_get_set, buf_get_set_from, h3, h4, List.getD_eq_getElem?_getD]

/-- When all `n` characters are there and none is the byte 255, `fpeek` puts back what it
read: the stream is as before the call. -/
theorem fpeek_stream_kept (s : FILE) (str : Buffer) (n : Nat) (h : n ≤ s.length)
    (he : CHAR_EOF ∉ s.take n) : (fpeek s str n).2.2 = s := by
  have hf : (fpeek s str n).2.2
      = fpeek_unread n (buf_set (buf_set_from str 0 (s.take n)) n NUL) (s.drop n) := by
    simp [fpeek, fpeek_read_ok n 0 s str h]
  rw [hf, fpeek_unread_eq, map_buf_get_fill _ _ _ (by simp [h])]
  have hfil : (s.take n).filter (fun c => decide (c ≠ CHAR_EOF)) = s.take n := by
    rw [List.filter_eq_self]
    intro c hc
    have : c ≠ CHAR_EOF := fun e => he (e ▸ hc)
    simpa using this
  rw [hfil, List.take_append_drop]

theorem fpeek_one_cons (p : Char) (rest : FILE) :
    fpeek (p :: rest) [] 1 = (1, [p, NUL], ungetc p rest) := by
  rfl

theorem fpeek_one_nil : fpeek [] [] 1 = (EOF, [NUL], []) := by
  rfl

theorem ungetc_of_ne {c : Char} (h : c ≠ CHAR_EOF) (f : FILE) : ungetc c f = c :: f := by
  simp [ungetc, h]

theorem is_comment_cons (ch p : Char) (rest : FILE) (hp : p ≠ CHAR_EOF) :
    is_comment ch (p :: rest) = (if ch = '/' ∧ p = '*' then 1 else 0, p :: rest) := by
  have h1 : ¬ ((1 : Int) = EOF) := by decide
  have h2 : buf_get [p, NUL] 0 = p := rfl
  simp only [is_comment, fpeek_one_cons, ungetc_of_ne hp, h1, if_false, h2]
  split <;> rfl

theorem is_string_cons (ch p : Char) (rest : FILE) (hp : p ≠ CHAR_EOF) :
    is_string ch (p :: rest) = (if ch = DQUOTE then 1 else 0, p :: rest) := by
  have h1 : ¬ ((1 : Int) = EOF) := by decide
  simp only [is_string, fpeek_one_cons, ungetc_of_ne hp, h1, if_false]
  split <;> rfl

theorem is_single_op_iff (c : Char) : is_single_op c = true ↔ c ∈ single_operator_chars := by
  simp [is_single_op, single_operator_chars, or_assoc]

theorem has_double_op_iff (c : Char) : has_double_op c = true ↔ c ∈ double_eligible_chars := by
  simp [has_double_op, double_eligible_chars, or_assoc]

/-- With a lookahead other than the byte 255, `set_state` computes the table and keeps
the stream. -/
theorem set_state_table (c p : Char) (rest : FILE) (hp : p ≠ CHAR_EOF) :
    set_state (p :: rest) c = (new_token_table c p, p :: rest) := by
  unfold set_state new_token_table
  simp only [is_comment_cons c p rest hp, is_string_cons c p rest hp]
  by_cases h0 : isspace c = true
  · simp [h0]
  · have h0f : isspace c = false := by simpa using h0
    simp only [h0f, if_true, Bool.false_eq_true, if_false]
    by_cases h1 : c = '/' ∧ p = '*'
    · simp [h1]
    · simp only [h1, if_false]
      by_cases h2 : c = DQUOTE
      · simp [h2]
      · simp only [h2, if_false, Bool.or_eq_true, is_single_op_iff, has_double_op_iff]
        repeat' split
        all_goals first | rfl | contradiction

theorem parse_switch_tokens (ch : Char) (s s1 : Scan) (h : parse_switch ch s = some s1) :
    s1.tokens = s.tokens ∧ s1.fout = s.fout := by
  unfold parse_switch at h
  repeat' split at h
  all_goals cases h
  all_goals exact ⟨rfl, rfl⟩

theorem parse_emit_tokens (s : Scan) : ∃ more, (parse_emit s).tokens = s.tokens ++ more := by
  unfold parse_emit
  split
  · exact ⟨_, rfl⟩
  · exact ⟨[], by simp⟩

/-- The loop only appends to the token log. -/
theorem parse_loop_tokens (n : Nat) (s : Scan) :
    ∃ more, (parse_loop n s).tokens = s.tokens ++ more := by
  induction n generalizing s with
  | zero => exact ⟨[], by simp [parse_loop]⟩
  | succ n ih =>
    unfold parse_loop
    split
    · exact ⟨[], by simp⟩
    · split
      · exact ⟨[], by simp⟩
      · split
        · exact ⟨[], by simp⟩
        · rename_i s1 hs
          obtain ⟨m1, h1⟩ := ih (parse_emit s1)
          obtain ⟨m2, h2⟩ := parse_emit_tokens s1
          have h3 := (parse_switch_tokens _ _ _ hs).1
          simp only at h3
          exact ⟨m2 ++ m1, by rw [h1, h2, h3, List.append_assoc]⟩

/-- A token already logged stays the first one. -/
theorem parse_loop_head (n : Nat) (s : Scan) (t : Token) (ts : List Token)
    (h : s.tokens = t :: ts) : (parse_loop n s).tokens.head? = some t := by
  obtain ⟨more, hm⟩ := parse_loop_tokens n s
  rw [hm, h]
  rfl

theorem cstr_of_no_nul (b : Buffer) (h : NUL ∉ b) : cstr b = b := by
  unfold cstr
  rw [List.takeWhile_eq_self_iff]
  intro c hc
  have : c ≠ NUL := fun e => h (e ▸ hc)
  simpa using this

theorem isalpha_facts (c : Char) (h : isalpha c = true) :
    c ≠ CHAR_EOF ∧ c ≠ NUL ∧ isdigit c = false ∧ c ≠ '_' ∧ isspace c = false ∧ c ≠ '/'
      ∧ c ≠ DQUOTE := by
  refine ⟨?_, ?_, ?_, ?_, ?_, ?_, ?_⟩
  · rintro rfl; revert h; decide
  · rintro rfl; revert h; decide
  · simp only [isalpha, Bool.or_eq_true, Bool.and_eq_true, decide_eq_true_eq] at h
    simp only [isdigit, Bool.and_eq_false_iff, decide_eq_false_iff_not]
    omega
  · rintro rfl; revert h; decide
  · simp only [isalpha, Bool.or_eq_true, Bool.and_eq_true, decide_eq_true_eq] at h
    simp only [isspace, Bool.or_eq_false_iff, Bool.and_eq_false_iff, decide_eq_false_iff_not,
      beq_eq_false_iff_ne, ne_eq]
    omega
  · rintro rfl; revert h; decide
  · rintro rfl; revert h; decide

/-- Every reserved word is a non-empty run of letters. -/
theorem keywords_alpha : ∀ w ∈ keywords, w ≠ [] ∧ ∀ c ∈ w, isalpha c = true := by
  decide

/-! ## Lemmas on passes and runs of the loop -/

/-- The loop with one more iteration of budget is one pass followed by the loop. -/
theorem parse_loop_step (n : Nat) (s : Scan) :
    parse_loop (n + 1) s
      = match parse_step s with
        | Step.leave o => o
        | Step.next s1 => parse_loop n s1 := by
  simp only [parse_loop, parse_step]
  split
  · rfl
  · split
    · rfl
    · split <;> rfl

/-- The loop after a run of `k` passes. -/
theorem parse_loop_run (k n : Nat) (s : Scan) :
    parse_loop (k + n) s
      = match parse_run k s with
        | Step.leave o => o
        | Step.next s1 => parse_loop n s1 := by
  induction k generalizing s with
  | zero => simp [parse_run]
  | succ k ih =>
    have : k + 1 + n = (k + n) + 1 := by omega
    rw [this, parse_loop_step]
    simp only [parse_run]
    cases parse_step s with
    | leave o => rfl
    | next s1 => exact ih s1

/-- What holds before the first pass and is kept by every pass holds at every loop head
reached. -/
theorem parse_run_induct (Inv : Scan → Prop)
    (hstep : ∀ s s1, Inv s → parse_step s = Step.next s1 → Inv s1) :
    ∀ (k : Nat) (s0 s : Scan), Inv s0 → parse_run k s0 = Step.next s → Inv s := by
  intro k
  induction k with
  | zero =>
    intro s0 s h0 h
    simp only [parse_run, Step.next.injEq] at h
    exact h ▸ h0
  | succ k ih =>
    intro s0 s h0 h
    simp only [parse_run] at h
    cases hs : parse_step s0 with
    | leave o => rw [hs] at h; cases h
    | next s1 =>
      rw [hs] at h
      exact ih s1 s (hstep s0 s1 h0 hs) h

/-- The same for the outcome of the loop. -/
theorem parse_loop_induct (Inv : Scan → Prop) (Q : Outcome → Prop)
    (hstep : ∀ s s1, Inv s → parse_step s = Step.next s1 → Inv s1)
    (hleave : ∀ s o, Inv s → parse_step s = Step.leave o → Q o)
    (hfuel : ∀ s, Inv s → Q ⟨Ending.fuel, s.fout, s.tokens⟩) :
    ∀ (n : Nat) (s : Scan), Inv s → Q (parse_loop n s) := by
  intro n
  induction n with
  | zero => intro s h; exact hfuel s h
  | succ n ih =>
    intro s h
    rw [parse_loop_step]
    cases hs : parse_step s with
    | leave o => exact hleave s o h hs
    | next s1 => exact ih s1 (hstep s s1 h hs)

theorem parse_step_next (s s2 : Scan) (h : parse_step s = Step.next s2) :
    ∃ ch f1 s1, s.fin = ch :: f1 ∧ ch ≠ CHAR_EOF
      ∧ parse_switch ch { s with fin := f1 } = some s1 ∧ s2 = parse_emit s1 := by
  unfold parse_step at h
  cases hf : s.fin with
  | nil => simp [hf, getc] at h
  | cons ch f1 =>
    simp only [hf, getc] at h
    by_cases hc : ch = CHAR_EOF
    · simp [hc] at h
    · simp only [hc, if_false] at h
      cases hs : parse_switch ch { s with fin := f1 } with
      | none => simp [hs] at h
      | some s1 =>
        simp only [hs, Step.next.injEq] at h
        exact ⟨ch, f1, s1, rfl, hc, hs, h.symm⟩

theorem parse_step_leave (s : Scan) (o : Outcome) (h : parse_step s = Step.leave o) :
    o.fout = s.fout ∧ o.tokens = s.tokens := by
  unfold parse_step at h
  split at h
  · cases h; exact ⟨rfl, rfl⟩
  · split at h
    · cases h; exact ⟨rfl, rfl⟩
    · split at h
      · cases h; exact ⟨rfl, rfl⟩
      · cases h
/-! ## Lemmas on C strings -/

/-- A C string holds no NUL. -/
theorem nul_not_mem_cstr (b : Buffer) : NUL ∉ cstr b := by
  intro h
  have := List.mem_takeWhile_imp h
  simp at this

theorem cstr_append_drop (b : Buffer) : cstr b ++ b.dropWhile (fun c => c != NUL) = b := by
  unfold cstr
  exact List.takeWhile_append_dropWhile _ b

theorem buf_get_cstr (b : Buffer) (j : Nat) (h : j < (cstr b).length) :
    buf_get b j = (cstr b).getD j NUL := by
  have hb := cstr_append_drop b
  unfold buf_get
  conv_lhs => rw [← hb]
  simp only [List.getD_eq_getElem?_getD]
  rw [List.getElem?_append_left h]

theorem buf_get_strlen (b : Buffer) : buf_get b (strlen b) = NUL := by
  have hb := cstr_append_drop b
  have hg : buf_get b (strlen b)
      = (cstr b ++ b.dropWhile (fun c => c != NUL)).getD (cstr b).length NUL := by
    rw [hb]; rfl
  rw [hg]
  simp only [List.getD_eq_getElem?_getD]
  rw [List.getElem?_append_right (Nat.le_refl _)]
  simp only [Nat.sub_self]
  cases hd : b.dropWhile (fun c => c != NUL) with
  | nil => rfl
  | cons x xs =>
    have := List.head_dropWhile_not (fun c => c != NUL) b (by rw [hd]; simp)
    simp only [hd, List.head_cons] at this
    simp at this
    simp [this]

/-- An array whose first cells are the characters of a NUL-free text, followed by a NUL,
holds this text as its C string. -/
theorem cstr_eq_of_get (ys : List Char) (r : Buffer) (hn : NUL ∉ ys)
    (hget : ∀ j, j < ys.length → buf_get r j = ys.getD j NUL)
    (hend : buf_get r ys.length = NUL) : cstr r = ys := by
  induction ys generalizing r with
  | nil =>
    cases r with
    | nil => rfl
    | cons x xs =>
      have : x = NUL := by simpa [buf_get] using hend
      simp [cstr, this]
  | cons y ys ih =>
    have hy : y ≠ NUL := fun e => hn (by simp [e])
    cases r with
    | nil =>
      have := hget 0 (by simp)
      simp [buf_get] at this
      exact absurd this.symm hy
    | cons x xs =>
      have hx : x = y := by
        have := hget 0 (by simp)
        simpa [buf_get] using this
      subst hx
      have hrec : cstr xs = ys := by
        apply ih xs (fun h => hn (List.mem_cons_of_mem _ h))
        · intro j hj
          have := hget (j + 1) (by simp; omega)
          simpa [buf_get] using this
        · simpa [buf_get] using hend
      have : cstr (x :: xs) = x :: cstr xs := by
        have hy1 : (x != NUL) = true := by simpa using hy
        simp [cstr, List.takeWhile, hy1]
      rw [this, hrec]

/-- The C string after `strcat`. -/
theorem cstr_strcat (b : Buffer) (xs : List Char) (hx : NUL ∉ xs) :
    cstr (strcat b xs) = cstr b ++ xs := by
  unfold strcat
  rw [cstr_of_no_nul xs hx]
  apply cstr_eq_of_get
  · simp only [List.mem_append, not_or]
    exact ⟨nul_not_mem_cstr b, hx⟩
  · intro j hj
    rw [buf_get_set_from]
    simp only [List.length_append, List.length_singleton] at hj ⊢
    by_cases h1 : j < strlen b
    · have : ¬ (strlen b ≤ j ∧ j < strlen b + (xs.length + 1)) := by omega
      simp only [this, if_false]
      rw [buf_get_cstr b j h1]
      simp only [List.getD_eq_getElem?_getD]
      rw [List.getElem?_append_left h1]
    · have h2 : strlen b ≤ j ∧ j < strlen b + (xs.length + 1) := by
        unfold strlen at *; omega
      simp only [h2, and_self, if_true]
      simp only [List.getD_eq_getElem?_getD]
      have h3 : j - strlen b < xs.length := by unfold strlen at *; omega
      rw [List.getElem?_append_left h3]
      rw [List.getElem?_append_right (by unfold strlen at h1; omega)]
      rfl
  · rw [buf_get_set_from]
    simp only [List.length_append, List.length_singleton]
    have h2 : strlen b ≤ (cstr b).length + xs.length
        ∧ (cstr b).length + xs.length < strlen b + (xs.length + 1) := by
      unfold strlen; omega
    simp only [h2, and_self, if_true, List.getD_eq_getElem?_getD]
    have : (cstr b).length + xs.length - strlen b = xs.length := by unfold strlen; omega
    rw [this, List.getElem?_append_right (Nat.le_refl _)]
    simp
/-! ## Lemmas on the emission block -/

/-- The `switch` marks a lexeme complete only in one of the seven states that can be written. -/
theorem parse_switch_success (ch : Char) (s s1 : Scan) (h : parse_switch ch s = some s1)
    (hs : s.success = false) (h1 : s1.success = true) : emittable s1.state := by
  unfold parse_switch at h
  repeat' split at h
  all_goals cases h
  all_goals simp_all [emittable]

theorem tokens_label (st : State) (h : emittable st) :
    st.toNat < TOKENS.length ∧ TOKENS.getD st.toNat [] = category_label st
      ∧ st ≠ State.UNKNOWN ∧ st ≠ State.NORMAL ∧ NUL ∉ category_label st := by
  rcases h with h | h | h | h | h | h | h <;> subst h <;> decide

theorem parse_emit_skip (s : Scan) (h : s.success = false) : parse_emit s = s := by
  simp [parse_emit, h]

/-- The emission block on a complete lexeme. -/
theorem parse_emit_done (s : Scan) (h : s.success = true) (he : emittable s.state) :
    parse_emit s
      = { s with lexeme := strcat (strcat s.lexeme (category_label s.state)) [NEWLINE]
                 fout := s.fout ++ token_line ⟨cstr s.lexeme, s.state⟩
                 tokens := s.tokens ++ [⟨cstr s.lexeme, s.state⟩]
                 state := State.NORMAL
                 index := 0
                 success := false } := by
  obtain ⟨-, hl, hu, -, hn⟩ := tokens_label s.state he
  have hnl : NUL ∉ [NEWLINE] := by decide
  simp only [parse_emit, h, hu, ne_eq, not_false_eq_true, and_self, if_true, hl, token_line]
  rw [cstr_strcat _ _ hnl, cstr_strcat _ _ hn]

theorem parse_step_success (s s2 : Scan) (h : parse_step s = Step.next s2)
    (hs : s.success = false) : s2.success = false := by
  obtain ⟨ch, f1, s1, -, -, hsw, rfl⟩ := parse_step_next s s2 h
  by_cases h1 : s1.success = true
  · rw [parse_emit_done s1 h1 (parse_switch_success ch _ s1 hsw hs h1)]
  · have h1f : s1.success = false := by simpa using h1
    rw [parse_emit_skip s1 h1f]; exact h1f

/-! ## Lemmas on the numeric literal rule -/

/-- The hexadecimal digits, one by one. -/
theorem isxdigit_mem (c : Char) (h : isxdigit c = true) :
    c ∈ "0123456789abcdefABCDEF".toList := by
  obtain ⟨n, hn⟩ : ∃ n, c.toNat = n := ⟨_, rfl⟩
  have hc : c = Char.ofNat n := by rw [← hn, Char.ofNat_toNat]
  simp only [isxdigit, isdigit, hn, Bool.or_eq_true, Bool.and_eq_true, decide_eq_true_eq] at h
  subst hc
  rcases h with (⟨h1, h2⟩ | ⟨h1, h2⟩) | ⟨h1, h2⟩ <;> interval_cases n <;> decide

theorem is_num_lit_char_iff (q : Char) : is_num_lit_char q = true ↔ q ∈ literal_chars := by
  constructor
  · intro h
    simp only [is_num_lit_char, Bool.or_eq_true, decide_eq_true_eq] at h
    rcases h with ((h | h) | h) | h
    · have := isxdigit_mem q h
      revert this
      simp only [literal_chars]
      intro this
      have hsub : ∀ x ∈ "0123456789abcdefABCDEF".toList, x ∈ "0123456789abcdefABCDEF#.,".toList := by
        decide
      exact hsub q this
    · subst h; decide
    · subst h; decide
    · subst h; decide
  · revert q
    decide

theorem is_num_literal_end_cons (c p : Char) (rest : FILE) :
    is_num_literal_end c (p :: rest)
      = (decide ((c = '.' ∧ p = '.') ∨ (c = ',' ∧ is_num_lit_char p = false)
            ∨ is_num_lit_char c = false), ungetc p rest) := by
  have h2 : buf_get [p, NUL] 0 = p := rfl
  simp only [is_num_literal_end, fpeek_one_cons, h2]
  by_cases h : (c = '.' ∧ p = '.') ∨ (c = ',' ∧ is_num_lit_char p = false)
  · have h4 : (c = '.' ∧ p = '.') ∨ (c = ',' ∧ is_num_lit_char p = false)
        ∨ is_num_lit_char c = false := by
      rcases h with h | h
      · exact Or.inl h
      · exact Or.inr (Or.inl h)
    simp only [h, if_true, h4, decide_True]
  · simp only [h, if_false]
    by_cases h3 : is_num_lit_char c = false
    · have h4 : (c = '.' ∧ p = '.') ∨ (c = ',' ∧ is_num_lit_char p = false)
          ∨ is_num_lit_char c = false := Or.inr (Or.inr h3)
      rw [decide_eq_true h4]
      simp only [h3, if_true]
    · have h4 : ¬ ((c = '.' ∧ p = '.') ∨ (c = ',' ∧ is_num_lit_char p = false)
            ∨ is_num_lit_char c = false) := by
        rw [← or_assoc]; exact not_or.mpr ⟨h, h3⟩
      rw [decide_eq_false h4]
      simp [h3]

theorem is_num_literal_end_nil (c : Char) :
    is_num_literal_end c []
      = (decide (c = ',' ∨ is_num_lit_char c = false), []) := by
  have h2 : buf_get [NUL] 0 = NUL := rfl
  have h3 : is_num_lit_char NUL = false := by decide
  have h4 : ¬ (NUL = '.') := by decide
  simp only [is_num_literal_end, fpeek_one_nil, h2, h3, h4, and_false, and_true, false_or]
  by_cases h : c = ','
  · simp [h]
  · simp only [h, if_false, false_or]
    by_cases h5 : is_num_lit_char c = false
    · simp [h5]
    · simp [h5]
/-! ## Lemmas on the length of the stream -/

/-- A pushback adds at most one character. -/
theorem ungetc_length (c : Char) (f : FILE) : (ungetc c f).length ≤ f.length + 1 := by
  unfold ungetc
  split <;> simp

theorem fpeek_one_length (f : FILE) : (fpeek f [] 1).2.2.length ≤ f.length := by
  cases f with
  | nil => simp [fpeek_one_nil]
  | cons p rest =>
    rw [fpeek_one_cons]
    exact ungetc_length p rest

theorem is_comment_length (ch : Char) (f : FILE) : (is_comment ch f).2.length ≤ f.length := by
  have := fpeek_one_length f
  unfold is_comment
  cases hp : fpeek f [] 1 with
  | mk r rest =>
    cases rest with
    | mk peek f1 =>
      rw [hp] at this
      simp only at this ⊢
      repeat' split
      all_goals exact this

theorem is_string_length (ch : Char) (f : FILE) : (is_string ch f).2.length ≤ f.length := by
  have := fpeek_one_length f
  unfold is_string
  cases hp : fpeek f [] 1 with
  | mk r rest =>
    cases rest with
    | mk peek f1 =>
      rw [hp] at this
      simp only at this ⊢
      repeat' split
      all_goals exact this

theorem is_comment_end_length (ch : Char) (f : FILE) :
    (is_comment_end ch f).2.length ≤ f.length := by
  have := fpeek_one_length f
  unfold is_comment_end
  cases hp : fpeek f [] 1 with
  | mk r rest =>
    cases rest with
    | mk peek f1 =>
      rw [hp] at this
      simp only at this ⊢
      repeat' split
      all_goals exact this

theorem is_num_literal_end_length (ch : Char) (f : FILE) :
    (is_num_literal_end ch f).2.length ≤ f.length := by
  have := fpeek_one_length f
  unfold is_num_literal_end
  cases hp : fpeek f [] 1 with
  | mk r rest =>
    cases rest with
    | mk peek f1 =>
      rw [hp] at this
      simp only at this ⊢
      repeat' split
      all_goals exact this

theorem set_state_length (ch : Char) (f : FILE) : (set_state f ch).2.length ≤ f.length := by
  have h1 := is_comment_length ch f
  have h2 := is_string_length ch (is_comment ch f).2
  unfold set_state
  cases hc : is_comment ch f with
  | mk r1 f1 =>
    cases hs : is_string ch f1 with
    | mk r2 f2 =>
      rw [hc] at h1 h2
      simp only at h1 h2
      rw [hs] at h2
      simp only at h2
      simp only [hs]
      repeat' split
      all_goals first | exact Nat.le_refl _ | exact h1 | exact Nat.le_trans h2 h1

theorem getc_length (f : FILE) : (getc f).2.length ≤ f.length := by
  cases f <;> simp [getc]
/-- One `switch`: the stream grows by at most the character pushed back, only when a lexeme
is completed, and never from Idle. -/
theorem parse_switch_progress (ch : Char) (s s1 : Scan) (h : parse_switch ch s = some s1)
    (hs : s.success = false) :
    s1.fin.length ≤ s.fin.length + 1
      ∧ (s1.success = false → s1.fin.length ≤ s.fin.length)
      ∧ (s.state = State.NORMAL → s1.success = false) := by
  have hu := ungetc_length ch s.fin
  unfold parse_switch at h
  split at h
  · -- COMMENT
    have h1 := is_comment_end_length ch s.fin
    cases hc : is_comment_end ch s.fin with
    | mk r f1 =>
      rw [hc] at h h1
      simp only at h h1
      have h2 := getc_length f1
      split at h
      · cases hg : getc f1 with
        | mk g f2 =>
          rw [hg] at h h2
          simp only at h2
          cases h
          simp_all
          omega
      · cases h
        simp_all
        omega
  · split at h <;> cases h <;> simp_all
  · repeat' split at h
    all_goals cases h
    all_goals simp_all
  · split at h <;> cases h <;> simp_all
  · repeat' split at h
    all_goals cases h
    all_goals simp_all
  · split at h <;> cases h <;> simp_all
  · have h1 := is_num_literal_end_length ch s.fin
    cases hc : is_num_literal_end ch s.fin with
    | mk r f1 =>
      rw [hc] at h h1
      simp only at h h1
      have h2 := ungetc_length ch f1
      split at h
      · cases h
        simp_all
        omega
      · cases h
        simp_all
        omega
  · cases h
  · have h1 := set_state_length ch s.fin
    cases hc : set_state s.fin ch with
    | mk st f1 =>
      rw [hc] at h h1
      simp only at h h1
      split at h
      · cases h
        simp_all
        omega
      · cases h
        simp_all
        omega
/-- Every pass decreases the measure. -/
theorem parse_step_measure (s s2 : Scan) (h : parse_step s = Step.next s2)
    (hs : s.success = false) : scan_measure s2 < scan_measure s := by
  obtain ⟨ch, f1, s1, hfin, -, hsw, rfl⟩ := parse_step_next s s2 h
  obtain ⟨hA, hD, hC⟩ := parse_switch_progress ch _ s1 hsw hs
  simp only at hA hD hC
  unfold scan_measure
  rw [hfin, List.length_cons]
  by_cases h1 : s1.success = true
  · have he := parse_switch_success ch _ s1 hsw hs h1
    rw [parse_emit_done s1 h1 he]
    have hn : s.state ≠ State.NORMAL := by
      intro hn
      have := hC hn
      rw [h1] at this
      cases this
    simp only [hn, if_true, if_false]
    omega
  · have h1f : s1.success = false := by simpa using h1
    rw [parse_emit_skip s1 h1f]
    have := hD h1f
    split <;> split <;> omega

theorem parse_step_leave_ending (s : Scan) (o : Outcome) (h : parse_step s = Step.leave o) :
    o.ending ≠ Ending.fuel := by
  unfold parse_step at h
  split at h
  · cases h; simp
  · split at h
    · cases h; simp
    · split at h
      · cases h; simp
      · cases h

/-- With a budget above the measure the loop is left after at most as many passes as the
measure says. -/
theorem parse_loop_terminates (n : Nat) (s : Scan) (hs : s.success = false)
    (hn : scan_measure s < n) :
    ∃ k o, k ≤ scan_measure s ∧ (∃ s1, parse_run k s = Step.next s1)
      ∧ parse_run (k + 1) s = Step.leave o ∧ parse_loop n s = o
      ∧ o.ending ≠ Ending.fuel := by
  induction n generalizing s with
  | zero => omega
  | succ n ih =>
    rw [parse_loop_step]
    cases hst : parse_step s with
    | leave o =>
      refine ⟨0, o, Nat.zero_le _, ⟨s, rfl⟩, ?_, rfl, parse_step_leave_ending s o hst⟩
      simp [parse_run, hst]
    | next s2 =>
      have hm := parse_step_measure s s2 hst hs
      have hs2 := parse_step_success s s2 hst hs
      obtain ⟨k, o, hk, ⟨s3, h3⟩, hl, hp, he⟩ := ih s2 hs2 (by omega)
      refine ⟨k + 1, o, by omega, ⟨s3, ?_⟩, ?_, hp, he⟩
      · simp only [parse_run, hst]; exact h3
      · simp only [parse_run, hst]; exact hl

theorem parse_run_success (fin : FILE) (k : Nat) (s : Scan)
    (h : parse_run k (parse_init fin) = Step.next s) : s.success = false :=
  parse_run_induct (fun s => s.success = false)
    (fun s s1 hs hst => parse_step_success s s1 hst hs) k (parse_init fin) s rfl h

/-! ## Lemmas on the bounds of the arrays -/

/-- A peek of one character that succeeds stores its terminator in the second cell. -/
theorem fpeek_within_cons (cap : Nat) (p : Char) (rest : FILE) :
    fpeek_within cap (p :: rest) 1 = decide (1 < cap) := by
  by_cases h : 1 < cap
  · have h0 : 0 < cap := by omega
    simp [fpeek_within, fpeek_read_within, fpeek_read, getc, h, h0]
  · simp [fpeek_within, fpeek_read_within, fpeek_read, getc, h]

/-- A peek at the end of the input stores NUL in the first cell only. -/
theorem fpeek_within_nil (cap : Nat) : fpeek_within cap [] 1 = decide (0 < cap) := by
  simp [fpeek_within, fpeek_read_within, fpeek_read, getc]

/-- The peek of `is_comment_end` leaves its one-cell array whenever a character is there to
be peeked. -/
theorem is_comment_end_within_cons (p : Char) (rest : FILE) :
    is_comment_end_within (p :: rest) = false := by
  simp [is_comment_end_within, fpeek_within_cons]

/-- The peeks of `set_state` stay inside their arrays. -/
theorem set_state_within_true (fptr : FILE) (ch : Char) : set_state_within fptr ch = true := by
  have h : ∀ f : FILE, fpeek_within PEEK_BUFFER_LEN f 1 = true := by
    intro f
    cases f with
    | nil => rw [fpeek_within_nil]; decide
    | cons p rest => rw [fpeek_within_cons]; decide
  unfold set_state_within is_comment_within is_string_within
  split
  · rw [h]
    cases is_comment ch fptr with
    | mk r1 f1 =>
      simp only [Bool.true_and]
      split
      · rfl
      · exact h f1
  · rfl

/-- The first pass of a scan of an input that begins with `/*`: the comment is entered. -/
theorem comment_entered (stack : Buffer) (rest : FILE) :
    ∃ lex, parse_step (parse_start stack ('/' :: '*' :: rest))
      = Step.next ⟨'*' :: rest, [], [], lex, 1, false, State.COMMENT⟩ := by
  have h2 : '/' ≠ CHAR_EOF := by decide
  have h3 : new_token_table '/' '*' = State.COMMENT := by decide
  refine ⟨buf_set (if buf_get (stack.take MAX_BUFFER) 0 ≠ NUL
    then init_buffer (stack.take MAX_BUFFER) MAX_BUFFER else stack.take MAX_BUFFER) 0 '/', ?_⟩
  simp only [parse_step, parse_start, getc, h2, if_false, parse_switch,
    set_state_table '/' '*' rest (by decide), h3]
  simp [parse_emit_skip]

/-- In a scan of an input that begins with `/*` and one more character, the second pass
leaves the array of `is_comment_end`. -/
theorem comment_overrun (stack : Buffer) (c : Char) (rest : FILE) (n : Nat) :
    parse_run_within (n + 2) (parse_start stack ('/' :: '*' :: c :: rest)) = false := by
  obtain ⟨lex, h⟩ := comment_entered stack (c :: rest)
  have h2 : '*' ≠ CHAR_EOF := by decide
  have e : parse_step_within ⟨'*' :: c :: rest, [], [], lex, 1, false, State.COMMENT⟩ = false := by
    simp [parse_step_within, getc, h2, parse_switch_within, is_comment_end_within_cons]
  simp only [parse_run_within, h, e, Bool.false_and, Bool.and_false]

/-! ## Lemmas on the shape of the lexeme array -/

/-- Length of the array after an assignment. -/
theorem buf_set_len (b : Buffer) (i : Nat) (c : Char) :
    (buf_set b i c).length = max b.length (i + 1) := by
  unfold buf_set
  split
  · simp; omega
  · simp; omega

theorem buf_set_from_len (xs : List Char) (b : Buffer) (i : Nat) :
    (buf_set_from b i xs).length ≤ max b.length (i + xs.length) := by
  induction xs generalizing b i with
  | nil => simp [buf_set_from]
  | cons x xs ih =>
    simp only [buf_set_from, List.length_cons]
    have := ih (buf_set b i x) (i + 1)
    rw [buf_set_len] at this
    omega

theorem strlen_le (b : Buffer) : strlen b ≤ b.length := by
  have h := cstr_append_drop b
  have h2 : (cstr b ++ b.dropWhile (fun c => c != NUL)).length = b.length := by rw [h]
  rw [List.length_append] at h2
  unfold strlen
  omega

theorem strcat_len (b : Buffer) (xs : List Char) (hx : NUL ∉ xs) :
    (strcat b xs).length ≤ max b.length (strlen b + xs.length + 1) := by
  unfold strcat
  rw [cstr_of_no_nul xs hx]
  have := buf_set_from_len (xs ++ [NUL]) b (strlen b)
  simp only [List.length_append, List.length_singleton] at this
  omega

theorem cstr_append_nuls (p : List Char) (k : Nat) :
    cstr (p ++ List.replicate k NUL) = cstr p := by
  induction p with
  | nil =>
    cases k with
    | zero => rfl
    | succ k => simp [cstr, List.replicate_succ, List.takeWhile]
  | cons x xs ih =>
    unfold cstr at ih ⊢
    simp only [List.cons_append, List.takeWhile_cons, ih]

theorem holds_cstr (b : Buffer) (p : List Char) (h : holds b p) : cstr b = cstr p := by
  obtain ⟨k, rfl⟩ := h
  exact cstr_append_nuls p k

theorem holds_set (b : Buffer) (p : List Char) (c : Char) (h : holds b p) :
    holds (buf_set b p.length c) (p ++ [c]) := by
  obtain ⟨k, rfl⟩ := h
  cases k with
  | zero =>
    refine ⟨0, ?_⟩
    simp [buf_set]
  | succ k =>
    refine ⟨k, ?_⟩
    have : p.length < (p ++ List.replicate (k + 1) NUL).length := by simp
    simp only [buf_set, this, if_true, List.replicate_succ]
    rw [List.set_append_right _ _ (Nat.le_refl _)]
    simp

theorem holds_take (b : Buffer) (p : List Char) (h : holds b p) : b.take p.length = p := by
  obtain ⟨k, rfl⟩ := h
  simp

theorem holds_get_zero (b : Buffer) (x : Char) (p : List Char) (h : holds b (x :: p)) :
    buf_get b 0 = x := by
  obtain ⟨k, rfl⟩ := h
  rfl

theorem all_nul_holds (b : Buffer) (h : all_nul b) : holds b [] := by
  refine ⟨b.length, ?_⟩
  simp only [List.nil_append]
  exact List.eq_replicate_iff.mpr ⟨rfl, h⟩

theorem all_nul_get (b : Buffer) (h : all_nul b) (i : Nat) : buf_get b i = NUL := by
  unfold buf_get
  rw [List.getD_eq_getElem?_getD]
  cases hg : b[i]? with
  | none => rfl
  | some c =>
    obtain ⟨hi, he⟩ := List.getElem?_eq_some_iff.mp hg
    exact h c (he ▸ List.getElem_mem hi)

theorem init_buffer_all_nul (b : Buffer) (size : Nat) (h : b.length ≤ size) :
    all_nul (init_buffer b size) ∧ (init_buffer b size).length = b.length := by
  unfold init_buffer
  rw [List.drop_eq_nil_of_le h, List.append_nil, Nat.min_eq_right h]
  constructor
  · intro c hc
    exact (List.mem_replicate.mp hc).2
  · simp

theorem buf_get_strcat_zero (b : Buffer) (xs : List Char) (h : buf_get b 0 ≠ NUL) :
    buf_get (strcat b xs) 0 = buf_get b 0 := by
  unfold strcat
  rw [buf_get_set_from]
  have : 0 < strlen b := by
    rcases Nat.eq_zero_or_pos (strlen b) with h0 | h0
    · have := buf_get_strlen b
      rw [h0] at this
      exact absurd this h
    · exact h0
  have hn : ¬ (strlen b ≤ 0 ∧ 0 < strlen b + (cstr xs ++ [NUL]).length) := by omega
  simp only [hn, if_false]
theorem cstr_length_le (p : List Char) : (cstr p).length ≤ p.length := strlen_le p

/-- What the emission block needs to stay inside the array, on a complete lexeme. -/
theorem parse_emit_within_done (s : Scan) (h : s.success = true) (he : emittable s.state)
    (hin : parse_emit_within s = true) :
    strlen s.lexeme + (category_label s.state).length + 1 < MAX_BUFFER := by
  obtain ⟨-, hl, hu, -, hn⟩ := tokens_label s.state he
  have hnl : NUL ∉ [NEWLINE] := by decide
  simp only [parse_emit_within, h, hu, ne_eq, not_false_eq_true, and_self, if_true, hl,
    strcat_within, Bool.and_eq_true, decide_eq_true_eq] at hin
  have h2 := hin.2
  unfold strlen at h2
  rw [cstr_strcat _ _ hn, cstr_of_no_nul _ hnl] at h2
  simp only [List.length_append, List.length_singleton] at h2
  unfold strlen
  omega

/-- The invariant after the emission of a completed lexeme. -/
theorem shape_emit (stack : Buffer) (s1 : Scan)
    (h1 : s1.success = true) (he : emittable s1.state)
    (hne : buf_get s1.lexeme 0 ≠ NUL)
    (hroom : s1.lexeme.length ≤ MAX_BUFFER) (hin : parse_emit_within s1 = true)
    (htoks : ∀ t ∈ s1.tokens, token_ok t)
    (hnew : token_ok ⟨cstr s1.lexeme, s1.state⟩) : Shape stack (parse_emit s1) := by
  obtain ⟨-, -, -, -, hn⟩ := tokens_label s1.state he
  have hnl : NUL ∉ [NEWLINE] := by decide
  have hfit := parse_emit_within_done s1 h1 he hin
  rw [parse_emit_done s1 h1 he]
  refine ⟨rfl, ?_, ?_, ?_, ?_⟩
  · have a1 := strcat_len s1.lexeme (category_label s1.state) hn
    have a2 := strcat_len (strcat s1.lexeme (category_label s1.state)) [NEWLINE] hnl
    have a3 : strlen (strcat s1.lexeme (category_label s1.state))
        = strlen s1.lexeme + (category_label s1.state).length := by
      unfold strlen
      rw [cstr_strcat _ _ hn, List.length_append]
    simp only [List.length_singleton] at a2
    simp only
    omega
  · intro _
    refine ⟨rfl, Or.inr ⟨?_, Or.inr ⟨⟨cstr s1.lexeme, s1.state⟩, ?_, ?_⟩⟩⟩
    · simp only
      rw [buf_get_strcat_zero _ _ (by rw [buf_get_strcat_zero _ _ hne]; exact hne),
        buf_get_strcat_zero _ _ hne]
      exact hne
    · simp
    · simp only [token_line]
      rw [cstr_strcat _ _ hnl, cstr_strcat _ _ hn]
  · intro h; exact absurd rfl h
  · intro t ht
    simp only [List.mem_append, List.mem_singleton] at ht
    rcases ht with ht | rfl
    · exact htoks t ht
    · exact hnew

/-- The invariant after a character is stored in the lexeme. -/
theorem shape_absorb (stack : Buffer) (s : Scan) (ch : Char) (f2 : FILE) (st : State)
    (pending : List Char)
    (hS : Shape stack s) (hi : s.index < MAX_BUFFER)
    (hst : st ≠ State.NORMAL)
    (hp : holds s.lexeme pending) (hidx : s.index = pending.length) (hpne : pending ≠ [])
    (hz : buf_get s.lexeme 0 ≠ NUL) (hcl : class_shape st (pending ++ [ch])) :
    Shape stack { s with fin := f2, state := st, lexeme := buf_set s.lexeme s.index ch,
                         index := s.index + 1 } := by
  refine ⟨hS.success, ?_, ?_, ?_, hS.toks⟩
  · simp only
    rw [buf_set_len]
    have := hS.room
    omega
  · intro h; exact absurd h hst
  · intro _
    refine ⟨pending ++ [ch], ?_, ?_, ?_, Or.inl ?_, hcl⟩
    · simp only; rw [hidx]; exact holds_set _ _ _ hp
    · simp [hidx]
    · simp
    · simp only
      rw [buf_get_set]
      have : (0 : Nat) ≠ s.index := by
        rw [hidx]
        intro h0
        exact hpne (List.length_eq_zero.mp h0.symm)
      simp only [this, if_false]
      exact hz

theorem is_comment_cases (ch : Char) (f f1 : FILE) (r : Int) (h : is_comment ch f = (r, f1)) :
    r = 0 ∨ (r = 1 ∧ ch = '/') ∨ (r = EOF ∧ f1 = []) := by
  cases f with
  | nil =>
    simp only [is_comment, fpeek_one_nil, if_true, Prod.mk.injEq] at h
    exact Or.inr (Or.inr ⟨h.1.symm, h.2.symm⟩)
  | cons p rest =>
    have h1 : ¬ ((1 : Int) = EOF) := by decide
    simp only [is_comment, fpeek_one_cons, h1, if_false] at h
    split at h
    · rename_i hc
      simp only [Prod.mk.injEq] at h
      exact Or.inr (Or.inl ⟨h.1.symm, hc.1⟩)
    · simp only [Prod.mk.injEq] at h
      exact Or.inl h.1.symm

theorem is_string_cases (ch : Char) (f f1 : FILE) (r : Int) (h : is_string ch f = (r, f1)) :
    r = 0 ∨ (r = 1 ∧ ch = DQUOTE) ∨ (r = EOF ∧ f1 = []) := by
  cases f with
  | nil =>
    simp only [is_string, fpeek_one_nil, if_true, Prod.mk.injEq] at h
    exact Or.inr (Or.inr ⟨h.1.symm, h.2.symm⟩)
  | cons p rest =>
    have h1 : ¬ ((1 : Int) = EOF) := by decide
    simp only [is_string, fpeek_one_cons, h1, if_false] at h
    split at h
    · rename_i hc
      simp only [Prod.mk.injEq] at h
      exact Or.inr (Or.inl ⟨h.1.symm, hc⟩)
    · simp only [Prod.mk.injEq] at h
      exact Or.inl h.1.symm

theorem operator_char_ne_nul (ch : Char)
    (h : (is_single_op ch || has_double_op ch) = true) : ch ≠ NUL := by
  rintro rfl
  revert h
  decide

theorem isdigit_ne_nul (ch : Char) (h : isdigit ch = true) : ch ≠ NUL := by
  rintro rfl
  revert h
  decide

/-- What the state chosen by `set_state` says of the character classified. -/
theorem set_state_class (f : FILE) (ch : Char) (st : State) (f2 : FILE)
    (h : set_state f ch = (st, f2)) :
    (st = State.KEYWORD → isalpha ch = true)
      ∧ (st = State.OPERATOR → (is_single_op ch = true ∨ has_double_op ch = true))
      ∧ st ≠ State.IDENTIFIER
      ∧ (st ≠ State.NORMAL → st ≠ State.UNKNOWN → ch ≠ NUL ∨ f2 = []) := by
  unfold set_state at h
  split at h
  · cases hc : is_comment ch f with
    | mk r1 f1 =>
      have c1 := is_comment_cases ch f f1 r1 hc
      rw [hc] at h
      simp only at h
      split at h
      · rename_i hr1
        simp only [Prod.mk.injEq] at h
        obtain ⟨rfl, rfl⟩ := h
        refine ⟨by simp, by simp, by simp, fun _ _ => ?_⟩
        rcases c1 with c | ⟨-, c⟩ | ⟨-, c⟩
        · exact absurd c hr1
        · left; rw [c]; decide
        · right; exact c
      · cases hs : is_string ch f1 with
        | mk r2 f3 =>
          have c2 := is_string_cases ch f1 f3 r2 hs
          rw [hs] at h
          simp only at h
          split at h
          · rename_i hr2
            simp only [Prod.mk.injEq] at h
            obtain ⟨rfl, rfl⟩ := h
            refine ⟨by simp, by simp, by simp, fun _ _ => ?_⟩
            rcases c2 with c | ⟨-, c⟩ | ⟨-, c⟩
            · exact absurd c hr2
            · left; rw [c]; decide
            · right; exact c
          · split at h
            · rename_i ha
              simp only [Prod.mk.injEq] at h
              obtain ⟨rfl, rfl⟩ := h
              exact ⟨fun _ => ha, by simp, by simp,
                fun _ _ => Or.inl (isalpha_facts ch ha).2.1⟩
            · split at h
              · rename_i ho
                simp only [Prod.mk.injEq] at h
                obtain ⟨rfl, rfl⟩ := h
                refine ⟨by simp, fun _ => ?_, by simp,
                  fun _ _ => Or.inl (operator_char_ne_nul ch ho)⟩
                simpa using ho
              · split at h
                · rename_i hq
                  simp only [Prod.mk.injEq] at h
                  obtain ⟨rfl, rfl⟩ := h
                  refine ⟨by simp, by simp, by simp, fun _ _ => Or.inl ?_⟩
                  rw [hq]; decide
                · split at h
                  · rename_i hd
                    simp only [Prod.mk.injEq] at h
                    obtain ⟨rfl, rfl⟩ := h
                    exact ⟨by simp, by simp, by simp,
                      fun _ _ => Or.inl (isdigit_ne_nul ch hd)⟩
                  · simp only [Prod.mk.injEq] at h
                    obtain ⟨rfl, rfl⟩ := h
                    exact ⟨by simp, by simp, by simp, fun _ hu => absurd rfl hu⟩
  · simp only [Prod.mk.injEq] at h
    obtain ⟨rfl, rfl⟩ := h
    exact ⟨by simp, by simp, by simp, fun hn => absurd rfl hn⟩
/-- A pass from Idle keeps the invariant. -/
theorem shape_step_normal (stack : Buffer) (s s1 : Scan) (ch : Char)
    (f1 : FILE) (hS : Shape stack s)
    (hsw : parse_switch ch { s with fin := f1 } = some s1) (hs : s.state = State.NORMAL) :
    Shape stack (parse_emit s1) := by
  obtain ⟨hidx, hlex⟩ := hS.idle hs
  have hroom := hS.room
  obtain ⟨lexeme1, hl1, hnul, hlen⟩ : ∃ lexeme1,
      lexeme1 = (if buf_get s.lexeme 0 ≠ NUL then init_buffer s.lexeme MAX_BUFFER else s.lexeme)
        ∧ all_nul lexeme1 ∧ lexeme1.length = s.lexeme.length := by
    refine ⟨_, rfl, ?_⟩
    rcases hlex with ha | ⟨hz, -⟩
    · have : buf_get s.lexeme 0 = NUL := all_nul_get _ ha 0
      simp only [this, ne_eq, not_true_eq_false, if_false]
      exact ⟨ha, trivial⟩
    · simp only [hz, ne_eq, not_false_eq_true, if_true]
      exact init_buffer_all_nul _ _ hroom
  simp only [parse_switch, hs] at hsw
  rw [← hl1] at hsw
  cases hss : set_state f1 ch with
  | mk st f2 =>
    obtain ⟨hk, ho, hi, hz⟩ := set_state_class f1 ch st f2 hss
    rw [hss] at hsw
    simp only at hsw
    split at hsw
    · rename_i hne
      cases hsw
      rw [parse_emit_skip _ (by exact hS.success)]
      refine ⟨hS.success, ?_, ?_, ?_, hS.toks⟩
      · simp only
        rw [buf_set_len]
        have : 1 ≤ MAX_BUFFER := by decide
        omega
      · intro h; exact absurd h hne
      · intro _
        refine ⟨[ch], ?_, ?_, by simp, ?_, ?_⟩
        · simp only [hidx]
          exact holds_set lexeme1 [] ch (all_nul_holds _ hnul)
        · simp [hidx]
        · simp only [hidx, buf_get_set, if_true]
          by_cases hu : st = State.UNKNOWN
          · exact Or.inr (Or.inr hu)
          · rcases hz hne hu with h | h
            · exact Or.inl h
            · exact Or.inr (Or.inl h)
        · refine ⟨fun h => ?_, fun h => absurd h hi, fun h => ⟨ch, rfl, ho h⟩⟩
          intro c hcm
          simp only [List.mem_singleton] at hcm
          rw [hcm]; exact hk h
    · rename_i hne
      have hst : st = State.NORMAL := by
        by_contra hx; exact hne hx
      cases hsw
      rw [parse_emit_skip _ (by exact hS.success)]
      refine ⟨hS.success, ?_, ?_, ?_, hS.toks⟩
      · simp only; omega
      · intro _
        exact ⟨hidx, Or.inl hnul⟩
      · intro h; exact absurd hst h

/-- The invariant after a lexeme is completed as it is, the current character pushed back
or not. -/
theorem shape_pushback (stack : Buffer) (s : Scan) (g : FILE) (st : State)
    (hS : Shape stack s) (he : emittable st)
    (hem : parse_emit_within { s with fin := g, state := st, success := true } = true)
    (hz : buf_get s.lexeme 0 ≠ NUL) (hnew : token_ok ⟨cstr s.lexeme, st⟩) :
    Shape stack (parse_emit { s with fin := g, state := st, success := true }) :=
  shape_emit stack _ rfl he hz hS.room hem hS.toks hnew

/-- The invariant after a lexeme is completed by the current character. -/
theorem shape_finish (stack : Buffer) (s : Scan) (f1 : FILE) (ch : Char) (st : State)
    (pending : List Char) (hS : Shape stack s) (he : emittable st)
    (hi : s.index < MAX_BUFFER)
    (hem : parse_emit_within
      { s with fin := f1, state := st, lexeme := buf_set s.lexeme s.index ch, success := true }
        = true)
    (hidx : s.index = pending.length) (hpne : pending ≠ [])
    (hz : buf_get s.lexeme 0 ≠ NUL)
    (hnew : token_ok ⟨cstr (buf_set s.lexeme s.index ch), st⟩) :
    Shape stack (parse_emit
      { s with fin := f1, state := st, lexeme := buf_set s.lexeme s.index ch,
               success := true }) := by
  have hroom := hS.room
  refine shape_emit stack _ rfl he ?_ ?_ hem hS.toks hnew
  · simp only
    rw [buf_get_set]
    have : (0 : Nat) ≠ s.index := by
      rw [hidx]
      intro h0
      exact hpne (List.length_eq_zero.mp h0.symm)
    simp only [this, if_false]
    exact hz
  · simp only; rw [buf_set_len]; omega

theorem token_ok_other (lex : List Char) (st : State) (h1 : st ≠ State.KEYWORD)
    (h2 : st ≠ State.IDENTIFIER) (h3 : st ≠ State.OPERATOR) : token_ok ⟨lex, st⟩ :=
  ⟨fun h => absurd h h1, fun h => absurd h h2, fun h => absurd h h3⟩

theorem class_shape_other (p : List Char) (st : State) (h1 : st ≠ State.KEYWORD)
    (h2 : st ≠ State.IDENTIFIER) (h3 : st ≠ State.OPERATOR) : class_shape st p :=
  ⟨fun h => absurd h h1, fun h => absurd h h2, fun h => absurd h h3⟩

/-- A pass in the state `STRING` or `CHAR_LITERAL` keeps the invariant. -/
theorem shape_step_string (stack : Buffer) (s s1 : Scan) (ch : Char)
    (f1 : FILE) (hS : Shape stack s)
    (hsw : parse_switch ch { s with fin := f1 } = some s1)
    (hin : parse_switch_within ch { s with fin := f1 } = true)
    (hem : parse_emit_within s1 = true)
    (hs : s.state = State.STRING ∨ s.state = State.CHAR_LITERAL)
    (pending : List Char) (hp : holds s.lexeme pending) (hidx : s.index = pending.length)
    (hpne : pending ≠ []) (hz : buf_get s.lexeme 0 ≠ NUL) :
    Shape stack (parse_emit s1) := by
  have hS0 := hS.success
  rcases hs with hs | hs
  · simp only [parse_switch, hs] at hsw
    have hi : s.index < MAX_BUFFER := by simpa [parse_switch_within, hs] using hin
    split at hsw
    · cases hsw
      exact shape_finish stack s f1 ch State.STRING pending hS (by simp [emittable]) hi hem
        hidx hpne hz (token_ok_other _ _ (by simp) (by simp) (by simp))
    · cases hsw
      rw [parse_emit_skip _ (by exact hS0)]
      exact shape_absorb stack s ch f1 State.STRING pending hS hi (by simp) hp hidx hpne hz
        (class_shape_other _ _ (by simp) (by simp) (by simp))
  · simp only [parse_switch, hs] at hsw
    have hi : s.index < MAX_BUFFER := by simpa [parse_switch_within, hs] using hin
    split at hsw
    · cases hsw
      exact shape_finish stack s f1 ch State.CHAR_LITERAL pending hS (by simp [emittable]) hi
        hem hidx hpne hz (token_ok_other _ _ (by simp) (by simp) (by simp))
    · cases hsw
      rw [parse_emit_skip _ (by exact hS0)]
      exact shape_absorb stack s ch f1 State.CHAR_LITERAL pending hS hi (by simp) hp hidx hpne
        hz (class_shape_other _ _ (by simp) (by simp) (by simp))

/-- A pass in the state `COMMENT` keeps the invariant. -/
theorem shape_step_comment (stack : Buffer) (s s1 : Scan) (ch : Char)
    (f1 : FILE) (hS : Shape stack s)
    (hsw : parse_switch ch { s with fin := f1 } = some s1)
    (hin : parse_switch_within ch { s with fin := f1 } = true)
    (hem : parse_emit_within s1 = true)
    (hs : s.state = State.COMMENT)
    (pending : List Char) (hp : holds s.lexeme pending) (hidx : s.index = pending.length)
    (hpne : pending ≠ []) (hz : buf_get s.lexeme 0 ≠ NUL) :
    Shape stack (parse_emit s1) := by
  have hS0 := hS.success
  have hroom := hS.room
  simp only [parse_switch, hs] at hsw
  simp only [parse_switch_within, hs, Bool.and_eq_true] at hin
  cases hce : is_comment_end ch f1 with
  | mk r f2 =>
    rw [hce] at hsw hin
    simp only at hsw hin
    split at hsw
    · rename_i hr
      have hi : s.index + 1 < MAX_BUFFER := by simpa [hr] using hin.2
      cases hg : getc f2 with
      | mk g f3 =>
        rw [hg] at hsw
        simp only at hsw
        cases hsw
        refine shape_emit stack _ rfl (Or.inl rfl) ?_ ?_ hem hS.toks
          (token_ok_other _ _ (by simp) (by simp) (by simp))
        · simp only
          have h0 : (0 : Nat) ≠ s.index := by
            rw [hidx]
            intro h0
            exact hpne (List.length_eq_zero.mp h0.symm)
          have h1 : (0 : Nat) ≠ s.index + 1 := by omega
          rw [buf_get_set, buf_get_set]
          simp only [h0, h1, if_false]
          exact hz
        · simp only; rw [buf_set_len, buf_set_len]; omega
    · rename_i hr
      have hi : s.index < MAX_BUFFER := by simpa [hr] using hin.2
      cases hsw
      rw [parse_emit_skip _ (by exact hS0)]
      exact shape_absorb stack s ch f2 State.COMMENT pending hS hi (by simp) hp hidx hpne hz
        (class_shape_other _ _ (by simp) (by simp) (by simp))

/-- A pass in the state `NUM_LITERAL` keeps the invariant. -/
theorem shape_step_num (stack : Buffer) (s s1 : Scan) (ch : Char)
    (f1 : FILE) (hS : Shape stack s)
    (hsw : parse_switch ch { s with fin := f1 } = some s1)
    (hin : parse_switch_within ch { s with fin := f1 } = true)
    (hem : parse_emit_within s1 = true)
    (hs : s.state = State.NUM_LITERAL)
    (pending : List Char) (hp : holds s.lexeme pending) (hidx : s.index = pending.length)
    (hpne : pending ≠ []) (hz : buf_get s.lexeme 0 ≠ NUL) :
    Shape stack (parse_emit s1) := by
  have hS0 := hS.success
  simp only [parse_switch, hs] at hsw
  simp only [parse_switch_within, hs, Bool.and_eq_true] at hin
  cases hce : is_num_literal_end ch f1 with
  | mk r f2 =>
    rw [hce] at hsw hin
    simp only at hsw hin
    split at hsw
    · cases hsw
      exact shape_pushback stack s (ungetc ch f2) State.NUM_LITERAL hS (by simp [emittable])
        hem hz (token_ok_other _ _ (by simp) (by simp) (by simp))
    · rename_i hr
      have hi : s.index < MAX_BUFFER := by simpa [hr] using hin.2
      cases hsw
      rw [parse_emit_skip _ (by exact hS0)]
      exact shape_absorb stack s ch f2 State.NUM_LITERAL pending hS hi (by simp) hp hidx hpne
        hz (class_shape_other _ _ (by simp) (by simp) (by simp))

theorem keywords_cstr : ∀ kw ∈ keywords, cstr kw = kw := by
  decide

theorem is_keyword_iff (b : Buffer) : is_keyword b = true ↔ cstr b ∈ keywords := by
  unfold is_keyword
  rw [List.any_eq_true]
  constructor
  · rintro ⟨kw, hk, he⟩
    simp only [strcmp_eq, beq_iff_eq] at he
    rw [he, keywords_cstr kw hk]
    exact hk
  · intro h
    refine ⟨cstr b, h, ?_⟩
    simp only [strcmp_eq, beq_iff_eq]
    rw [keywords_cstr _ h]

theorem allowed_ne_nul (c : Char) (h : is_allowed_ident_char c = true) : c ≠ NUL := by
  rintro rfl
  revert h
  decide

theorem digit_not_alpha (c : Char) (h : (isdigit c || decide (c = '_')) = true) :
    isalpha c = false ∧ is_allowed_ident_char c = true := by
  simp only [Bool.or_eq_true, decide_eq_true_eq] at h
  rcases h with h | h
  · constructor
    · simp only [isdigit, Bool.and_eq_true, decide_eq_true_eq] at h
      simp only [isalpha, Bool.or_eq_false_iff, Bool.and_eq_false_iff, decide_eq_false_iff_not]
      omega
    · simp [is_allowed_ident_char, isalnum, h]
  · subst h
    decide

theorem alpha_allowed (c : Char) (h : isalpha c = true) : is_allowed_ident_char c = true := by
  simp [is_allowed_ident_char, isalnum, h]

/-- A pass in the state `KEYWORD` keeps the invariant. -/
theorem shape_step_keyword (stack : Buffer) (s s1 : Scan) (ch : Char)
    (f1 : FILE) (hS : Shape stack s)
    (hsw : parse_switch ch { s with fin := f1 } = some s1)
    (hin : parse_switch_within ch { s with fin := f1 } = true)
    (hem : parse_emit_within s1 = true)
    (hs : s.state = State.KEYWORD)
    (pending : List Char) (hp : holds s.lexeme pending) (hidx : s.index = pending.length)
    (hpne : pending ≠ []) (hz : buf_get s.lexeme 0 ≠ NUL)
    (hcl : ∀ c ∈ pending, isalpha c = true) :
    Shape stack (parse_emit s1) := by
  have hS0 := hS.success
  simp only [parse_switch, hs] at hsw
  simp only [parse_switch_within, hs] at hin
  split at hsw
  · rename_i hd
    have hi : s.index < MAX_BUFFER := by simpa [hd] using hin
    obtain ⟨hd1, hd2⟩ := digit_not_alpha ch hd
    cases hsw
    rw [parse_emit_skip _ (by exact hS0)]
    refine shape_absorb stack s ch f1 State.IDENTIFIER pending hS hi
      (by simp) hp hidx hpne hz ⟨by simp, fun _ => ⟨?_, ch, by simp, hd1⟩, by simp⟩
    intro c hc
    simp only [List.mem_append, List.mem_singleton] at hc
    rcases hc with hc | rfl
    · exact alpha_allowed c (hcl c hc)
    · exact hd2
  · split at hsw
    · cases hsw
      by_cases hk : is_keyword s.lexeme = false
      · simp only [hk, if_true] at hem ⊢
        refine shape_pushback stack s (ungetc ch f1) State.IDENTIFIER hS
          (by simp [emittable]) hem hz ⟨by simp, fun _ => ?_, by simp⟩
        simp only
        intro hmem
        have := (is_keyword_iff s.lexeme).mpr hmem
        rw [hk] at this
        cases this
      · have hk1 : is_keyword s.lexeme = true := by simpa using hk
        simp only [hk1, Bool.true_eq_false, if_false] at hem ⊢
        refine shape_pushback stack s (ungetc ch f1) State.KEYWORD hS
          (by simp [emittable]) hem hz ⟨fun _ => ?_, by simp, by simp⟩
        exact (is_keyword_iff s.lexeme).mp hk1
    · rename_i hd ha
      have hi : s.index < MAX_BUFFER := by simpa [hd, ha] using hin
      have ha1 : isalpha ch = true := by simpa using ha
      cases hsw
      rw [parse_emit_skip _ (by exact hS0)]
      refine shape_absorb stack s ch f1 State.KEYWORD pending hS hi
        (by simp) hp hidx hpne hz ⟨fun _ => ?_, by simp, by simp⟩
      intro c hc
      simp only [List.mem_append, List.mem_singleton] at hc
      rcases hc with hc | rfl
      · exact hcl c hc
      · exact ha1

/-- A pass in the state `IDENTIFIER` keeps the invariant. -/
theorem shape_step_ident (stack : Buffer) (s s1 : Scan) (ch : Char)
    (f1 : FILE) (hS : Shape stack s)
    (hsw : parse_switch ch { s with fin := f1 } = some s1)
    (hin : parse_switch_within ch { s with fin := f1 } = true)
    (hem : parse_emit_within s1 = true)
    (hs : s.state = State.IDENTIFIER)
    (pending : List Char) (hp : holds s.lexeme pending) (hidx : s.index = pending.length)
    (hpne : pending ≠ []) (hz : buf_get s.lexeme 0 ≠ NUL)
    (hcl : (∀ c ∈ pending, is_allowed_ident_char c = true) ∧ ∃ c ∈ pending, isalpha c = false) :
    Shape stack (parse_emit s1) := by
  have hS0 := hS.success
  simp only [parse_switch, hs] at hsw
  simp only [parse_switch_within, hs] at hin
  split at hsw
  · cases hsw
    refine shape_pushback stack s (ungetc ch f1) State.IDENTIFIER hS
      (by simp [emittable]) hem hz ⟨by simp, fun _ => ?_, by simp⟩
    simp only
    have hnn : NUL ∉ pending := fun h => allowed_ne_nul _ (hcl.1 _ h) rfl
    rw [holds_cstr _ _ hp, cstr_of_no_nul _ hnn]
    intro hmem
    obtain ⟨c, hc, hca⟩ := hcl.2
    have := (keywords_alpha pending hmem).2 c hc
    rw [hca] at this
    cases this
  · rename_i ha
    have hi : s.index < MAX_BUFFER := by simpa [ha] using hin
    have ha1 : is_allowed_ident_char ch = true := by simpa using ha
    cases hsw
    rw [parse_emit_skip _ (by exact hS0)]
    obtain ⟨c0, hc0, hc0a⟩ := hcl.2
    refine shape_absorb stack s ch f1 State.IDENTIFIER pending hS hi
      (by simp) hp hidx hpne hz
      ⟨by simp, fun _ => ⟨?_, c0, by simp [hc0], hc0a⟩, by simp⟩
    intro c hc
    simp only [List.mem_append, List.mem_singleton] at hc
    rcases hc with hc | rfl
    · exact hcl.1 c hc
    · exact ha1

theorem cstr_pair_length (f c : Char) (hf : f ≠ NUL) :
    (cstr [f, c]).length = 1 ∨ (cstr [f, c]).length = 2 := by
  have hf1 : (f != NUL) = true := by simpa using hf
  by_cases hc : c = NUL
  · left; simp [cstr, List.takeWhile, hf1, hc]
  · right
    have hc1 : (c != NUL) = true := by simpa using hc
    simp [cstr, List.takeWhile, hf1, hc1]

theorem cstr_single (f : Char) (hf : f ≠ NUL) : cstr [f] = [f] := by
  have hf1 : (f != NUL) = true := by simpa using hf
  simp [cstr, List.takeWhile, hf1]

/-- A pass in the state `OPERATOR` keeps the invariant. -/
theorem shape_step_operator (stack : Buffer) (s s1 : Scan) (ch : Char)
    (f1 : FILE) (hS : Shape stack s)
    (hsw : parse_switch ch { s with fin := f1 } = some s1)
    (_hin : parse_switch_within ch { s with fin := f1 } = true)
    (hem : parse_emit_within s1 = true)
    (hs : s.state = State.OPERATOR)
    (pending : List Char) (hp : holds s.lexeme pending) (hidx : s.index = pending.length)
    (hpne : pending ≠ []) (hz : buf_get s.lexeme 0 ≠ NUL)
    (hcl : ∃ f, pending = [f] ∧ (is_single_op f = true ∨ has_double_op f = true)) :
    Shape stack (parse_emit s1) := by
  have hS0 := hS.success
  obtain ⟨f, rfl, hop⟩ := hcl
  have hg0 : buf_get s.lexeme 0 = f := holds_get_zero _ _ _ hp
  have hfn : f ≠ NUL := hg0 ▸ hz
  have hone : token_ok ⟨cstr s.lexeme, State.OPERATOR⟩ := by
    refine ⟨by simp, by simp, fun _ => Or.inl ?_⟩
    simp only
    rw [holds_cstr _ _ hp, cstr_single f hfn]
    rfl
  have hi : s.index < MAX_BUFFER := by
    rw [hidx]
    show 1 < MAX_BUFFER
    decide
  simp only [parse_switch, hs, hg0] at hsw
  split at hsw
  · cases hsw
    exact shape_pushback stack s (ungetc ch f1) State.OPERATOR hS
      (by simp [emittable]) hem hz hone
  · split at hsw
    · split at hsw
      · cases hsw
        exact shape_finish stack s f1 ch State.OPERATOR [f] hS (by simp [emittable]) hi hem
          hidx hpne hz (by
            refine ⟨by simp, by simp, fun _ => ?_⟩
            simp only
            have h1 := holds_set _ _ ch hp
            rw [← hidx] at h1
            rw [holds_cstr _ _ h1]
            exact cstr_pair_length f ch hfn)
      · cases hsw
        exact shape_pushback stack s (ungetc ch f1) State.OPERATOR hS
          (by simp [emittable]) hem hz hone
    · rename_i h1 h2
      rcases hop with h | h
      · exact absurd h h1
      · exact absurd h h2

/-- What `parse_step_within` says of a pass that goes on. -/
theorem parse_step_within_next (s s2 : Scan) (h : parse_step s = Step.next s2)
    (hin : parse_step_within s = true) :
    ∃ ch f1 s1, s.fin = ch :: f1 ∧ ch ≠ CHAR_EOF
      ∧ parse_switch ch { s with fin := f1 } = some s1 ∧ s2 = parse_emit s1
      ∧ parse_switch_within ch { s with fin := f1 } = true ∧ parse_emit_within s1 = true := by
  obtain ⟨ch, f1, s1, hfin, hc, hsw, rfl⟩ := parse_step_next s s2 h
  refine ⟨ch, f1, s1, hfin, hc, hsw, rfl, ?_⟩
  simp only [parse_step_within, hfin, getc, hc, if_false, hsw, Bool.and_eq_true] at hin
  exact hin

/-- Every pass through the loop body that stays inside the arrays keeps the invariant. -/
theorem shape_step (stack : Buffer) (s s2 : Scan) (hS : Shape stack s)
    (hin : parse_step_within s = true) (h : parse_step s = Step.next s2) : Shape stack s2 := by
  obtain ⟨ch, f1, s1, hfin, -, hsw, rfl, hiw, hem⟩ := parse_step_within_next s s2 h hin
  by_cases hn : s.state = State.NORMAL
  · exact shape_step_normal stack s s1 ch f1 hS hsw hn
  · obtain ⟨pending, hp, hidx, hpne, hz0, hcl⟩ := hS.busy hn
    have hu : s.state ≠ State.UNKNOWN := by
      intro hu
      simp [parse_switch, hu] at hsw
    have hz : buf_get s.lexeme 0 ≠ NUL := by
      rcases hz0 with h | h | h
      · exact h
      · rw [hfin] at h; cases h
      · exact absurd h hu
    cases hs : s.state with
    | COMMENT =>
      exact shape_step_comment stack s s1 ch f1 hS hsw hiw hem hs pending hp hidx hpne hz
    | IDENTIFIER =>
      exact shape_step_ident stack s s1 ch f1 hS hsw hiw hem hs pending hp hidx hpne hz
        (hcl.2.1 hs)
    | STRING =>
      exact shape_step_string stack s s1 ch f1 hS hsw hiw hem (Or.inl hs) pending hp hidx hpne
        hz
    | KEYWORD =>
      exact shape_step_keyword stack s s1 ch f1 hS hsw hiw hem hs pending hp hidx hpne hz
        (hcl.1 hs)
    | CHAR_LITERAL =>
      exact shape_step_string stack s s1 ch f1 hS hsw hiw hem (Or.inr hs) pending hp hidx hpne
        hz
    | OPERATOR =>
      exact shape_step_operator stack s s1 ch f1 hS hsw hiw hem hs pending hp hidx hpne hz
        (hcl.2.2 hs)
    | NUM_LITERAL =>
      exact shape_step_num stack s s1 ch f1 hS hsw hiw hem hs pending hp hidx hpne hz
    | UNKNOWN => exact absurd hs hu
    | NORMAL => exact absurd hs hn

/-- What holds before the first pass and is kept by every pass that stays inside the arrays
holds at every loop head reached inside the arrays. -/
theorem parse_run_within_induct (Inv : Scan → Prop)
    (hstep : ∀ s s1, Inv s → parse_step_within s = true → parse_step s = Step.next s1 → Inv s1) :
    ∀ (k : Nat) (s0 s : Scan), Inv s0 → parse_run_within k s0 = true →
      parse_run k s0 = Step.next s → Inv s := by
  intro k
  induction k with
  | zero =>
    intro s0 s h0 _ h
    simp only [parse_run, Step.next.injEq] at h
    exact h ▸ h0
  | succ k ih =>
    intro s0 s h0 hin h
    simp only [parse_run] at h
    simp only [parse_run_within, Bool.and_eq_true] at hin
    cases hs : parse_step s0 with
    | leave o => rw [hs] at h; cases h
    | next s1 =>
      rw [hs] at h hin
      exact ih s1 s (hstep s0 s1 h0 hin.1 hs) hin.2 h

/-- The invariant holds before the first pass, when the array starts clean. -/
theorem shape_init (stack : Buffer) (fin : FILE) (hc : starts_clean stack) :
    Shape stack (parse_start stack fin) := by
  refine ⟨rfl, ?_, ?_, ?_, ?_⟩
  · simp only [parse_start, List.length_take]
    exact Nat.min_le_left _ _
  · intro _
    refine ⟨rfl, ?_⟩
    rcases hc with h | h
    · right
      refine ⟨?_, Or.inl ⟨rfl, rfl⟩⟩
      simp only [parse_start]
      have : buf_get (stack.take MAX_BUFFER) 0 = buf_get stack 0 := by
        cases stack with
        | nil => rfl
        | cons x xs => rfl
      rw [this]; exact h
    · exact Or.inl h
  · intro h
    exact absurd rfl h
  · intro t ht
    simp [parse_start] at ht

/-- The invariant holds at every loop head reached inside the arrays. -/
theorem shape_run (stack : Buffer) (fin : FILE) (hc : starts_clean stack) (k : Nat) (s : Scan)
    (hin : parse_run_within k (parse_start stack fin) = true)
    (h : parse_run k (parse_start stack fin) = Step.next s) : Shape stack s :=
  parse_run_within_induct (Shape stack) (fun s s1 hS hi hst => shape_step stack s s1 hS hi hst)
    k (parse_start stack fin) s (shape_init stack fin hc) hin h

/-- One more gap and token at the end. -/
theorem interleave_append (gaps : List (List Char)) (tokens : List Token) (g : List Char)
    (t : Token) (h : gaps.length = tokens.length) :
    interleave (gaps ++ [g]) (tokens ++ [t]) = interleave gaps tokens ++ (g ++ t.lexeme) := by
  induction gaps generalizing tokens with
  | nil =>
    cases tokens with
    | nil => simp [interleave]
    | cons x xs => simp at h
  | cons a as ih =>
    cases tokens with
    | nil => simp at h
    | cons x xs =>
      simp only [List.length_cons, Nat.add_right_cancel_iff] at h
      have e := ih xs h
      show a ++ x.lexeme ++ interleave (as ++ [g]) (xs ++ [t])
        = a ++ x.lexeme ++ interleave as xs ++ (g ++ t.lexeme)
      rw [e]
      simp only [List.append_assoc]

/-- On a stream without the byte 255 a peek of one character gives the stream back. -/
theorem fpeek_text (f : FILE) (h : CHAR_EOF ∉ f) : (fpeek f [] 1).2.2 = f := by
  cases f with
  | nil => rfl
  | cons p rest =>
    rw [fpeek_one_cons]
    exact ungetc_of_ne (fun e => h (by simp [e])) rest

theorem is_comment_text (ch : Char) (f : FILE) (h : CHAR_EOF ∉ f) :
    (is_comment ch f).2 = f := by
  have := fpeek_text f h
  unfold is_comment
  cases hp : fpeek f [] 1 with
  | mk r rest =>
    cases rest with
    | mk peek f1 =>
      rw [hp] at this
      simp only at this ⊢
      repeat' split
      all_goals exact this

theorem is_string_text (ch : Char) (f : FILE) (h : CHAR_EOF ∉ f) :
    (is_string ch f).2 = f := by
  have := fpeek_text f h
  unfold is_string
  cases hp : fpeek f [] 1 with
  | mk r rest =>
    cases rest with
    | mk peek f1 =>
      rw [hp] at this
      simp only at this ⊢
      repeat' split
      all_goals exact this

theorem is_comment_end_text (ch : Char) (f : FILE) (h : CHAR_EOF ∉ f) :
    (is_comment_end ch f).2 = f := by
  have := fpeek_text f h
  unfold is_comment_end
  cases hp : fpeek f [] 1 with
  | mk r rest =>
    cases rest with
    | mk peek f1 =>
      rw [hp] at this
      simp only at this ⊢
      repeat' split
      all_goals exact this

theorem is_num_literal_end_text (ch : Char) (f : FILE) (h : CHAR_EOF ∉ f) :
    (is_num_literal_end ch f).2 = f := by
  have := fpeek_text f h
  unfold is_num_literal_end
  cases hp : fpeek f [] 1 with
  | mk r rest =>
    cases rest with
    | mk peek f1 =>
      rw [hp] at this
      simp only at this ⊢
      repeat' split
      all_goals exact this

theorem set_state_text (ch : Char) (f : FILE) (h : CHAR_EOF ∉ f) :
    (set_state f ch).2 = f := by
  have h1 := is_comment_text ch f h
  have h2 := is_string_text ch f h
  unfold set_state
  cases hc : is_comment ch f with
  | mk r1 f1 =>
    rw [hc] at h1
    simp only at h1
    subst h1
    cases hs : is_string ch f1 with
    | mk r2 f2 =>
      rw [hs] at h2
      simp only at h2
      subst h2
      simp only [hs]
      repeat' split
      all_goals rfl

theorem set_state_normal (ch : Char) (f f2 : FILE) (h : set_state f ch = (State.NORMAL, f2)) :
    isspace ch = true := by
  unfold set_state at h
  split at h
  · cases hc : is_comment ch f with
    | mk r1 f1 =>
      cases hs : is_string ch f1 with
      | mk r2 f3 =>
        rw [hc] at h
        simp only [hs] at h
        repeat' split at h
        all_goals cases h
  · rename_i hsp
    simpa using hsp

theorem is_comment_end_eof (ch : Char) (f f1 : FILE) (r : Int)
    (h : is_comment_end ch f = (r, f1)) (hr : r ≠ 0) :
    f = [] ∨ (ch = '*' ∧ ∃ rest, f = '/' :: rest) := by
  cases f with
  | nil => exact Or.inl rfl
  | cons p rest =>
    right
    have h1 : ¬ ((1 : Int) = EOF) := by decide
    have h2 : buf_get [p, NUL] 0 = p := rfl
    simp only [is_comment_end, fpeek_one_cons, h1, if_false, h2] at h
    split at h
    · rename_i hc
      exact ⟨hc.1, rest, by rw [hc.2]⟩
    · simp only [Prod.mk.injEq] at h
      exact absurd h.1.symm hr
theorem recon_grow (input : List Char) (s s2 : Scan) (ch : Char) (f1 : FILE)
    (hR : reconstructs input s) (hfin : s.fin = ch :: f1) (ht : s2.tokens = s.tokens)
    (hp : pending_text s2 = pending_text s ++ [ch]) (hf : s2.fin = f1) :
    reconstructs input s2 := by
  obtain ⟨gaps, ws, hlen, hg, hw, hin⟩ := hR
  refine ⟨gaps, ws, by rw [ht]; exact hlen, hg, hw, ?_⟩
  rw [hin, ht, hp, hf, hfin]
  simp only [List.append_assoc, List.singleton_append]

theorem recon_skip (input : List Char) (s s2 : Scan) (ch : Char) (f1 : FILE)
    (hR : reconstructs input s) (hfin : s.fin = ch :: f1) (ht : s2.tokens = s.tokens)
    (hp0 : pending_text s = []) (hp : pending_text s2 = []) (hsp : isspace ch = true)
    (hf : s2.fin = f1) : reconstructs input s2 := by
  obtain ⟨gaps, ws, hlen, hg, hw, hin⟩ := hR
  refine ⟨gaps, ws ++ [ch], by rw [ht]; exact hlen, hg, ?_, ?_⟩
  · intro c hc
    simp only [List.mem_append, List.mem_singleton] at hc
    rcases hc with hc | rfl
    · exact hw c hc
    · exact hsp
  · rw [hin, ht, hp, hf, hfin, hp0]
    simp only [List.append_assoc, List.singleton_append, List.nil_append]

theorem recon_shut (input : List Char) (s s2 : Scan) (more : List Char) (f2 : FILE)
    (st : State) (hR : reconstructs input s) (hfin : s.fin = more ++ f2)
    (ht : s2.tokens = s.tokens ++ [⟨pending_text s ++ more, st⟩])
    (hp : pending_text s2 = []) (hf : s2.fin = f2) : reconstructs input s2 := by
  obtain ⟨gaps, ws, hlen, hg, hw, hin⟩ := hR
  refine ⟨gaps ++ [ws], [], ?_, ?_, ?_, ?_⟩
  · rw [ht]; simp [hlen]
  · intro g hgm
    simp only [List.mem_append, List.mem_singleton] at hgm
    rcases hgm with h | rfl
    · exact hg g h
    · exact hw
  · intro c hc; cases hc
  · rw [hin, ht, hp, hf, hfin, interleave_append _ _ _ _ hlen]
    simp only [List.append_assoc, List.nil_append]

theorem emit_view (s1 : Scan) (written : List Char) (h1 : s1.success = true)
    (he : emittable s1.state) (hw : holds s1.lexeme written) (hn : NUL ∉ written) :
    (parse_emit s1).tokens = s1.tokens ++ [⟨written, s1.state⟩]
      ∧ pending_text (parse_emit s1) = [] ∧ (parse_emit s1).fin = s1.fin := by
  rw [parse_emit_done s1 h1 he]
  refine ⟨?_, ?_, rfl⟩
  · simp only
    rw [holds_cstr _ _ hw, cstr_of_no_nul _ hn]
  · simp [pending_text]

theorem grow_view (s : Scan) (lex : Buffer) (ch : Char) (f2 : FILE) (st : State)
    (P : List Char) (hp : holds lex P) (hidx : s.index = P.length)
    (hst : st ≠ State.NORMAL) :
    pending_text { s with fin := f2, state := st, lexeme := buf_set lex s.index ch,
                          index := s.index + 1 } = P ++ [ch] := by
  have h1 := holds_set _ _ ch hp
  rw [← hidx] at h1
  have h2 := holds_take _ _ h1
  simp only [pending_text, hst, if_false]
  rw [hidx] at h2 ⊢
  simpa using h2

theorem busy_view (stack : Buffer) (s : Scan) (hS : Shape stack s) (hn : s.state ≠ State.NORMAL) :
    holds s.lexeme (pending_text s) ∧ s.index = (pending_text s).length
      ∧ pending_text s ≠ [] ∧ class_shape s.state (pending_text s) := by
  obtain ⟨pending, hp, hidx, hpne, -, hcl⟩ := hS.busy hn
  have : pending_text s = pending := by
    simp only [pending_text, hn, if_false]
    rw [hidx]; exact holds_take _ _ hp
  rw [this]
  exact ⟨hp, hidx, hpne, hcl⟩
theorem recon_parts (input : List Char) (s : Scan) (c : Char) (hR : reconstructs input s)
    (hc : c ∉ input) : c ∉ pending_text s ∧ c ∉ s.fin := by
  obtain ⟨gaps, ws, -, -, -, hin⟩ := hR
  rw [hin] at hc
  simp only [List.mem_append, not_or] at hc
  exact ⟨hc.2.2.1, hc.2.2.2⟩

theorem recon_step_normal (stack : Buffer) (input : List Char)
    (s s1 : Scan) (ch : Char) (f1 : FILE) (hS : Shape stack s) (hR : reconstructs input s)
    (he : CHAR_EOF ∉ f1) (hfin : s.fin = ch :: f1)
    (hsw : parse_switch ch { s with fin := f1 } = some s1) (hs : s.state = State.NORMAL) :
    reconstructs input (parse_emit s1) := by
  obtain ⟨hidx, hlex⟩ := hS.idle hs
  have hroom := hS.room
  have hp0 : pending_text s = [] := by simp [pending_text, hs]
  obtain ⟨lexeme1, hl1, hnul⟩ : ∃ lexeme1,
      lexeme1 = (if buf_get s.lexeme 0 ≠ NUL then init_buffer s.lexeme MAX_BUFFER else s.lexeme)
        ∧ all_nul lexeme1 := by
    refine ⟨_, rfl, ?_⟩
    rcases hlex with ha | ⟨hz, -⟩
    · have : buf_get s.lexeme 0 = NUL := all_nul_get _ ha 0
      simp only [this, ne_eq, not_true_eq_false, if_false]
      exact ha
    · simp only [hz, ne_eq, not_false_eq_true, if_true]
      exact (init_buffer_all_nul _ _ hroom).1
  simp only [parse_switch, hs] at hsw
  rw [← hl1] at hsw
  have htx := set_state_text ch f1 he
  cases hss : set_state f1 ch with
  | mk st f2 =>
    rw [hss] at hsw htx
    simp only at hsw htx
    subst htx
    split at hsw
    · rename_i hne
      cases hsw
      rw [parse_emit_skip _ (by exact hS.success)]
      refine recon_grow input s _ ch f2 hR hfin rfl ?_ rfl
      rw [hp0]
      exact grow_view s lexeme1 ch f2 st [] (all_nul_holds _ hnul) (by simp [hidx]) hne
    · rename_i hne
      have hst : st = State.NORMAL := by
        by_contra hx; exact hne hx
      subst hst
      cases hsw
      rw [parse_emit_skip _ (by exact hS.success)]
      exact recon_skip input s _ ch f2 hR hfin rfl hp0 (by simp [pending_text])
        (set_state_normal ch f2 f2 hss) rfl

theorem recon_emit (input : List Char) (s s1 : Scan) (more : List Char) (f2 : FILE)
    (hR : reconstructs input s) (hfin : s.fin = more ++ f2)
    (h1 : s1.success = true) (he : emittable s1.state)
    (hw : holds s1.lexeme (pending_text s ++ more)) (hn : NUL ∉ pending_text s ++ more)
    (ht : s1.tokens = s.tokens) (hf : s1.fin = f2) :
    reconstructs input (parse_emit s1) := by
  obtain ⟨e1, e2, e3⟩ := emit_view s1 _ h1 he hw hn
  exact recon_shut input s _ more f2 s1.state hR hfin (by rw [e1, ht]) e2 (by rw [e3, hf])

theorem recon_absorb (input : List Char) (stack : Buffer) (s : Scan) (ch : Char) (f1 : FILE)
    (st : State) (hS : Shape stack s) (hR : reconstructs input s) (hfin : s.fin = ch :: f1)
    (hn : s.state ≠ State.NORMAL) (hst : st ≠ State.NORMAL) :
    reconstructs input { s with fin := f1, state := st,
                                lexeme := buf_set s.lexeme s.index ch,
                                index := s.index + 1 } := by
  obtain ⟨hp, hidx, -, -⟩ := busy_view stack s hS hn
  exact recon_grow input s _ ch f1 hR hfin rfl
    (grow_view s s.lexeme ch f1 st _ hp hidx hst) rfl
theorem recon_push (input : List Char) (stack : Buffer) (s s1 : Scan) (hS : Shape stack s)
    (hR : reconstructs input s) (hnul : NUL ∉ input) (hn : s.state ≠ State.NORMAL)
    (h1 : s1.success = true) (he : emittable s1.state) (hl : s1.lexeme = s.lexeme)
    (ht : s1.tokens = s.tokens) (hf : s1.fin = s.fin) :
    reconstructs input (parse_emit s1) := by
  obtain ⟨hp, -, -, -⟩ := busy_view stack s hS hn
  obtain ⟨hPn, -⟩ := recon_parts input s NUL hR hnul
  refine recon_emit input s s1 [] s.fin hR rfl h1 he ?_ ?_ ht hf
  · rw [hl, List.append_nil]; exact hp
  · rw [List.append_nil]; exact hPn

theorem recon_close (input : List Char) (stack : Buffer) (s s1 : Scan) (ch : Char) (f1 : FILE)
    (hS : Shape stack s) (hR : reconstructs input s) (hnul : NUL ∉ input)
    (hfin : s.fin = ch :: f1) (hn : s.state ≠ State.NORMAL)
    (h1 : s1.success = true) (he : emittable s1.state)
    (hl : s1.lexeme = buf_set s.lexeme s.index ch)
    (ht : s1.tokens = s.tokens) (hf : s1.fin = f1) :
    reconstructs input (parse_emit s1) := by
  obtain ⟨hp, hidx, -, -⟩ := busy_view stack s hS hn
  obtain ⟨hPn, hFn⟩ := recon_parts input s NUL hR hnul
  have hcn : ch ≠ NUL := fun e => hFn (by rw [hfin, e]; simp)
  refine recon_emit input s s1 [ch] f1 hR (by rw [hfin]; rfl) h1 he ?_ ?_ ht hf
  · rw [hl, hidx]; exact holds_set _ _ ch hp
  · simp only [List.mem_append, List.mem_singleton, not_or]
    exact ⟨hPn, fun e => hcn e.symm⟩

theorem recon_step_busy (stack : Buffer) (input : List Char)
    (s s1 : Scan) (ch : Char) (f1 : FILE) (hS : Shape stack s) (hR : reconstructs input s)
    (hnul : NUL ∉ input) (he : CHAR_EOF ∉ f1) (hch : ch ≠ CHAR_EOF)
    (hfin : s.fin = ch :: f1)
    (hsw : parse_switch ch { s with fin := f1 } = some s1) (hn : s.state ≠ State.NORMAL) :
    reconstructs input (parse_emit s1) ∨ carries_eof (parse_emit s1).tokens := by
  have hS0 := hS.success
  obtain ⟨hp, hidx, hpne, hcl⟩ := busy_view stack s hS hn
  obtain ⟨hPn, hFn⟩ := recon_parts input s NUL hR hnul
  have hcn : ch ≠ NUL := fun e => hFn (by rw [hfin, e]; simp)
  have hun : ungetc ch f1 = s.fin := by rw [hfin]; exact ungetc_of_ne hch f1
  cases hs : s.state with
  | NORMAL => exact absurd hs hn
  | UNKNOWN => simp [parse_switch, hs] at hsw
  | STRING =>
    left
    simp only [parse_switch, hs] at hsw
    split at hsw
    · cases hsw
      exact recon_close input stack s _ ch f1 hS hR hnul hfin hn rfl (by simp [emittable])
        rfl rfl rfl
    · cases hsw
      rw [parse_emit_skip _ (by exact hS0)]
      have := recon_absorb input stack s ch f1 s.state hS hR hfin hn hn
      rw [hs] at this
      exact this
  | CHAR_LITERAL =>
    left
    simp only [parse_switch, hs] at hsw
    split at hsw
    · cases hsw
      exact recon_close input stack s _ ch f1 hS hR hnul hfin hn rfl (by simp [emittable])
        rfl rfl rfl
    · cases hsw
      rw [parse_emit_skip _ (by exact hS0)]
      have := recon_absorb input stack s ch f1 s.state hS hR hfin hn hn
      rw [hs] at this
      exact this
  | IDENTIFIER =>
    left
    simp only [parse_switch, hs] at hsw
    split at hsw
    · cases hsw
      exact recon_push input stack s _ hS hR hnul hn rfl (by simp [emittable]) rfl rfl hun
    · cases hsw
      rw [parse_emit_skip _ (by exact hS0)]
      have := recon_absorb input stack s ch f1 s.state hS hR hfin hn hn
      rw [hs] at this
      exact this
  | KEYWORD =>
    left
    simp only [parse_switch, hs] at hsw
    split at hsw
    · cases hsw
      rw [parse_emit_skip _ (by exact hS0)]
      exact recon_absorb input stack s ch f1 State.IDENTIFIER hS hR hfin hn (by simp)
    · split at hsw
      · cases hsw
        refine recon_push input stack s _ hS hR hnul hn rfl ?_ rfl rfl hun
        simp only [emittable]
        split <;> simp
      · cases hsw
        rw [parse_emit_skip _ (by exact hS0)]
        have := recon_absorb input stack s ch f1 s.state hS hR hfin hn hn
        rw [hs] at this
        exact this
  | OPERATOR =>
    left
    obtain ⟨f, hpf, hop⟩ := hcl.2.2 hs
    rw [hpf] at hp
    have hg0 : buf_get s.lexeme 0 = f := holds_get_zero _ _ _ hp
    simp only [parse_switch, hs, hg0] at hsw
    split at hsw
    · cases hsw
      exact recon_push input stack s _ hS hR hnul hn rfl (by simp [emittable]) rfl rfl hun
    · split at hsw
      · split at hsw
        · cases hsw
          exact recon_close input stack s _ ch f1 hS hR hnul hfin hn rfl (by simp [emittable])
            rfl rfl rfl
        · cases hsw
          exact recon_push input stack s _ hS hR hnul hn rfl (by simp [emittable]) rfl rfl hun
      · rename_i h1 h2
        rcases hop with h | h
        · exact absurd h h1
        · exact absurd h h2
  | NUM_LITERAL =>
    left
    have htx := is_num_literal_end_text ch f1 he
    simp only [parse_switch, hs] at hsw
    cases hce : is_num_literal_end ch f1 with
    | mk r f2 =>
      rw [hce] at hsw htx
      simp only at hsw htx
      subst htx
      split at hsw
      · cases hsw
        exact recon_push input stack s _ hS hR hnul hn rfl (by simp [emittable]) rfl rfl hun
      · cases hsw
        rw [parse_emit_skip _ (by exact hS0)]
        have := recon_absorb input stack s ch f2 s.state hS hR hfin hn hn
        rw [hs] at this
        exact this
  | COMMENT =>
    have htx := is_comment_end_text ch f1 he
    simp only [parse_switch, hs] at hsw
    cases hce : is_comment_end ch f1 with
    | mk r f2 =>
      rw [hce] at hsw htx
      simp only at hsw htx
      subst htx
      split at hsw
      · rename_i hr
        rcases is_comment_end_eof ch f2 f2 r hce hr with hnil | ⟨-, rest, hrest⟩
        · right
          subst hnil
          simp only [getc, to_char] at hsw
          cases hsw
          have hw : holds (buf_set (buf_set s.lexeme s.index ch) (s.index + 1) CHAR_EOF)
              (pending_text s ++ [ch] ++ [CHAR_EOF]) := by
            have h1 := holds_set _ _ ch hp
            have h2 := holds_set _ _ CHAR_EOF h1
            rw [hidx]
            simpa using h2
          have hnn : NUL ∉ pending_text s ++ [ch] ++ [CHAR_EOF] := by
            simp only [List.mem_append, List.mem_singleton, not_or]
            exact ⟨⟨hPn, fun e => hcn e.symm⟩, by decide⟩
          have key : ∀ s1 : Scan, s1.success = true → s1.state = State.COMMENT →
              s1.lexeme = buf_set (buf_set s.lexeme s.index ch) (s.index + 1) CHAR_EOF →
              carries_eof (parse_emit s1).tokens := by
            intro s1 h1 hst hl
            obtain ⟨e1, -, -⟩ := emit_view s1 _ h1 (Or.inl hst) (hl ▸ hw) hnn
            rw [e1]
            exact ⟨⟨pending_text s ++ [ch] ++ [CHAR_EOF], s1.state⟩, by simp, by simp⟩
          exact key _ rfl rfl rfl
        · left
          subst hrest
          simp only [getc, to_char] at hsw
          cases hsw
          have hw : holds (buf_set (buf_set s.lexeme s.index ch) (s.index + 1) '/')
              (pending_text s ++ [ch, '/']) := by
            have h1 := holds_set _ _ ch hp
            have h2 := holds_set _ _ '/' h1
            rw [hidx]
            simpa using h2
          have hnn : NUL ∉ pending_text s ++ [ch, '/'] := by
            simp only [List.mem_append, List.mem_cons, List.mem_singleton, List.not_mem_nil,
              or_false, not_or]
            exact ⟨hPn, fun e => hcn e.symm, by decide⟩
          exact recon_emit input s _ [ch, '/'] rest hR (by rw [hfin]; rfl) rfl (Or.inl rfl)
            hw hnn rfl rfl
      · left
        cases hsw
        rw [parse_emit_skip _ (by exact hS0)]
        have := recon_absorb input stack s ch f2 s.state hS hR hfin hn hn
        rw [hs] at this
        exact this
theorem parse_step_tokens (s s2 : Scan) (h : parse_step s = Step.next s2) :
    ∃ more, s2.tokens = s.tokens ++ more := by
  obtain ⟨ch, f1, s1, -, -, hsw, rfl⟩ := parse_step_next s s2 h
  obtain ⟨more, hm⟩ := parse_emit_tokens s1
  have := (parse_switch_tokens ch _ s1 hsw).1
  simp only at this
  exact ⟨more, by rw [hm, this]⟩

theorem parse_run_succ (k : Nat) (s0 : Scan) :
    parse_run (k + 1) s0
      = match parse_run k s0 with
        | Step.leave o => Step.leave o
        | Step.next s => parse_step s := by
  induction k generalizing s0 with
  | zero =>
    simp only [parse_run]
    cases parse_step s0 <;> rfl
  | succ k ih =>
    rw [parse_run]
    cases hs : parse_step s0 with
    | leave o => simp [parse_run, hs]
    | next s1 =>
      simp only
      rw [ih s1]
      conv_rhs => rw [parse_run, hs]

/-- Every pass keeps the account of the input, unless a token carrying the end-of-input
byte is written. -/
theorem recon_step (stack : Buffer) (input : List Char)
    (hnul : NUL ∉ input) (heof : CHAR_EOF ∉ input) (s s2 : Scan)
    (hJ : Shape stack s ∧ (reconstructs input s ∨ carries_eof s.tokens))
    (hin : parse_step_within s = true) (h : parse_step s = Step.next s2) :
    Shape stack s2 ∧ (reconstructs input s2 ∨ carries_eof s2.tokens) := by
  obtain ⟨hS, hR⟩ := hJ
  refine ⟨shape_step stack s s2 hS hin h, ?_⟩
  rcases hR with hR | ⟨t, ht, hc⟩
  · obtain ⟨ch, f1, s1, hfin, hch, hsw, rfl⟩ := parse_step_next s s2 h
    obtain ⟨-, hFe⟩ := recon_parts input s CHAR_EOF hR heof
    have he : CHAR_EOF ∉ f1 := fun hm => hFe (by rw [hfin]; exact List.mem_cons_of_mem _ hm)
    by_cases hn : s.state = State.NORMAL
    · exact Or.inl (recon_step_normal stack input s s1 ch f1 hS hR he hfin hsw hn)
    · exact recon_step_busy stack input s s1 ch f1 hS hR hnul he hch hfin hsw hn
  · obtain ⟨more, hm⟩ := parse_step_tokens s s2 h
    exact Or.inr ⟨t, by rw [hm]; exact List.mem_append_left _ ht, hc⟩

theorem recon_init (stack : Buffer) (input : List Char) :
    reconstructs input (parse_start stack input) := by
  refine ⟨[], [], rfl, ?_, ?_, ?_⟩
  · intro g hg; cases hg
  · intro c hc; cases hc
  · simp [interleave, pending_text, parse_start]

theorem parse_step_completed (s : Scan) (o : Outcome) (h : parse_step s = Step.leave o)
    (hend : o.ending = Ending.completed) (heof : CHAR_EOF ∉ s.fin) : s.fin = [] := by
  unfold parse_step at h
  cases hf : s.fin with
  | nil => rfl
  | cons ch f1 =>
    have hch : ch ≠ CHAR_EOF := fun e => heof (by rw [hf, e]; simp)
    simp only [hf, getc, hch, if_false] at h
    split at h
    · cases h
      cases hend
    · cases h

/-! ## Lemmas on the cells of the lexeme array -/

/-- The cells that `init_buffer` clears. -/
theorem buf_get_init_buffer (b : Buffer) (size i : Nat) (h : i < size) :
    buf_get (init_buffer b size) i = NUL := by
  unfold buf_get init_buffer
  rw [List.getD_eq_getElem?_getD]
  by_cases h1 : i < min size b.length
  · rw [List.getElem?_append_left (by simpa using h1)]
    simp [List.getElem?_replicate, h1]
  · have h2 : b.length ≤ i := by
      rw [Nat.lt_min] at h1
      omega
    rw [List.getElem?_eq_none (by simp; omega)]
    rfl

/-- The first cells of an array, when none of them holds NUL, start its C string. -/
theorem cstr_get_prefix (b : Buffer) (n : Nat) (h : ∀ i, i < n → buf_get b i ≠ NUL) :
    ∀ i, i < n → i < (cstr b).length ∧ (cstr b).getD i NUL = buf_get b i := by
  induction b generalizing n with
  | nil =>
    intro i hi
    exact absurd rfl (h i hi)
  | cons x xs ih =>
    intro i hi
    have hx : x ≠ NUL := h 0 (by omega)
    have hx1 : (x != NUL) = true := by simpa using hx
    have hc : cstr (x :: xs) = x :: cstr xs := by
      simp [cstr, List.takeWhile, hx1]
    rw [hc]
    cases i with
    | zero => exact ⟨by simp, rfl⟩
    | succ j =>
      have := ih (n - 1) (fun k hk => h (k + 1) (by omega)) j (by omega)
      exact ⟨by simp; exact this.1, this.2⟩

/-- An array whose first cells hold identifier characters, one of them no letter, holds no
reserved word. -/
theorem not_keyword_of_cells (b : Buffer) (n : Nat)
    (h1 : ∀ i, i < n → is_allowed_ident_char (buf_get b i) = true)
    (h2 : ∃ i, i < n ∧ isalpha (buf_get b i) = false) : cstr b ∉ keywords := by
  intro hmem
  obtain ⟨i, hi, ha⟩ := h2
  obtain ⟨hl, hg⟩ := cstr_get_prefix b n (fun k hk => allowed_ne_nul _ (h1 k hk)) i hi
  have hm : buf_get b i ∈ cstr b := by
    rw [← hg, List.getD_eq_getElem _ _ hl]
    exact List.getElem_mem hl
  have := (keywords_alpha _ hmem).2 _ hm
  rw [ha] at this
  cases this

/-- The C string of an array that holds an operator character and then NUL. -/
theorem cstr_one_cell (b : Buffer) (f : Char) (h0 : buf_get b 0 = f) (hf : f ≠ NUL)
    (h1 : buf_get b 1 = NUL) : cstr b = [f] := by
  apply cstr_eq_of_get
  · simp only [List.mem_singleton]
    exact fun e => hf e.symm
  · intro j hj
    simp only [List.length_singleton] at hj
    have : j = 0 := by omega
    subst this
    exact h0
  · exact h1

/-- The C string of an array that holds two characters and then NUL. -/
theorem cstr_two_cells (b : Buffer) (f c : Char) (h0 : buf_get b 0 = f) (hf : f ≠ NUL)
    (h1 : buf_get b 1 = c) (hc : c ≠ NUL) (h2 : buf_get b 2 = NUL) : cstr b = [f, c] := by
  apply cstr_eq_of_get
  · simp only [List.mem_cons, List.mem_singleton, List.not_mem_nil, or_false, not_or]
    exact ⟨fun e => hf e.symm, fun e => hc e.symm⟩
  · intro j hj
    simp only [List.length_cons, List.length_singleton, List.length_nil] at hj
    have : j = 0 ∨ j = 1 := by omega
    rcases this with rfl | rfl
    · exact h0
    · exact h1
  · exact h2

/-- The invariant after the emission of a completed lexeme. -/
theorem cells_emit (clean : Prop) (s1 : Scan)
    (h1 : s1.success = true) (he : emittable s1.state)
    (hne : buf_get s1.lexeme 0 ≠ NUL)
    (htoks : ∀ t ∈ s1.tokens, word_ok t
      ∧ (clean → t.state = State.OPERATOR → t.lexeme.length = 1 ∨ t.lexeme.length = 2))
    (hnew : word_ok ⟨cstr s1.lexeme, s1.state⟩
      ∧ (clean → s1.state = State.OPERATOR →
          (cstr s1.lexeme).length = 1 ∨ (cstr s1.lexeme).length = 2)) :
    Cells clean (parse_emit s1) := by
  rw [parse_emit_done s1 h1 he]
  refine ⟨rfl, ?_, ?_, ?_, ?_, ?_, ?_⟩
  · intro _
    refine ⟨rfl, fun _ => Or.inl ?_⟩
    simp only
    rw [buf_get_strcat_zero _ _ (by rw [buf_get_strcat_zero _ _ hne]; exact hne),
      buf_get_strcat_zero _ _ hne]
    exact hne
  · intro h; exact absurd rfl h
  · intro h; cases h
  · intro h; cases h
  · intro h; cases h
  · intro t ht
    simp only [List.mem_append, List.mem_singleton] at ht
    rcases ht with ht | rfl
    · exact htoks t ht
    · exact hnew

/-- The invariant after a character is stored in the lexeme, in a state other than
`OPERATOR`. -/
theorem cells_absorb (clean : Prop) (s : Scan) (ch : Char) (f2 : FILE) (st : State)
    (hS : Cells clean s) (hidx : 1 ≤ s.index)
    (hst : st ≠ State.NORMAL) (hso : st ≠ State.OPERATOR)
    (hz : buf_get s.lexeme 0 ≠ NUL)
    (hw : st = State.KEYWORD →
      (∀ i, i < s.index → isalpha (buf_get s.lexeme i) = true) ∧ isalpha ch = true)
    (hi : st = State.IDENTIFIER →
      (∀ i, i < s.index → is_allowed_ident_char (buf_get s.lexeme i) = true)
        ∧ is_allowed_ident_char ch = true
        ∧ ((∃ i, i < s.index ∧ isalpha (buf_get s.lexeme i) = false) ∨ isalpha ch = false)) :
    Cells clean { s with fin := f2, state := st, lexeme := buf_set s.lexeme s.index ch,
                         index := s.index + 1 } := by
  have hlt : ∀ i, i < s.index → buf_get (buf_set s.lexeme s.index ch) i = buf_get s.lexeme i := by
    intro i hi
    rw [buf_get_set]
    have : i ≠ s.index := by omega
    simp [this]
  have heq : buf_get (buf_set s.lexeme s.index ch) s.index = ch := by
    rw [buf_get_set]; simp
  refine ⟨hS.success, ?_, ?_, ?_, ?_, ?_, hS.toks⟩
  · intro h; exact absurd h hst
  · intro _
    refine ⟨by simp only; omega, Or.inl ?_⟩
    simp only
    rw [hlt 0 (by omega)]
    exact hz
  · intro h i hi'
    simp only at h hi' ⊢
    obtain ⟨a, b⟩ := hw h
    by_cases hlt' : i < s.index
    · rw [hlt i hlt']; exact a i hlt'
    · have : i = s.index := by omega
      rw [this, heq]; exact b
  · intro h
    simp only at h ⊢
    obtain ⟨a, b, c⟩ := hi h
    constructor
    · intro i hi'
      by_cases hlt' : i < s.index
      · rw [hlt i hlt']; exact a i hlt'
      · have : i = s.index := by omega
        rw [this, heq]; exact b
    · rcases c with ⟨i, hi', hc⟩ | hc
      · exact ⟨i, by omega, by rw [hlt i hi']; exact hc⟩
      · exact ⟨s.index, by omega, by rw [heq]; exact hc⟩
  · intro h; exact absurd h hso
/-- A pass from Idle keeps the invariant. -/
theorem cells_step_normal (clean : Prop) (s s1 : Scan) (ch : Char) (f1 : FILE)
    (hS : Cells clean s)
    (hsw : parse_switch ch { s with fin := f1 } = some s1) (hs : s.state = State.NORMAL) :
    Cells clean (parse_emit s1) := by
  obtain ⟨hidx, hlex⟩ := hS.idle hs
  obtain ⟨lexeme1, hl1, hnul⟩ : ∃ lexeme1,
      lexeme1 = (if buf_get s.lexeme 0 ≠ NUL then init_buffer s.lexeme MAX_BUFFER else s.lexeme)
        ∧ (clean → zeroed lexeme1) := by
    refine ⟨_, rfl, fun hc => ?_⟩
    by_cases hz : buf_get s.lexeme 0 ≠ NUL
    · simp only [hz, ne_eq, not_false_eq_true, if_true]
      intro i hi
      exact buf_get_init_buffer _ _ _ hi
    · simp only [hz, if_false]
      rcases hlex hc with h | h
      · exact absurd h hz
      · exact h
  simp only [parse_switch, hs] at hsw
  rw [← hl1] at hsw
  cases hss : set_state f1 ch with
  | mk st f2 =>
    obtain ⟨hk, ho, hi, hz⟩ := set_state_class f1 ch st f2 hss
    rw [hss] at hsw
    simp only at hsw
    have hg0 : buf_get (buf_set lexeme1 0 ch) 0 = ch := by rw [buf_get_set]; simp
    split at hsw
    · rename_i hne
      cases hsw
      rw [parse_emit_skip _ (by exact hS.success)]
      refine ⟨hS.success, ?_, ?_, ?_, ?_, ?_, hS.toks⟩
      · intro h; exact absurd h hne
      · intro _
        refine ⟨by simp [hidx], ?_⟩
        simp only [hidx, hg0]
        by_cases hu : st = State.UNKNOWN
        · exact Or.inr (Or.inr hu)
        · rcases hz hne hu with h | h
          · exact Or.inl h
          · exact Or.inr (Or.inl h)
      · intro h i hi'
        simp only [hidx] at h hi' ⊢
        have : i = 0 := by omega
        rw [this, hg0]
        exact hk h
      · intro h
        exact absurd h hi
      · intro h
        simp only [hidx] at h ⊢
        refine ⟨trivial, ?_, fun hc => ?_⟩
        · rw [hg0]; exact ho h
        · have h1 : (1 : Nat) < MAX_BUFFER := by decide
          have h2 : (2 : Nat) < MAX_BUFFER := by decide
          rw [buf_get_set, buf_get_set]
          simp only [Nat.succ_ne_zero, if_false, OfNat.ofNat_ne_zero]
          exact ⟨hnul hc 1 h1, hnul hc 2 h2⟩
    · rename_i hne
      have hst : st = State.NORMAL := by
        by_contra hx; exact hne hx
      cases hsw
      rw [parse_emit_skip _ (by exact hS.success)]
      refine ⟨hS.success, ?_, ?_, ?_, ?_, ?_, hS.toks⟩
      · intro _
        exact ⟨hidx, fun hc => Or.inr (hnul hc)⟩
      · intro h; exact absurd hst h
      · intro h; rw [hst] at h; cases h
      · intro h; rw [hst] at h; cases h
      · intro h; rw [hst] at h; cases h

/-- A token of a category other than keyword, identifier and operator. -/
theorem word_ok_other (clean : Prop) (lex : List Char) (st : State)
    (h1 : st ≠ State.KEYWORD) (h2 : st ≠ State.IDENTIFIER) (h3 : st ≠ State.OPERATOR) :
    word_ok ⟨lex, st⟩ ∧ (clean → st = State.OPERATOR → lex.length = 1 ∨ lex.length = 2) :=
  ⟨⟨fun h => absurd h h1, fun h => absurd h h2⟩, fun _ h => absurd h h3⟩

/-- A pass in a state other than Idle keeps the invariant. -/
theorem cells_step_busy (clean : Prop) (s s1 : Scan) (ch : Char) (f1 : FILE)
    (hS : Cells clean s) (hfin : s.fin = ch :: f1)
    (hsw : parse_switch ch { s with fin := f1 } = some s1) (hn : s.state ≠ State.NORMAL) :
    Cells clean (parse_emit s1) := by
  have hS0 := hS.success
  obtain ⟨hidx, hz0⟩ := hS.busy hn
  have hu : s.state ≠ State.UNKNOWN := by
    intro hu
    simp [parse_switch, hu] at hsw
  have hz : buf_get s.lexeme 0 ≠ NUL := by
    rcases hz0 with h | h | h
    · exact h
    · rw [hfin] at h; cases h
    · exact absurd h hu
  have hkeep : ∀ c, buf_get (buf_set s.lexeme s.index c) 0 = buf_get s.lexeme 0 := by
    intro c
    rw [buf_get_set]
    have : (0 : Nat) ≠ s.index := by omega
    simp [this]
  cases hs : s.state with
  | NORMAL => exact absurd hs hn
  | UNKNOWN => exact absurd hs hu
  | COMMENT =>
    simp only [parse_switch, hs] at hsw
    cases hce : is_comment_end ch f1 with
    | mk r f2 =>
      rw [hce] at hsw
      simp only at hsw
      split at hsw
      · cases hg : getc f2 with
        | mk g f3 =>
          rw [hg] at hsw
          simp only at hsw
          cases hsw
          refine cells_emit clean _ rfl (Or.inl rfl) ?_ hS.toks
            (word_ok_other clean _ _ (by simp) (by simp) (by simp))
          simp only
          rw [buf_get_set]
          have : (0 : Nat) ≠ s.index + 1 := by omega
          simp only [this, if_false]
          rw [hkeep]; exact hz
      · cases hsw
        rw [parse_emit_skip _ (by exact hS0)]
        exact cells_absorb clean s ch f2 State.COMMENT hS hidx (by simp) (by simp) hz
          (by simp) (by simp)
  | STRING =>
    simp only [parse_switch, hs] at hsw
    split at hsw
    · cases hsw
      refine cells_emit clean _ rfl (by simp [emittable]) ?_ hS.toks
        (word_ok_other clean _ _ (by simp) (by simp) (by simp))
      simp only
      rw [hkeep]; exact hz
    · cases hsw
      rw [parse_emit_skip _ (by exact hS0)]
      exact cells_absorb clean s ch f1 State.STRING hS hidx (by simp) (by simp) hz
        (by simp) (by simp)
  | CHAR_LITERAL =>
    simp only [parse_switch, hs] at hsw
    split at hsw
    · cases hsw
      refine cells_emit clean _ rfl (by simp [emittable]) ?_ hS.toks
        (word_ok_other clean _ _ (by simp) (by simp) (by simp))
      simp only
      rw [hkeep]; exact hz
    · cases hsw
      rw [parse_emit_skip _ (by exact hS0)]
      exact cells_absorb clean s ch f1 State.CHAR_LITERAL hS hidx (by simp) (by simp) hz
        (by simp) (by simp)
  | NUM_LITERAL =>
    simp only [parse_switch, hs] at hsw
    cases hce : is_num_literal_end ch f1 with
    | mk r f2 =>
      rw [hce] at hsw
      simp only at hsw
      split at hsw
      · cases hsw
        exact cells_emit clean _ rfl (by simp [emittable]) hz hS.toks
          (word_ok_other clean _ _ (by simp) (by simp) (by simp))
      · cases hsw
        rw [parse_emit_skip _ (by exact hS0)]
        exact cells_absorb clean s ch f2 State.NUM_LITERAL hS hidx (by simp) (by simp) hz
          (by simp) (by simp)
  | KEYWORD =>
    have hcl := hS.word hs
    simp only [parse_switch, hs] at hsw
    split at hsw
    · rename_i hd
      obtain ⟨hd1, hd2⟩ := digit_not_alpha ch hd
      cases hsw
      rw [parse_emit_skip _ (by exact hS0)]
      refine cells_absorb clean s ch f1 State.IDENTIFIER hS hidx (by simp) (by simp) hz
        (by simp) (fun _ => ⟨fun i hi => alpha_allowed _ (hcl i hi), hd2, Or.inr hd1⟩)
    · split at hsw
      · cases hsw
        by_cases hk : is_keyword s.lexeme = false
        · simp only [hk, if_true]
          refine cells_emit clean _ rfl (by simp [emittable]) hz hS.toks
            ⟨⟨by simp, fun _ => ?_⟩, fun _ h => by simp at h⟩
          simp only
          intro hmem
          have := (is_keyword_iff s.lexeme).mpr hmem
          rw [hk] at this
          cases this
        · have hk1 : is_keyword s.lexeme = true := by simpa using hk
          simp only [hk1, Bool.true_eq_false, if_false]
          refine cells_emit clean _ rfl (by simp [emittable]) hz hS.toks
            ⟨⟨fun _ => ?_, by simp⟩, fun _ h => by simp at h⟩
          exact (is_keyword_iff s.lexeme).mp hk1
      · rename_i hd ha
        have ha1 : isalpha ch = true := by simpa using ha
        cases hsw
        rw [parse_emit_skip _ (by exact hS0)]
        exact cells_absorb clean s ch f1 State.KEYWORD hS hidx (by simp) (by simp) hz
          (fun _ => ⟨hcl, ha1⟩) (by simp)
  | IDENTIFIER =>
    have hcl := hS.ident hs
    simp only [parse_switch, hs] at hsw
    split at hsw
    · cases hsw
      refine cells_emit clean _ rfl (by simp [emittable]) hz hS.toks
        ⟨⟨by simp, fun _ => ?_⟩, fun _ h => by simp at h⟩
      exact not_keyword_of_cells s.lexeme s.index hcl.1 hcl.2
    · rename_i ha
      have ha1 : is_allowed_ident_char ch = true := by simpa using ha
      cases hsw
      rw [parse_emit_skip _ (by exact hS0)]
      exact cells_absorb clean s ch f1 State.IDENTIFIER hS hidx (by simp) (by simp) hz
        (by simp) (fun _ => ⟨hcl.1, ha1, Or.inl hcl.2⟩)
  | OPERATOR =>
    obtain ⟨hi1, hop, hzz⟩ := hS.oper hs
    have hone : word_ok ⟨cstr s.lexeme, State.OPERATOR⟩
        ∧ (clean → State.OPERATOR = State.OPERATOR →
            (cstr s.lexeme).length = 1 ∨ (cstr s.lexeme).length = 2) := by
      refine ⟨⟨by simp, by simp⟩, fun hc _ => Or.inl ?_⟩
      rw [cstr_one_cell s.lexeme _ rfl hz (hzz hc).1]
      rfl
    simp only [parse_switch, hs] at hsw
    split at hsw
    · cases hsw
      exact cells_emit clean _ rfl (by simp [emittable]) hz hS.toks hone
    · split at hsw
      · split at hsw
        · cases hsw
          refine cells_emit clean _ rfl (by simp [emittable]) ?_ hS.toks
            ⟨⟨by simp, by simp⟩, fun hc _ => ?_⟩
          · simp only
            rw [hkeep]; exact hz
          · simp only
            have e0 : buf_get (buf_set s.lexeme s.index ch) 0 = buf_get s.lexeme 0 := hkeep ch
            have e1 : buf_get (buf_set s.lexeme s.index ch) 1 = ch := by
              rw [hi1, buf_get_set]; simp
            have e2 : buf_get (buf_set s.lexeme s.index ch) 2 = NUL := by
              rw [hi1, buf_get_set]
              simp only [OfNat.ofNat_ne_one, if_false]
              exact (hzz hc).2
            by_cases hcn : ch = NUL
            · left
              rw [cstr_one_cell _ _ e0 hz (by rw [e1]; exact hcn)]
              rfl
            · right
              rw [cstr_two_cells _ _ _ e0 hz e1 hcn e2]
              rfl
        · cases hsw
          exact cells_emit clean _ rfl (by simp [emittable]) hz hS.toks hone
      · rename_i h1 h2
        rcases hop with h | h
        · exact absurd h h1
        · exact absurd h h2

/-- Every pass through the loop body keeps the invariant. -/
theorem cells_step (clean : Prop) (s s2 : Scan) (hS : Cells clean s)
    (h : parse_step s = Step.next s2) : Cells clean s2 := by
  obtain ⟨ch, f1, s1, hfin, -, hsw, rfl⟩ := parse_step_next s s2 h
  by_cases hn : s.state = State.NORMAL
  · exact cells_step_normal clean s s1 ch f1 hS hsw hn
  · exact cells_step_busy clean s s1 ch f1 hS hfin hsw hn

/-- The invariant holds before the first pass, whatever the array holds. -/
theorem cells_init (stack : Buffer) (fin : FILE) : Cells False (parse_start stack fin) := by
  refine ⟨rfl, ?_, ?_, ?_, ?_, ?_, ?_⟩
  · intro _
    exact ⟨rfl, fun h => absurd h id⟩
  · intro h; exact absurd rfl h
  · intro h; cases h
  · intro h; cases h
  · intro h; cases h
  · intro t ht
    simp [parse_start] at ht

/-- Once the loop is left it stays left. -/
theorem parse_run_leave_add (k m : Nat) (s : Scan) (o : Outcome)
    (h : parse_run k s = Step.leave o) : parse_run (k + m) s = Step.leave o := by
  induction m with
  | zero => exact h
  | succ m ih =>
    have : k + (m + 1) = (k + m) + 1 := by omega
    rw [this, parse_run_succ, ih]

/-- The outcome of the loop is the outcome of the pass that leaves it. -/
theorem parse_loop_of_run (n k : Nat) (s : Scan) (o : Outcome) (hs : s.success = false)
    (hn : scan_measure s < n) (h : parse_run k s = Step.leave o) : parse_loop n s = o := by
  obtain ⟨k1, o1, -, ⟨s1, hs1⟩, hl, hp, -⟩ := parse_loop_terminates n s hs hn
  rw [hp]
  by_cases hk : k ≤ k1
  · have := parse_run_leave_add k (k1 - k) s o h
    rw [show k + (k1 - k) = k1 by omega, hs1] at this
    cases this
  · have := parse_run_leave_add (k1 + 1) (k - (k1 + 1)) s o1 hl
    rw [show k1 + 1 + (k - (k1 + 1)) = k by omega, h] at this
    cases this
    rfl

/-- The measure decreases along a run. -/
theorem parse_run_measure (k : Nat) (s0 s : Scan) (hs : s0.success = false)
    (h : parse_run k s0 = Step.next s) :
    s.success = false ∧ scan_measure s + k ≤ scan_measure s0 := by
  induction k generalizing s0 with
  | zero =>
    simp only [parse_run, Step.next.injEq] at h
    subst h
    exact ⟨hs, Nat.le_refl _⟩
  | succ k ih =>
    simp only [parse_run] at h
    cases hst : parse_step s0 with
    | leave o => rw [hst] at h; cases h
    | next s1 =>
      rw [hst] at h
      have h1 := parse_step_measure s0 s1 hst hs
      obtain ⟨h2, h3⟩ := ih s1 (parse_step_success s0 s1 hst hs) h
      exact ⟨h2, by omega⟩

/-- A run inside the arrays, in two parts. -/
theorem parse_run_within_add (k m : Nat) (s0 : Scan) :
    parse_run_within (k + m) s0
      = (parse_run_within k s0 &&
          match parse_run k s0 with
          | Step.leave _ => true
          | Step.next s => parse_run_within m s) := by
  induction k generalizing s0 with
  | zero => simp [parse_run_within, parse_run]
  | succ k ih =>
    have : k + 1 + m = (k + m) + 1 := by omega
    rw [this]
    simp only [parse_run_within, parse_run]
    cases hst : parse_step s0 with
    | leave o => simp
    | next s1 =>
      simp only
      rw [ih s1, Bool.and_assoc]

/-- The first passes of a run inside the arrays are inside the arrays. -/
theorem parse_run_within_le (k n : Nat) (s0 : Scan) (hk : k ≤ n)
    (h : parse_run_within n s0 = true) : parse_run_within k s0 = true := by
  have := parse_run_within_add k (n - k) s0
  rw [show k + (n - k) = n by omega, h] at this
  simp only [Bool.true_eq, Bool.and_eq_true] at this
  exact this.1

/-- After the loop is left, a longer run is inside the arrays as the leaving run is. -/
theorem parse_run_within_leave (k m : Nat) (s0 : Scan) (o : Outcome)
    (h : parse_run k s0 = Step.leave o) :
    parse_run_within (k + m) s0 = parse_run_within k s0 := by
  rw [parse_run_within_add, h]
  simp

/-- The scan from a start state: its runs decrease the measure from twice the length of the
input. -/
theorem parse_start_measure (stack : Buffer) (fin : FILE) :
    (parse_start stack fin).success = false
      ∧ scan_measure (parse_start stack fin) = 2 * fin.length := by
  simp [parse_start, scan_measure]

/-! ## Lemmas on the scan of a string literal -/

/-- Reading a cell of the first cells of an array. -/
theorem buf_get_take (b : Buffer) (m i : Nat) (h : i < m) :
    buf_get (b.take m) i = buf_get b i := by
  unfold buf_get
  rw [List.getD_eq_getElem?_getD, List.getD_eq_getElem?_getD, List.getElem?_take_of_lt h]

/-- In the state `STRING` the body is stored cell after cell and the closing quote completes
the lexeme; the run stays inside the array when the last store and the emission do. -/
theorem string_run (body : List Char) (rest : FILE) (fo : List Char) (tk : List Token)
    (lex : Buffer) (idx : Nat) (hq : DQUOTE ∉ body) (he : CHAR_EOF ∉ body) :
    parse_run (body.length + 1) ⟨body ++ DQUOTE :: rest, fo, tk, lex, idx, false, State.STRING⟩
        = Step.next (parse_emit ⟨rest, fo, tk, buf_set_from lex idx (body ++ [DQUOTE]),
            idx + body.length, true, State.STRING⟩)
      ∧ parse_run_within (body.length + 1)
            ⟨body ++ DQUOTE :: rest, fo, tk, lex, idx, false, State.STRING⟩
          = (decide (idx + body.length < MAX_BUFFER)
              && parse_emit_within ⟨rest, fo, tk, buf_set_from lex idx (body ++ [DQUOTE]),
                  idx + body.length, true, State.STRING⟩) := by
  induction body generalizing lex idx with
  | nil =>
    have hd : DQUOTE ≠ CHAR_EOF := by decide
    have e : parse_step ⟨DQUOTE :: rest, fo, tk, lex, idx, false, State.STRING⟩
        = Step.next (parse_emit ⟨rest, fo, tk, buf_set lex idx DQUOTE, idx, true,
            State.STRING⟩) := by
      simp [parse_step, getc, hd, parse_switch, is_string_end]
    constructor
    · simp only [List.length_nil, List.nil_append, Nat.zero_add, parse_run, e, buf_set_from,
        Nat.add_zero]
    · simp only [List.length_nil, List.nil_append, Nat.zero_add, parse_run_within, e,
        buf_set_from, Nat.add_zero, Bool.and_true]
      simp [parse_step_within, getc, hd, parse_switch_within, parse_switch, is_string_end]
  | cons c body ih =>
    have hc1 : c ≠ DQUOTE := fun e => hq (by simp [e])
    have hc2 : c ≠ CHAR_EOF := fun e => he (by simp [e])
    have hq1 : DQUOTE ∉ body := fun h => hq (List.mem_cons_of_mem _ h)
    have he1 : CHAR_EOF ∉ body := fun h => he (List.mem_cons_of_mem _ h)
    have e : parse_step ⟨c :: (body ++ DQUOTE :: rest), fo, tk, lex, idx, false, State.STRING⟩
        = Step.next ⟨body ++ DQUOTE :: rest, fo, tk, buf_set lex idx c, idx + 1, false,
            State.STRING⟩ := by
      simp [parse_step, getc, hc2, parse_switch, is_string_end, hc1, parse_emit_skip]
    have w : parse_step_within
          ⟨c :: (body ++ DQUOTE :: rest), fo, tk, lex, idx, false, State.STRING⟩
        = decide (idx < MAX_BUFFER) := by
      simp [parse_step_within, getc, hc2, parse_switch_within, parse_switch, is_string_end,
        hc1, parse_emit_within]
    obtain ⟨i1, i2⟩ := ih (buf_set lex idx c) (idx + 1) hq1 he1
    have ha : idx + 1 + body.length = idx + (body.length + 1) := by omega
    rw [ha] at i1 i2
    have r1 : ∀ (k : Nat) (a : Scan), parse_run (k + 1) a
        = match parse_step a with
          | Step.leave o => Step.leave o
          | Step.next a1 => parse_run k a1 := fun _ _ => rfl
    have r2 : ∀ (k : Nat) (a : Scan), parse_run_within (k + 1) a
        = (parse_step_within a &&
            match parse_step a with
            | Step.leave _ => true
            | Step.next a1 => parse_run_within k a1) := fun _ _ => rfl
    constructor
    · rw [List.length_cons, List.cons_append, r1, e]
      exact i1
    · rw [List.length_cons, List.cons_append, r2, e, w]
      simp only
      rw [i2, ← Bool.and_assoc]
      congr 1
      by_cases h : idx + (body.length + 1) < MAX_BUFFER
      · have : idx < MAX_BUFFER := by omega
        simp [h, this]
      · simp [h]

/-! ## Lemmas on single passes -/

/-- A character of no category before a lookahead is classified as unknown. -/
theorem no_category_table (c d : Char) (hc : no_category c) :
    new_token_table c d = State.UNKNOWN := by
  obtain ⟨h1, h2, h3, h4, h5, h6, h7⟩ := hc
  have h8 : ¬ (c = '/' ∧ d = '*') := fun h => h4 (by rw [h.1]; decide)
  simp [new_token_table, h1, h2, h3, h4, h5, h6, h7, h8]

/-- The first pass of a scan of an input that begins with a double quote and one more
character other than the byte 255: the string literal is entered, on the array cleared when
its first cell was not NUL. -/
theorem string_entered (stack : Buffer) (p : Char) (f : FILE) (hp : p ≠ CHAR_EOF) :
    parse_step (parse_start stack (DQUOTE :: p :: f))
        = Step.next ⟨p :: f, [], [],
            buf_set (if buf_get (stack.take MAX_BUFFER) 0 ≠ NUL
              then init_buffer (stack.take MAX_BUFFER) MAX_BUFFER else stack.take MAX_BUFFER)
              0 DQUOTE, 1, false, State.STRING⟩
      ∧ parse_step_within (parse_start stack (DQUOTE :: p :: f)) = true := by
  have hd : DQUOTE ≠ CHAR_EOF := by decide
  have htab : new_token_table DQUOTE p = State.STRING := by
    have h1 : isspace DQUOTE = false := by decide
    have h2 : ¬ (DQUOTE = '/' ∧ p = '*') := fun h => absurd h.1 (by decide)
    simp [new_token_table, h1, h2]
  have hset := set_state_table DQUOTE p f hp
  rw [htab] at hset
  have h0 : (0 : Nat) < MAX_BUFFER := by decide
  constructor
  · simp only [parse_step, parse_start, getc, hd, if_false, parse_switch, hset]
    simp [parse_emit_skip]
  · simp only [parse_step_within, parse_start, getc, hd, if_false, parse_switch_within,
      parse_switch, hset, set_state_within_true]
    simp [parse_emit_within, h0]

/-- The array after a string literal is stored from its first cell holds the literal as its
C string, when the cell after the literal held NUL. -/
theorem cstr_stored (lex : Buffer) (text : List Char) (hn : NUL ∉ text)
    (hend : buf_get lex text.length = NUL) : cstr (buf_set_from lex 0 text) = text := by
  apply cstr_eq_of_get text _ hn
  · intro j hj
    rw [buf_get_set_from]
    simp [hj]
  · rw [buf_get_set_from]
    simp [hend]

/-! ## The claims -/

/-- C1, the code at the failing input: a slash read in Idle before a last byte 255.  The
table has the operator and the claim leaves the stream as it is.  `fpeek` reads the byte and
stores it in a `char`; pushing it back is `ungetc(EOF)`, which fails, so `is_comment` answers
zero on a stream that has lost the byte; the peek of `is_string` then finds nothing and
`is_string` returns `EOF`, which `set_state` takes as true: the state is `STRING` and the
stream is empty.  Before the letter x the table is followed and the stream kept. -/
theorem slash_before_byte_255 :
    new_token_table '/' CHAR_EOF = State.OPERATOR
      ∧ fpeek [CHAR_EOF] [] 1 = (1, [CHAR_EOF, NUL], [])
      ∧ is_comment '/' [CHAR_EOF] = (0, [])
      ∧ is_string '/' [] = (EOF, [])
      ∧ set_state [CHAR_EOF] '/' = (State.STRING, [])
      ∧ set_state ['x'] '/' = (new_token_table '/' 'x', ['x']) := by
  decide

/-- C2: for `n ≥ 1`, `fpeek` on a stream with at least `n` characters returns `n` with the
cells `0 .. n-1` of the array holding the next `n` characters in order, and it returns `EOF`
exactly when fewer than `n` characters remain. -/
theorem fpeek_result (s : FILE) (str : Buffer) (n : Nat) (hn : 1 ≤ n) :
    (n ≤ s.length →
        (fpeek s str n).1 = (n : Int)
          ∧ (List.range n).map (buf_get (fpeek s str n).2.1) = s.take n)
      ∧ ((fpeek s str n).1 = EOF ↔ s.length < n) := by
  have _ := hn
  by_cases h : n ≤ s.length
  · have hf : fpeek s str n
        = ((n : Int), buf_set (buf_set_from str 0 (s.take n)) n NUL,
            fpeek_unread n (buf_set (buf_set_from str 0 (s.take n)) n NUL) (s.drop n)) := by
      simp [fpeek, fpeek_read_ok n 0 s str h]
    rw [hf]
    refine ⟨fun _ => ⟨rfl, map_buf_get_fill _ _ _ (by simp [h])⟩, ?_⟩
    constructor
    · intro he
      simp only [EOF] at he
      omega
    · intro hlt
      omega
  · have hlt : s.length < n := Nat.lt_of_not_le h
    have hf : (fpeek s str n).1 = EOF := by
      simp [fpeek, fpeek_read_eof n 0 s str hlt]
    exact ⟨fun hle => absurd hle h, ⟨fun _ => hlt, fun _ => hf⟩⟩

/-- Witness of C2: two characters peeked from the stream abc. -/
theorem fpeek_result_witness :
    1 ≤ 2
      ∧ ((2 ≤ "abc".toList.length →
          (fpeek "abc".toList [] 2).1 = ((2 : Nat) : Int)
            ∧ (List.range 2).map (buf_get (fpeek "abc".toList [] 2).2.1) = "abc".toList.take 2)
        ∧ ((fpeek "abc".toList [] 2).1 = EOF ↔ "abc".toList.length < 2)) :=
  ⟨by decide, fpeek_result "abc".toList [] 2 (by decide)⟩

/-- C3, the code at the failing input: `fpeek` of two characters on the one-character
stream a returns `EOF` by the early return and leaves the stream empty, so the next read
gives end of input where it gave the letter a before the call. -/
theorem fpeek_short_stream_consumed :
    fpeek ['a'] [] 2 = (EOF, ['a', NUL], [])
      ∧ getc (fpeek ['a'] [] 2).2.2 = (none, [])
      ∧ getc ['a'] = (some 'a', []) := by
  decide

/-- C4, the code at the failing input: the reserved word if followed by the byte 255, which
is neither alphanumeric nor an underscore, and by more text.  The loop head narrows what
`getc` returns to `char`, where the byte 255 and `EOF` are the same value, and leaves: the
scan ends normally with nothing written, the word still in progress.  With a space in place
of the byte the word is written as a keyword. -/
theorem keyword_lost_before_byte_255 :
    "if".toList ∈ keywords
      ∧ isalnum CHAR_EOF = false ∧ CHAR_EOF ≠ '_'
      ∧ to_char (some CHAR_EOF) = to_char none
      ∧ parse ("if".toList ++ CHAR_EOF :: " x ".toList) = ⟨Ending.completed, [], []⟩
      ∧ (parse ("if".toList ++ CHAR_EOF :: " x ".toList)).tokens.head?
          ≠ some ⟨"if".toList, State.KEYWORD⟩
      ∧ (parse ("if".toList ++ ' ' :: " x ".toList)).tokens
          = [⟨"if".toList, State.KEYWORD⟩, ⟨"x".toList, State.IDENTIFIER⟩] := by
  decide

/-- C5 (as amended): the input `<=` yields exactly the operator `<=`; the input `<x`
followed by a line feed yields exactly the operator `<` and the identifier `x`; the input
`<x` with nothing after it yields the operator `<` only. -/
theorem operator_disambiguation :
    parse "<=".toList
        = ⟨Ending.completed, "<= (operator)".toList ++ [NEWLINE],
            [⟨"<=".toList, State.OPERATOR⟩]⟩
      ∧ (parse ("<x".toList ++ [NEWLINE])).ending = Ending.completed
      ∧ (parse ("<x".toList ++ [NEWLINE])).tokens
          = [⟨"<".toList, State.OPERATOR⟩, ⟨"x".toList, State.IDENTIFIER⟩]
      ∧ (parse "<x".toList).tokens = [⟨"<".toList, State.OPERATOR⟩] := by
  decide

/-- C5 as stated fails: the input `<x` alone yields one token, the operator `<`; the
trailing `x` is still in progress at end of input and is not written. -/
theorem operator_disambiguation_counterexample :
    parse "<x".toList
        = ⟨Ending.completed, "< (operator)".toList ++ [NEWLINE],
            [⟨"<".toList, State.OPERATOR⟩]⟩
      ∧ (parse "<x".toList).tokens
          ≠ [⟨"<".toList, State.OPERATOR⟩, ⟨"x".toList, State.IDENTIFIER⟩] := by
  decide

/-- C6 (as amended): the input `1..5` followed by a line feed yields exactly the numeric
literal `1`, the operator `..` and the numeric literal `5`, in this order; the input `1..5`
with nothing after it yields the first two of them only. -/
theorem numeric_range_tokens :
    (parse ("1..5".toList ++ [NEWLINE])).ending = Ending.completed
      ∧ (parse ("1..5".toList ++ [NEWLINE])).tokens
          = [⟨"1".toList, State.NUM_LITERAL⟩, ⟨"..".toList, State.OPERATOR⟩,
              ⟨"5".toList, State.NUM_LITERAL⟩]
      ∧ (parse "1..5".toList).tokens
          = [⟨"1".toList, State.NUM_LITERAL⟩, ⟨"..".toList, State.OPERATOR⟩] := by
  decide

/-- C6 as stated fails: the input `1..5` alone yields two tokens, the numeric literal `1`
and the operator `..`; the trailing `5` is still in progress at end of input. -/
theorem numeric_range_tokens_counterexample :
    (parse "1..5".toList).ending = Ending.completed
      ∧ (parse "1..5".toList).tokens
          = [⟨"1".toList, State.NUM_LITERAL⟩, ⟨"..".toList, State.OPERATOR⟩]
      ∧ (parse "1..5".toList).tokens
          ≠ [⟨"1".toList, State.NUM_LITERAL⟩, ⟨"..".toList, State.OPERATOR⟩,
              ⟨"5".toList, State.NUM_LITERAL⟩] := by
  decide

/-- C7 (as amended): in a scan inside the arrays, from a lexeme array that starts clean, when
a character of no category other than the byte 255 is read in Idle and a further character
other than the byte 255 follows it, the scan stays inside the arrays and ends in the fatal
exit, the diagnostic naming the character, with the output and the tokens as they were when
the character was read: nothing is written for it. -/
theorem unknown_char_is_fatal (stack : Buffer) (fin : FILE) (k : Nat) (s : Scan) (c d : Char)
    (rest : FILE) (hclean : starts_clean stack)
    (hin : parse_run_within k (parse_start stack fin) = true)
    (hrun : parse_run k (parse_start stack fin) = Step.next s)
    (hidle : s.state = State.NORMAL) (hfin : s.fin = c :: d :: rest)
    (hc : no_category c) (hc1 : c ≠ CHAR_EOF) (hd : d ≠ CHAR_EOF) :
    parse_within stack fin = true
      ∧ parse_from stack fin = ⟨Ending.fatal (cstr [c]), s.fout, s.tokens⟩ := by
  have hS := shape_run stack fin hclean k s hin hrun
  obtain ⟨hidx, hlex⟩ := hS.idle hidle
  obtain ⟨hs0, hm0⟩ := parse_start_measure stack fin
  obtain ⟨-, hmeas⟩ := parse_run_measure k _ s hs0 hrun
  have hms : scan_measure s = 2 * (rest.length + 2) := by
    simp [scan_measure, hfin, hidle]
  obtain ⟨lexeme1, hl1, hnul⟩ : ∃ lexeme1,
      lexeme1 = (if buf_get s.lexeme 0 ≠ NUL then init_buffer s.lexeme MAX_BUFFER else s.lexeme)
        ∧ all_nul lexeme1 := by
    refine ⟨_, rfl, ?_⟩
    rcases hlex with ha | ⟨hz, -⟩
    · have : buf_get s.lexeme 0 = NUL := all_nul_get _ ha 0
      simp only [this, ne_eq, not_true_eq_false, if_false]
      exact ha
    · simp only [hz, ne_eq, not_false_eq_true, if_true]
      exact (init_buffer_all_nul _ _ hS.room).1
  have htab := set_state_table c d rest hd
  rw [no_category_table c d hc] at htab
  have hwin : set_state_within (d :: rest) c = true := set_state_within_true _ _
  -- the pass that reads the character
  have e1 : parse_step s
      = Step.next ⟨d :: rest, s.fout, s.tokens, buf_set lexeme1 0 c, 1, false,
          State.UNKNOWN⟩ := by
    simp only [parse_step, hfin, getc, hc1, if_false, parse_switch, hidle, htab, ← hl1, hidx]
    simp [parse_emit_skip, hS.success]
  have w1 : parse_step_within s = true := by
    simp only [parse_step_within, hfin, getc, hc1, if_false, parse_switch_within, hidle, htab,
      hwin, parse_switch, ← hl1, hidx]
    have h0 : (0 : Nat) < MAX_BUFFER := by decide
    simp [parse_emit_within, h0]
  -- the pass that reads the character after it
  have hcs : cstr (buf_set lexeme1 0 c) = cstr [c] :=
    holds_cstr _ _ (holds_set lexeme1 [] c (all_nul_holds _ hnul))
  have e2 : parse_step ⟨d :: rest, s.fout, s.tokens, buf_set lexeme1 0 c, 1, false,
        State.UNKNOWN⟩
      = Step.leave ⟨Ending.fatal (cstr [c]), s.fout, s.tokens⟩ := by
    simp [parse_step, getc, hd, parse_switch, hcs]
  have w2 : parse_step_within ⟨d :: rest, s.fout, s.tokens, buf_set lexeme1 0 c, 1, false,
        State.UNKNOWN⟩ = true := by
    have hl : (cstr [c]).length ≤ 1 := cstr_length_le [c]
    have : (1 : Nat) < MAX_BUFFER := by decide
    simp only [parse_step_within, getc, hd, if_false, parse_switch_within, parse_switch,
      strlen, hcs, Bool.and_true, decide_eq_true_eq]
    omega
  have hleave : parse_run (k + 2) (parse_start stack fin)
      = Step.leave ⟨Ending.fatal (cstr [c]), s.fout, s.tokens⟩ := by
    rw [show k + 2 = (k + 1) + 1 by omega, parse_run_succ, parse_run_succ, hrun]
    simp only [e1, e2]
  constructor
  · have hk : 2 * fin.length + 1 = (k + 2) + (2 * fin.length + 1 - (k + 2)) := by omega
    unfold parse_within
    rw [hk, parse_run_within_leave _ _ _ _ hleave, parse_run_within_add, hin, hrun]
    simp [parse_run_within, w1, e1, w2, e2]
  · exact parse_loop_of_run _ (k + 2) _ _ hs0 (by omega) hleave

/-- Witness of C7: the input `x @` and a line feed, the array holding stale characters at
the start; the `@` is read in Idle after three passes. -/
theorem unknown_char_is_fatal_witness :
    starts_clean "stale".toList
      ∧ parse_run_within 3 (parse_start "stale".toList ("x @".toList ++ [NEWLINE])) = true
      ∧ parse_run 3 (parse_start "stale".toList ("x @".toList ++ [NEWLINE]))
          = Step.next ⟨'@' :: NEWLINE :: [], "x (identifier)".toList ++ [NEWLINE],
              [⟨"x".toList, State.IDENTIFIER⟩], List.replicate 16 NUL, 0, false, State.NORMAL⟩
      ∧ no_category '@' ∧ '@' ≠ CHAR_EOF ∧ NEWLINE ≠ CHAR_EOF
      ∧ parse_within "stale".toList ("x @".toList ++ [NEWLINE]) = true
      ∧ parse_from "stale".toList ("x @".toList ++ [NEWLINE])
          = ⟨Ending.fatal (cstr ['@']), "x (identifier)".toList ++ [NEWLINE],
              [⟨"x".toList, State.IDENTIFIER⟩]⟩ :=
  ⟨Or.inl (by decide), by decide, by decide, by unfold no_category; decide, by decide,
    by decide,
    unknown_char_is_fatal "stale".toList ("x @".toList ++ [NEWLINE]) 3
      ⟨'@' :: NEWLINE :: [], "x (identifier)".toList ++ [NEWLINE],
        [⟨"x".toList, State.IDENTIFIER⟩], List.replicate 16 NUL, 0, false, State.NORMAL⟩
      '@' NEWLINE [] (Or.inl (by decide)) (by decide) (by decide) rfl rfl
      (by unfold no_category; decide) (by decide) (by decide)⟩

/-- C7 as stated fails: the character `@` matches no row of the table (with a character
after it `set_state` answers `UNKNOWN`), yet the input made of `@` alone is scanned to a
normal end with nothing written; with a line feed after it the scan ends in the fatal exit
that names the lexeme. -/
theorem unknown_final_char_completes :
    set_state [NEWLINE] '@' = (State.UNKNOWN, [NEWLINE])
      ∧ set_state [] '@' = (State.COMMENT, [])
      ∧ parse ['@'] = ⟨Ending.completed, [], []⟩
      ∧ parse ['@', NEWLINE] = ⟨Ending.fatal ['@'], [], []⟩ := by
  decide

/-- C8, the code at the failing input: the unterminated comment `/*a` is written as a
comment token whose lexeme ends in the byte 255 that `getc` returned at end of input,
while the unterminated string has no output. -/
theorem unterminated_comment_emitted :
    parse "/*a".toList
        = ⟨Ending.completed, "/*a".toList ++ CHAR_EOF :: " (comment)".toList ++ [NEWLINE],
            [⟨"/*a".toList ++ [CHAR_EOF], State.COMMENT⟩]⟩
      ∧ is_comment_end 'a' [] = (EOF, [])
      ∧ parse (DQUOTE :: "hello".toList) = ⟨Ending.completed, [], []⟩ := by
  decide

/-- C9, the code at the failing input: on every input that begins with `/*`, a body and
`*/`, whatever the lexeme array holds, the scan leaves an array in its second pass.  The
star is read in the state `COMMENT`, `is_comment_end` peeks one character into its
`char peek[1]`, and `fpeek`, having read the character, stores the terminator in `peek[1]`,
one cell past the array; the same peek into the sixteen cells of `is_comment` stays inside.
So it is on `/* abc */`: the first pass is inside the arrays, the second is not.  Where the
store does no harm, the values computed give the comment token of the claim. -/
theorem comment_end_peek_overrun :
    (∀ (stack : Buffer) (body : List Char) (rest : FILE),
        parse_within stack ('/' :: '*' :: body ++ '*' :: '/' :: rest) = false)
      ∧ parse_run_within 1 (parse_start [] "/* abc */".toList) = true
      ∧ parse_run_within 2 (parse_start [] "/* abc */".toList) = false
      ∧ is_comment_end_within " abc */".toList = false
      ∧ fpeek_within 1 " abc */".toList 1 = false
      ∧ fpeek_within PEEK_BUFFER_LEN " abc */".toList 1 = true
      ∧ parse "/* abc */".toList
          = ⟨Ending.completed, "/* abc */ (comment)".toList ++ [NEWLINE],
              [⟨"/* abc */".toList, State.COMMENT⟩]⟩ := by
  refine ⟨?_, by decide, by decide, by decide, by decide, by decide, by decide⟩
  intro stack body rest
  obtain ⟨c, f, hcf⟩ : ∃ c f, body ++ '*' :: '/' :: rest = c :: f := by
    cases body with
    | nil => exact ⟨'*', '/' :: rest, rfl⟩
    | cons b bs => exact ⟨b, bs ++ '*' :: '/' :: rest, rfl⟩
  unfold parse_within
  rw [List.cons_append, List.cons_append, hcf]
  have : 2 * ('/' :: '*' :: c :: f).length + 1 = (2 * f.length + 5) + 2 := by
    simp only [List.length_cons]; omega
  rw [this]
  exact comment_overrun stack c f _

/-- C10 (as amended): for a body without double quote, without NUL and without the byte 255
that fits the lexeme array with its delimiters and the label, when the array starts with a
first cell that is not NUL (the scan then clears it) or holds NUL in the cell after the
closing quote, an input that begins with a double quote, the body and a double quote is
scanned inside the arrays up to the closing quote, and has as first token the string literal
made of both delimiters and the body: after these passes the line of the token is what is
written and the scan is in Idle before the rest of the input.  When nothing follows the
literal, as in the quoted word hello, the scan stays inside the arrays and yields exactly
this one token. -/
theorem string_extraction (stack : Buffer) (body : List Char) (rest : FILE)
    (hq : DQUOTE ∉ body) (hn : NUL ∉ body) (he : CHAR_EOF ∉ body)
    (hfit : body.length + 13 ≤ MAX_BUFFER)
    (hstart : buf_get stack 0 ≠ NUL ∨ buf_get stack (body.length + 2) = NUL) :
    parse_run_within (body.length + 2) (parse_start stack (DQUOTE :: body ++ DQUOTE :: rest))
        = true
      ∧ (∃ lex, parse_run (body.length + 2)
            (parse_start stack (DQUOTE :: body ++ DQUOTE :: rest))
          = Step.next ⟨rest, token_line ⟨DQUOTE :: body ++ [DQUOTE], State.STRING⟩,
              [⟨DQUOTE :: body ++ [DQUOTE], State.STRING⟩], lex, 0, false, State.NORMAL⟩)
      ∧ (parse_from stack (DQUOTE :: body ++ DQUOTE :: rest)).tokens.head?
          = some ⟨DQUOTE :: body ++ [DQUOTE], State.STRING⟩
      ∧ (rest = [] →
          parse_within stack (DQUOTE :: body ++ DQUOTE :: rest) = true
            ∧ parse_from stack (DQUOTE :: body ++ DQUOTE :: rest)
                = ⟨Ending.completed, token_line ⟨DQUOTE :: body ++ [DQUOTE], State.STRING⟩,
                    [⟨DQUOTE :: body ++ [DQUOTE], State.STRING⟩]⟩) := by
  have hd : DQUOTE ≠ CHAR_EOF := by decide
  have hdn : DQUOTE ≠ NUL := by decide
  obtain ⟨p, f, hpf, hp⟩ : ∃ p f, body ++ DQUOTE :: rest = p :: f ∧ p ≠ CHAR_EOF := by
    cases body with
    | nil => exact ⟨DQUOTE, rest, rfl, hd⟩
    | cons b bs => exact ⟨b, bs ++ DQUOTE :: rest, rfl, fun e => he (by simp [e])⟩
  -- the array the literal is stored in
  obtain ⟨L, hL, hLend⟩ : ∃ L : Buffer,
      L = (if buf_get (stack.take MAX_BUFFER) 0 ≠ NUL
            then init_buffer (stack.take MAX_BUFFER) MAX_BUFFER else stack.take MAX_BUFFER)
        ∧ buf_get L (body.length + 2) = NUL := by
    refine ⟨_, rfl, ?_⟩
    have h0 : buf_get (stack.take MAX_BUFFER) 0 = buf_get stack 0 :=
      buf_get_take _ _ _ (by decide)
    rw [h0]
    by_cases hz : buf_get stack 0 ≠ NUL
    · simp only [hz, ne_eq, not_false_eq_true, if_true]
      exact buf_get_init_buffer _ _ _ (by omega)
    · simp only [hz, if_false]
      rw [buf_get_take _ _ _ (by omega)]
      rcases hstart with h | h
      · exact absurd h hz
      · exact h
  have hT : NUL ∉ DQUOTE :: (body ++ [DQUOTE]) := by
    simp only [List.mem_cons, List.mem_append, List.mem_singleton, List.not_mem_nil, or_false,
      not_or]
    exact ⟨fun e => hdn e.symm, hn, fun e => hdn e.symm⟩
  have hF : cstr (buf_set_from (buf_set L 0 DQUOTE) 1 (body ++ [DQUOTE]))
      = DQUOTE :: (body ++ [DQUOTE]) := by
    have := cstr_stored L (DQUOTE :: (body ++ [DQUOTE])) hT (by
      simp only [List.length_cons, List.length_append, List.length_singleton]
      exact hLend)
    simpa [buf_set_from] using this
  -- the passes
  obtain ⟨e1, w1⟩ := string_entered stack p f hp
  rw [← hL, ← hpf] at e1
  rw [← hpf] at w1
  obtain ⟨e2, w2⟩ := string_run body rest [] [] (buf_set L 0 DQUOTE) 1 hq he
  have hemit : parse_emit ⟨rest, [], [], buf_set_from (buf_set L 0 DQUOTE) 1 (body ++ [DQUOTE]),
        1 + body.length, true, State.STRING⟩
      = ⟨rest, token_line ⟨DQUOTE :: body ++ [DQUOTE], State.STRING⟩,
          [⟨DQUOTE :: body ++ [DQUOTE], State.STRING⟩],
          strcat (strcat (buf_set_from (buf_set L 0 DQUOTE) 1 (body ++ [DQUOTE]))
            (category_label State.STRING)) [NEWLINE], 0, false, State.NORMAL⟩ := by
    rw [parse_emit_done _ rfl (by simp [emittable])]
    simp [hF]
  have hwemit : parse_emit_within
      ⟨rest, [], [], buf_set_from (buf_set L 0 DQUOTE) 1 (body ++ [DQUOTE]),
        1 + body.length, true, State.STRING⟩ = true := by
    have hl : NUL ∉ " (string)".toList := by decide
    have hnl : NUL ∉ [NEWLINE] := by decide
    have ht : TOKENS.getD State.STRING.toNat [] = " (string)".toList := by decide
    simp only [parse_emit_within, ne_eq, reduceCtorEq, not_false_eq_true, and_self, if_true,
      strcat_within, ht, Bool.and_eq_true, decide_eq_true_eq, strlen]
    rw [cstr_strcat _ _ hl, hF, cstr_of_no_nul _ hl, cstr_of_no_nul _ hnl]
    have h9 : " (string)".toList.length = 9 := by decide
    simp only [List.length_cons, List.length_append, List.length_singleton, List.length_nil,
      h9]
    omega
  have hrun : parse_run (body.length + 2) (parse_start stack (DQUOTE :: body ++ DQUOTE :: rest))
      = Step.next ⟨rest, token_line ⟨DQUOTE :: body ++ [DQUOTE], State.STRING⟩,
          [⟨DQUOTE :: body ++ [DQUOTE], State.STRING⟩],
          strcat (strcat (buf_set_from (buf_set L 0 DQUOTE) 1 (body ++ [DQUOTE]))
            (category_label State.STRING)) [NEWLINE], 0, false, State.NORMAL⟩ := by
    have r1 : ∀ (k : Nat) (a : Scan), parse_run (k + 1) a
        = match parse_step a with
          | Step.leave o => Step.leave o
          | Step.next a1 => parse_run k a1 := fun _ _ => rfl
    rw [show body.length + 2 = (body.length + 1) + 1 by omega, r1, List.cons_append, e1]
    simp only
    rw [e2, hemit]
  have hwithin : parse_run_within (body.length + 2)
      (parse_start stack (DQUOTE :: body ++ DQUOTE :: rest)) = true := by
    have r2 : ∀ (k : Nat) (a : Scan), parse_run_within (k + 1) a
        = (parse_step_within a &&
            match parse_step a with
            | Step.leave _ => true
            | Step.next a1 => parse_run_within k a1) := fun _ _ => rfl
    rw [show body.length + 2 = (body.length + 1) + 1 by omega, r2, List.cons_append, w1, e1]
    simp only [Bool.true_and]
    rw [w2, hwemit]
    have : 1 + body.length < MAX_BUFFER := by omega
    simp [this]
  obtain ⟨hs0, hm0⟩ := parse_start_measure stack (DQUOTE :: body ++ DQUOTE :: rest)
  have hlen : (DQUOTE :: body ++ DQUOTE :: rest).length = body.length + rest.length + 2 := by
    simp only [List.cons_append, List.length_cons, List.length_append]
    omega
  refine ⟨hwithin, ⟨_, hrun⟩, ?_, ?_⟩
  · unfold parse_from
    rw [show 2 * (DQUOTE :: body ++ DQUOTE :: rest).length + 1
        = (body.length + 2) + (body.length + 2 * rest.length + 3) by rw [hlen]; omega,
      parse_loop_run, hrun]
    exact parse_loop_head _ _ _ [] rfl
  · intro hr
    subst hr
    have hleave : parse_run (body.length + 2 + 1)
        (parse_start stack (DQUOTE :: body ++ DQUOTE :: []))
        = Step.leave ⟨Ending.completed, token_line ⟨DQUOTE :: body ++ [DQUOTE], State.STRING⟩,
            [⟨DQUOTE :: body ++ [DQUOTE], State.STRING⟩]⟩ := by
      rw [parse_run_succ, hrun]
      simp [parse_step, getc]
    constructor
    · unfold parse_within
      rw [show 2 * (DQUOTE :: body ++ DQUOTE :: []).length + 1
          = (body.length + 2 + 1) + (body.length + 2) by rw [hlen]; simp; omega,
        parse_run_within_leave _ _ _ _ hleave, parse_run_within_add, hwithin, hrun]
      simp only [parse_run_within, parse_step_within, getc, Bool.true_and]
      split <;> rfl
    · exact parse_loop_of_run _ _ _ _ hs0 (by rw [hm0]; omega) hleave

/-- Witness of C10: the body hello with a backslash in it, before a space and the letter x,
the array holding stale characters at the start. -/
theorem string_extraction_witness :
    DQUOTE ∉ ['h', 'e', Char.ofNat 92, 'l', 'o']
      ∧ NUL ∉ ['h', 'e', Char.ofNat 92, 'l', 'o']
      ∧ CHAR_EOF ∉ ['h', 'e', Char.ofNat 92, 'l', 'o']
      ∧ ['h', 'e', Char.ofNat 92, 'l', 'o'].length + 13 ≤ MAX_BUFFER
      ∧ (buf_get "stale".toList 0 ≠ NUL
          ∨ buf_get "stale".toList (['h', 'e', Char.ofNat 92, 'l', 'o'].length + 2) = NUL)
      ∧ (parse_from "stale".toList
            (DQUOTE :: ['h', 'e', Char.ofNat 92, 'l', 'o'] ++ DQUOTE :: " x".toList)).tokens.head?
          = some ⟨DQUOTE :: ['h', 'e', Char.ofNat 92, 'l', 'o'] ++ [DQUOTE], State.STRING⟩ :=
  ⟨by decide, by decide, by decide, by decide, Or.inl (by decide),
    (string_extraction "stale".toList ['h', 'e', Char.ofNat 92, 'l', 'o'] " x".toList
      (by decide) (by decide) (by decide) (by decide) (Or.inl (by decide))).2.2.1⟩

/-- C10 as stated fails: the body a, NUL, b holds no double quote, and the string token
written for it has the lexeme made of the opening quote and a only. -/
theorem string_extraction_counterexample :
    DQUOTE ∉ ['a', NUL, 'b']
      ∧ (parse (DQUOTE :: ['a', NUL, 'b'] ++ DQUOTE :: [])).tokens
          = [⟨[DQUOTE, 'a'], State.STRING⟩]
      ∧ (parse (DQUOTE :: ['a', NUL, 'b'] ++ DQUOTE :: [])).tokens.head?
          ≠ some ⟨DQUOTE :: ['a', NUL, 'b'] ++ [DQUOTE], State.STRING⟩ := by
  decide

/-- C11: for every input, the text written is, token after token, the lexeme followed by the
fixed label of the category of the token and a line feed; every token written has one of the
seven categories that can be written (never Idle, never Unknown), its number is an index
into the seven entries of `TOKENS`, and the entry is the label of that category. -/
theorem output_line_format (fin : FILE) :
    (parse fin).fout = ((parse fin).tokens.map token_line).flatten
      ∧ ∀ t ∈ (parse fin).tokens,
          emittable t.state ∧ t.state ≠ State.NORMAL ∧ t.state ≠ State.UNKNOWN
            ∧ t.state.toNat < TOKENS.length
            ∧ TOKENS.getD t.state.toNat [] = category_label t.state := by
  have key := parse_loop_induct
    (fun s => s.success = false ∧ s.fout = (s.tokens.map token_line).flatten
      ∧ ∀ t ∈ s.tokens, emittable t.state)
    (fun o => o.fout = (o.tokens.map token_line).flatten ∧ ∀ t ∈ o.tokens, emittable t.state)
    (by
      intro s s2 ⟨hs, hf, ht⟩ h
      obtain ⟨ch, f1, s1, -, -, hsw, rfl⟩ := parse_step_next s s2 h
      obtain ⟨htk, hfo⟩ := parse_switch_tokens ch _ s1 hsw
      simp only at htk hfo
      by_cases h1 : s1.success = true
      · have he := parse_switch_success ch _ s1 hsw hs h1
        rw [parse_emit_done s1 h1 he]
        refine ⟨rfl, ?_, ?_⟩
        · simp only [List.map_append, List.flatten_append, List.map_cons, List.map_nil,
            List.flatten_cons, List.flatten_nil, List.append_nil, hfo, htk, hf]
        · intro t
          simp only [List.mem_append, List.mem_singleton, htk]
          rintro (h | rfl)
          · exact ht t h
          · exact he
      · have h1f : s1.success = false := by simpa using h1
        rw [parse_emit_skip s1 h1f]
        exact ⟨h1f, by rw [hfo, htk]; exact hf, by rw [htk]; exact ht⟩)
    (by
      intro s o ⟨_, hf, ht⟩ h
      obtain ⟨h1, h2⟩ := parse_step_leave s o h
      rw [h1, h2]; exact ⟨hf, ht⟩)
    (by intro s ⟨_, hf, ht⟩; exact ⟨hf, ht⟩)
    (2 * fin.length + 1) (parse_init fin)
    ⟨rfl, rfl, by intro t h; simp [parse_init] at h⟩
  refine ⟨key.1, ?_⟩
  intro t ht
  have he := key.2 t ht
  obtain ⟨h1, h2, h3, h4, -⟩ := tokens_label t.state he
  exact ⟨he, h4, h3, h1, h2⟩

/-- C12 (as amended): for an input without NUL and without the byte 255, scanned inside the
arrays from a lexeme array that starts clean, when the scan ends normally and writes no token
carrying the end-of-input byte, the input is exactly the lexemes written, in order, each
preceded by a gap of whitespace, then a last gap of whitespace and the characters of the
token still in progress when the loop is left at the end of input, which are not written. -/
theorem reconstruction (stack : Buffer) (fin : FILE)
    (hclean : starts_clean stack) (hin : parse_within stack fin = true)
    (hnul : NUL ∉ fin) (heof : CHAR_EOF ∉ fin)
    (hend : (parse_from stack fin).ending = Ending.completed)
    (hcarry : ¬ carries_eof (parse_from stack fin).tokens) :
    ∃ gaps ws k s, gaps.length = (parse_from stack fin).tokens.length
      ∧ (∀ g ∈ gaps, is_blank g) ∧ is_blank ws
      ∧ parse_run k (parse_start stack fin) = Step.next s
      ∧ parse_step s = Step.leave (parse_from stack fin)
      ∧ s.fin = []
      ∧ fin = interleave gaps (parse_from stack fin).tokens ++ (ws ++ pending_text s) := by
  obtain ⟨hs0, hm0⟩ := parse_start_measure stack fin
  obtain ⟨k, o, hk, ⟨s, hs⟩, hl, hp, -⟩ :=
    parse_loop_terminates (2 * fin.length + 1) (parse_start stack fin) hs0 (by omega)
  have hp' : parse_from stack fin = o := hp
  have hst : parse_step s = Step.leave o := by
    rw [parse_run_succ, hs] at hl
    exact hl
  have hink : parse_run_within k (parse_start stack fin) = true :=
    parse_run_within_le k (2 * fin.length + 1) _ (by omega) hin
  have hJ := parse_run_within_induct
    (fun s => Shape stack s ∧ (reconstructs fin s ∨ carries_eof s.tokens))
    (fun a b ha hi hab => recon_step stack fin hnul heof a b ha hi hab)
    k (parse_start stack fin) s ⟨shape_init stack fin hclean, Or.inl (recon_init stack fin)⟩
    hink hs
  obtain ⟨-, htk⟩ := parse_step_leave s o hst
  rw [hp'] at hend hcarry ⊢
  rcases hJ.2 with hR | hc
  · obtain ⟨-, hFe⟩ := recon_parts fin s CHAR_EOF hR heof
    have hnil := parse_step_completed s o hst hend hFe
    obtain ⟨gaps, ws, hlen, hg, hw, hin'⟩ := hR
    refine ⟨gaps, ws, k, s, by rw [htk]; exact hlen, hg, hw, hs, hst, hnil, ?_⟩
    rw [htk]
    rw [hnil, List.append_nil] at hin'
    exact hin'
  · rw [htk] at hcarry
    exact absurd hc hcarry

/-- Witness of C12: the input `a <= 1 x`, the array holding stale characters at the start. -/
theorem reconstruction_witness :
    starts_clean "stale".toList
      ∧ parse_within "stale".toList "a <= 1 x".toList = true
      ∧ NUL ∉ "a <= 1 x".toList ∧ CHAR_EOF ∉ "a <= 1 x".toList
      ∧ (parse_from "stale".toList "a <= 1 x".toList).ending = Ending.completed
      ∧ ¬ carries_eof (parse_from "stale".toList "a <= 1 x".toList).tokens
      ∧ ∃ gaps ws k s,
          gaps.length = (parse_from "stale".toList "a <= 1 x".toList).tokens.length
          ∧ (∀ g ∈ gaps, is_blank g) ∧ is_blank ws
          ∧ parse_run k (parse_start "stale".toList "a <= 1 x".toList) = Step.next s
          ∧ parse_step s = Step.leave (parse_from "stale".toList "a <= 1 x".toList)
          ∧ s.fin = []
          ∧ "a <= 1 x".toList
              = interleave gaps (parse_from "stale".toList "a <= 1 x".toList).tokens
                  ++ (ws ++ pending_text s) :=
  ⟨Or.inl (by decide), by decide, by decide, by decide, by decide,
    by unfold carries_eof; decide,
    reconstruction "stale".toList "a <= 1 x".toList (Or.inl (by decide)) (by decide)
      (by decide) (by decide) (by decide) (by unfold carries_eof; decide)⟩

/-- C12 as stated fails: the input `<x` holds no whitespace and is scanned to a normal end,
yet the lexemes written make up `<` only. -/
theorem reconstruction_counterexample :
    (parse "<x".toList).ending = Ending.completed
      ∧ (∀ c ∈ "<x".toList, isspace c = false)
      ∧ ((parse "<x".toList).tokens.map (fun t => t.lexeme)).flatten = "<".toList
      ∧ ((parse "<x".toList).tokens.map (fun t => t.lexeme)).flatten ≠ "<x".toList := by
  decide

/-- C13, the code at the failing input: over the scan of `1 x` the pushback buffer of the
stream reaches two characters.  After the digit the loop reads the space in the state
`NUM_LITERAL`; `is_num_literal_end` peeks, which pushes `x` back, and answers true, and the
loop then pushes the space back on top of it with no read in between.  On `if x`, where no
peek comes before the pushback of the loop, the depth stays at one. -/
theorem pushback_depth_two :
    (parse_pushback "1 x".toList).peak = 2
      ∧ parse_run 1 (parse_init "1 x".toList)
          = Step.next ⟨" x".toList, [], [], ['1'], 1, false, State.NUM_LITERAL⟩
      ∧ is_num_literal_end ' ' "x".toList = (true, "x".toList)
      ∧ fpeek_pushback "x".toList [] 1 ⟨0, 1⟩ = ⟨1, 1⟩
      ∧ parse_switch_pushback ' ' ⟨"x".toList, [], [], ['1'], 1, false, State.NUM_LITERAL⟩ ⟨0, 1⟩
          = ⟨2, 2⟩
      ∧ (parse_pushback "if x".toList).peak = 1 := by
  decide

/-- C15: the characters of a numeric literal are exactly the hexadecimal digits, `#`, `.` and
`,`; `is_num_literal_end` is true exactly when the current character and the lookahead are
both `.`, or the current character is `,` and the lookahead is no literal character (the end
of input counting as such), or the current character is no literal character; when it is
true the loop pushes the character back and completes the literal with the lexeme as it
is, otherwise it stores the character in the lexeme and goes on in the same state. -/
theorem num_literal_termination (c : Char) :
    (∀ q, is_num_lit_char q = true ↔ q ∈ literal_chars)
      ∧ (∀ p rest, (is_num_literal_end c (p :: rest)).1 = true
            ↔ num_literal_end_rule c (some p))
      ∧ ((is_num_literal_end c []).1 = true ↔ num_literal_end_rule c none)
      ∧ (∀ s : Scan, s.state = State.NUM_LITERAL → s.success = false →
          ((is_num_literal_end c s.fin).1 = true →
            ∃ s1, parse_switch c s = some s1
              ∧ s1.fin = ungetc c (is_num_literal_end c s.fin).2
              ∧ s1.lexeme = s.lexeme ∧ s1.index = s.index
              ∧ (parse_emit s1).state = State.NORMAL
              ∧ (parse_emit s1).tokens = s.tokens ++ [⟨cstr s.lexeme, State.NUM_LITERAL⟩])
          ∧ ((is_num_literal_end c s.fin).1 = false →
            ∃ s1, parse_switch c s = some s1
              ∧ s1.fin = (is_num_literal_end c s.fin).2
              ∧ s1.lexeme = buf_set s.lexeme s.index c ∧ s1.index = s.index + 1
              ∧ parse_emit s1 = s1 ∧ s1.state = State.NUM_LITERAL
              ∧ s1.tokens = s.tokens)) := by
  have hlit : ∀ q, is_num_lit_char q = false ↔ q ∉ literal_chars := by
    intro q
    rw [← is_num_lit_char_iff]
    simp
  refine ⟨is_num_lit_char_iff, ?_, ?_, ?_⟩
  · intro p rest
    rw [is_num_literal_end_cons]
    simp only [decide_eq_true_eq, num_literal_end_rule, Option.some.injEq, hlit]
    constructor
    · rintro (⟨h1, h2⟩ | ⟨h1, h2⟩ | h)
      · exact Or.inl ⟨h1, h2⟩
      · exact Or.inr (Or.inl ⟨h1, fun q hq => hq ▸ h2⟩)
      · exact Or.inr (Or.inr h)
    · rintro (⟨h1, h2⟩ | ⟨h1, h2⟩ | h)
      · exact Or.inl ⟨h1, h2⟩
      · exact Or.inr (Or.inl ⟨h1, h2 p rfl⟩)
      · exact Or.inr (Or.inr h)
  · rw [is_num_literal_end_nil]
    simp only [decide_eq_true_eq, num_literal_end_rule, hlit]
    constructor
    · rintro (h | h)
      · exact Or.inr (Or.inl ⟨h, fun q hq => by cases hq⟩)
      · exact Or.inr (Or.inr h)
    · rintro (⟨-, h2⟩ | ⟨h1, -⟩ | h)
      · cases h2
      · exact Or.inl h1
      · exact Or.inr h
  · intro s hst hsuc
    constructor
    · intro h
      refine ⟨{ s with fin := ungetc c (is_num_literal_end c s.fin).2, success := true },
        ?_, rfl, rfl, rfl, ?_, ?_⟩
      · simp only [parse_switch, hst]
        cases hr : is_num_literal_end c s.fin with
        | mk r f1 =>
          rw [hr] at h
          simp only at h
          simp [h]
      · rw [parse_emit_done _ rfl (by simp [emittable, hst])]
      · rw [parse_emit_done _ rfl (by simp [emittable, hst])]
        simp [hst]
    · intro h
      refine ⟨{ s with fin := (is_num_literal_end c s.fin).2
                       lexeme := buf_set s.lexeme s.index c
                       index := s.index + 1 },
        ?_, rfl, rfl, rfl, ?_, hst, rfl⟩
      · simp only [parse_switch, hst]
        cases hr : is_num_literal_end c s.fin with
        | mk r f1 =>
          rw [hr] at h
          simp only at h
          simp [h]
      · exact parse_emit_skip _ hsuc

/-- C16 (as amended): at every loop head of a scan inside the arrays, from a lexeme array
that starts clean: in Idle the index is zero and the array is all NUL, or still as it was at
the start, or still holds the line last written, and what the next pass classifies against
is the array emptied; in any other state the array holds the characters of the token in
progress, `index` of them, and NUL everywhere else, so never characters of another token.
Writing a token resets the state and the index and leaves in the array the line written. -/
theorem lexeme_buffer_invariant (stack : Buffer) (fin : FILE) (k : Nat) (s : Scan)
    (hclean : starts_clean stack)
    (hin : parse_run_within k (parse_start stack fin) = true)
    (hrun : parse_run k (parse_start stack fin) = Step.next s) :
    (s.state = State.NORMAL →
        s.index = 0
          ∧ (all_nul s.lexeme
              ∨ (s.tokens = [] ∧ s.lexeme = stack.take MAX_BUFFER)
              ∨ ∃ t, s.tokens.getLast? = some t ∧ cstr s.lexeme = token_line t)
          ∧ all_nul (if buf_get s.lexeme 0 ≠ NUL then init_buffer s.lexeme MAX_BUFFER
              else s.lexeme))
      ∧ (s.state ≠ State.NORMAL →
          ∃ pending, holds s.lexeme pending ∧ s.index = pending.length)
      ∧ (∀ s1 : Scan, s1.success = true → emittable s1.state →
          (parse_emit s1).state = State.NORMAL ∧ (parse_emit s1).index = 0
            ∧ cstr (parse_emit s1).lexeme = token_line ⟨cstr s1.lexeme, s1.state⟩) := by
  have hS := shape_run stack fin hclean k s hin hrun
  refine ⟨?_, ?_, ?_⟩
  · intro hn
    obtain ⟨hidx, hlex⟩ := hS.idle hn
    refine ⟨hidx, ?_, ?_⟩
    · rcases hlex with h | ⟨-, h | h⟩
      · exact Or.inl h
      · exact Or.inr (Or.inl h)
      · exact Or.inr (Or.inr h)
    · rcases hlex with ha | ⟨hz, -⟩
      · have : buf_get s.lexeme 0 = NUL := all_nul_get _ ha 0
        simp only [this, ne_eq, not_true_eq_false, if_false]
        exact ha
      · simp only [hz, ne_eq, not_false_eq_true, if_true]
        exact (init_buffer_all_nul _ _ hS.room).1
  · intro hn
    obtain ⟨pending, hp, hidx, -⟩ := hS.busy hn
    exact ⟨pending, hp, hidx⟩
  · intro s1 h1 he
    obtain ⟨-, -, -, -, hn⟩ := tokens_label s1.state he
    have hnl : NUL ∉ [NEWLINE] := by decide
    rw [parse_emit_done s1 h1 he]
    refine ⟨rfl, rfl, ?_⟩
    simp only [token_line]
    rw [cstr_strcat _ _ hnl, cstr_strcat _ _ hn]

/-- Witness of C16: the loop head reached after the two characters of `<=`, the array
holding stale characters at the start. -/
theorem lexeme_buffer_invariant_witness :
    starts_clean "stale".toList
      ∧ parse_run_within 2 (parse_start "stale".toList "<=".toList) = true
      ∧ parse_run 2 (parse_start "stale".toList "<=".toList)
          = Step.next ⟨[], "<= (operator)".toList ++ [NEWLINE],
              [⟨"<=".toList, State.OPERATOR⟩],
              "<= (operator)".toList ++ [NEWLINE, NUL], 0, false, State.NORMAL⟩
      ∧ ((State.NORMAL = State.NORMAL →
            0 = 0
              ∧ (all_nul ("<= (operator)".toList ++ [NEWLINE, NUL])
                  ∨ ([(⟨"<=".toList, State.OPERATOR⟩ : Token)] = []
                      ∧ "<= (operator)".toList ++ [NEWLINE, NUL]
                          = "stale".toList.take MAX_BUFFER)
                  ∨ ∃ t, [(⟨"<=".toList, State.OPERATOR⟩ : Token)].getLast? = some t
                      ∧ cstr ("<= (operator)".toList ++ [NEWLINE, NUL]) = token_line t)
              ∧ all_nul (if buf_get ("<= (operator)".toList ++ [NEWLINE, NUL]) 0 ≠ NUL
                  then init_buffer ("<= (operator)".toList ++ [NEWLINE, NUL]) MAX_BUFFER
                  else "<= (operator)".toList ++ [NEWLINE, NUL]))
        ∧ (State.NORMAL ≠ State.NORMAL →
            ∃ pending, holds ("<= (operator)".toList ++ [NEWLINE, NUL]) pending
              ∧ 0 = pending.length)
        ∧ (∀ s1 : Scan, s1.success = true → emittable s1.state →
            (parse_emit s1).state = State.NORMAL ∧ (parse_emit s1).index = 0
              ∧ cstr (parse_emit s1).lexeme = token_line ⟨cstr s1.lexeme, s1.state⟩)) :=
  ⟨Or.inl (by decide), by decide, by decide,
    lexeme_buffer_invariant "stale".toList "<=".toList 2
      ⟨[], "<= (operator)".toList ++ [NEWLINE], [⟨"<=".toList, State.OPERATOR⟩],
        "<= (operator)".toList ++ [NEWLINE, NUL], 0, false, State.NORMAL⟩
      (Or.inl (by decide)) (by decide) (by decide)⟩

/-- C16 as stated fails: after the two characters of `<=` the token is written and the state
is Idle again, and the array, far from empty, holds the line `<= (operator)`. -/
theorem lexeme_buffer_invariant_counterexample :
    parse_run 2 (parse_init "<=".toList)
        = Step.next ⟨[], "<= (operator)".toList ++ [NEWLINE],
            [⟨"<=".toList, State.OPERATOR⟩],
            "<= (operator)".toList ++ [NEWLINE, NUL], 0, false, State.NORMAL⟩
      ∧ cstr ("<= (operator)".toList ++ [NEWLINE, NUL]) ≠ []
      ∧ buf_get ("<= (operator)".toList ++ [NEWLINE, NUL]) 0 = '<' := by
  decide

/-- C17: for every input, whatever the lexeme array holds when the scan starts (and so for
the scan from a zero-filled array), a token written as keyword or identifier is a keyword
exactly when its lexeme is one of the 37 reserved words, compared as they are spelled:
`Loop` and `loops` are identifiers, `loop` is a keyword. -/
theorem keyword_by_membership (stack : Buffer) (fin : FILE) :
    (∀ t ∈ (parse_from stack fin).tokens, t.state = State.KEYWORD ∨ t.state = State.IDENTIFIER →
        (t.state = State.KEYWORD ↔ t.lexeme ∈ keywords))
      ∧ (∀ t ∈ (parse fin).tokens, t.state = State.KEYWORD ∨ t.state = State.IDENTIFIER →
        (t.state = State.KEYWORD ↔ t.lexeme ∈ keywords))
      ∧ keywords.length = 37
      ∧ (parse "Loop loops loop ".toList).tokens
          = [⟨"Loop".toList, State.IDENTIFIER⟩, ⟨"loops".toList, State.IDENTIFIER⟩,
              ⟨"loop".toList, State.KEYWORD⟩] := by
  have key : ∀ (st : Buffer), ∀ t ∈ (parse_from st fin).tokens, word_ok t := by
    intro st
    exact parse_loop_induct (Cells False) (fun o => ∀ t ∈ o.tokens, word_ok t)
      (fun a b ha hab => cells_step False a b ha hab)
      (fun a o ha hl => by
        show ∀ t ∈ o.tokens, word_ok t
        rw [(parse_step_leave a o hl).2]
        exact fun t ht => (ha.toks t ht).1)
      (fun a ha => fun t ht => (ha.toks t ht).1)
      (2 * fin.length + 1) (parse_start st fin) (cells_init st fin)
  have fin_ok : ∀ (st : Buffer), ∀ t ∈ (parse_from st fin).tokens,
      t.state = State.KEYWORD ∨ t.state = State.IDENTIFIER →
        (t.state = State.KEYWORD ↔ t.lexeme ∈ keywords) := by
    intro st t ht hst
    obtain ⟨hk, hi⟩ := key st t ht
    constructor
    · exact hk
    · intro hmem
      rcases hst with h | h
      · exact h
      · exact absurd hmem (hi h)
  exact ⟨fin_ok stack, fin_ok [], by decide, by decide⟩

/-- C18: for a character that is not whitespace, read in Idle when nothing is left in the
stream, `is_comment` returns `EOF` and `set_state` answers `COMMENT`: the last character is
never classified as unknown, operator, keyword, string, character literal or numeric
literal. -/
theorem final_char_is_comment (c : Char) (hc : isspace c = false) :
    set_state [] c = (State.COMMENT, [])
      ∧ is_comment c [] = (EOF, [])
      ∧ (set_state [] c).1 ≠ State.UNKNOWN ∧ (set_state [] c).1 ≠ State.OPERATOR
      ∧ (set_state [] c).1 ≠ State.KEYWORD ∧ (set_state [] c).1 ≠ State.STRING
      ∧ (set_state [] c).1 ≠ State.CHAR_LITERAL ∧ (set_state [] c).1 ≠ State.NUM_LITERAL := by
  have h1 : is_comment c [] = (EOF, []) := by
    simp [is_comment, fpeek_one_nil]
  have h2 : set_state [] c = (State.COMMENT, []) := by
    have : ¬ (EOF = 0) := by decide
    simp [set_state, hc, h1, this]
  rw [h2]
  exact ⟨rfl, h1, by decide, by decide, by decide, by decide, by decide, by decide⟩

/-- Witness of C18: the character `@` read last. -/
theorem final_char_is_comment_witness :
    isspace '@' = false
      ∧ (set_state [] '@' = (State.COMMENT, [])
      ∧ is_comment '@' [] = (EOF, [])
      ∧ (set_state [] '@').1 ≠ State.UNKNOWN ∧ (set_state [] '@').1 ≠ State.OPERATOR
      ∧ (set_state [] '@').1 ≠ State.KEYWORD ∧ (set_state [] '@').1 ≠ State.STRING
      ∧ (set_state [] '@').1 ≠ State.CHAR_LITERAL ∧ (set_state [] '@').1 ≠ State.NUM_LITERAL) :=
  ⟨by decide, final_char_is_comment '@' (by decide)⟩

/-- C19: the loop of every scan is left, normally or by the fatal exit, after at most twice
as many passes as the input has characters, well within the iteration budget of `parse`;
and at every loop head reached, a pass from Idle consumes the character it reads, and a pass
that leaves the stream longer than it found it, by pushing the current character back,
completes a token and returns to Idle. -/
theorem scan_terminates (fin : FILE) :
    (∃ k o, k ≤ 2 * fin.length
        ∧ (∃ s, parse_run k (parse_init fin) = Step.next s)
        ∧ parse_run (k + 1) (parse_init fin) = Step.leave o
        ∧ parse fin = o ∧ o.ending ≠ Ending.fuel)
      ∧ (∀ k s, parse_run k (parse_init fin) = Step.next s →
          ∀ ch f1 s1, s.fin = ch :: f1 → parse_switch ch { s with fin := f1 } = some s1 →
            (s.state = State.NORMAL → s1.fin.length ≤ f1.length)
              ∧ (f1.length < s1.fin.length →
                  s1.fin.length = f1.length + 1
                    ∧ (parse_emit s1).state = State.NORMAL
                    ∧ (parse_emit s1).tokens = s.tokens ++ [⟨cstr s1.lexeme, s1.state⟩])) := by
  constructor
  · have hm : scan_measure (parse_init fin) = 2 * fin.length := by
      simp [scan_measure, parse_init]
    obtain ⟨k, o, hk, hs, hl, hp, he⟩ :=
      parse_loop_terminates (2 * fin.length + 1) (parse_init fin) rfl (by omega)
    exact ⟨k, o, by omega, hs, hl, hp, he⟩
  · intro k s hrun ch f1 s1 hfin hsw
    have hs := parse_run_success fin k s hrun
    obtain ⟨hA, hD, hC⟩ := parse_switch_progress ch _ s1 hsw hs
    obtain ⟨htk, -⟩ := parse_switch_tokens ch _ s1 hsw
    simp only at hA hD hC htk
    constructor
    · intro hn
      exact hD (hC hn)
    · intro hlt
      have h1 : s1.success = true := by
        cases h : s1.success with
        | true => rfl
        | false => have := hD h; omega
      have he := parse_switch_success ch _ s1 hsw hs h1
      rw [parse_emit_done s1 h1 he]
      exact ⟨by omega, rfl, by simp [htk]⟩

/-- C20, the code at the failing input: on every input that begins with `/*/`, whatever the
lexeme array holds, the scan leaves an array in its second pass.  The star is read in the
state `COMMENT` and `is_comment_end` peeks the slash after it into its `char peek[1]`; the
peek succeeds, and `fpeek` stores the terminator in `peek[1]`, one cell past the array (the
defect of C9).  So it is on `/*/ab`.  Where the store does no harm, the values computed give
the comment `/*/` and then the identifier `ab`. -/
theorem overlapping_delimiters_overrun :
    (∀ (stack : Buffer) (rest : FILE),
        parse_within stack ('/' :: '*' :: '/' :: rest) = false)
      ∧ parse_run_within 1 (parse_start [] "/*/ab ".toList) = true
      ∧ parse_run_within 2 (parse_start [] "/*/ab ".toList) = false
      ∧ is_comment_end '*' "/ab ".toList = (1, "/ab ".toList)
      ∧ is_comment_end_within "/ab ".toList = false
      ∧ (parse "/*/ab ".toList).tokens
          = [⟨"/*/".toList, State.COMMENT⟩, ⟨"ab".toList, State.IDENTIFIER⟩] := by
  refine ⟨?_, by decide, by decide, by decide, by decide, by decide⟩
  intro stack rest
  unfold parse_within
  have : 2 * ('/' :: '*' :: '/' :: rest).length + 1 = (2 * rest.length + 5) + 2 := by
    simp only [List.length_cons]; omega
  rw [this]
  exact comment_overrun stack '/' rest _

end CcxLexer
